import Mathlib

/-!
# DeepTrace agent event store, stack comparison and text utilities

A shallow embedding of `pkg/agent/util/storage` (the persistent event/alert
store of the DeepTrace agent, namespace `Storage`), of `ThreadsStacksEqual`
of `pkg/rules` (namespace `Rules`), of `CompareRank` of `pkg/client/utils`
(`Utils`), of `parseRankRangeOutput` of `pkg/agent/util/scripts` (`Scripts`),
of `readRankLogTail` and `GetRecentLogs` of `pkg/agent/logtail` (`Logtail`) and
of `StackParser.Parse` of `pkg/agent/util/textparser` (`Textparser`), together
with theorems about them.  The functions of the Go library they call are in
namespace `Go`.

Modelling conventions.

* Go maps are association lists (`List (String × β)`) read with `mapGet` and
  written with `mapSet`; the iteration order of a Go map is unspecified, the
  list order stands for one such order.
* The file system is explicit state (`Disk`).  A regular file is described by
  the length of its bytes and by what `json.Unmarshal` makes of them
  (`none`: the bytes do not parse).  `json.MarshalIndent` fails on a `Metadata`
  value that `encoding/json` does not support; otherwise `json.MarshalIndent`
  followed by `json.Unmarshal` is taken to give back the same event list, and
  the length of the marshalled bytes is supplied by the environment
  (`Env.marshalLen`).
* Write faults are part of the file-system state.  A path of `Disk.readOnly`
  cannot be opened for writing (permission denied): the call fails and the file
  is as it was.  A path of `Disk.cutShort` can be opened, but its device fails
  during the write (device full, quota, I/O error): `os.WriteFile` has
  truncated the file by then, so the call fails and leaves a proper prefix of
  the bytes, which does not parse.  The store never changes the faults;
  `Reachable` follows a store through calls between which nothing else changes
  the file system either, and the statements about arbitrary states cover
  faults that arise after a store was opened.
* `time.Now`, `uuid.New` and the process environment are oracles (`Env`);
  the `k`-th reading made during a call is `env.now k`, `env.uuid k`, ...
* `int64`/`int32` fields are only compared, never computed with, so they are
  integers; the `int32` frame counter of `ThreadsStacksEqual` is computed with
  and wraps around (`Rules.toInt32`).
* `sync.Mutex` is not reentrant: locking a mutex that is already held never
  returns (`Outcome.blocked`).  Only `currentMutex` is ever acquired while it
  may be held, so it is the only mutex whose state is tracked.
* Go strings are taken to be valid UTF-8 and are Lean strings; `int` has 64
  bits (`Go.maxInt`, `Go.minInt`), and `strconv.Atoi` reports a range error
  outside it.
* A `bufio.Scanner` with `ScanLines` delivers the raw lines of a text without
  their trailing carriage return and stops with `ErrTooLong` at a raw line that
  does not fit its buffer (`Go.scanLines`).
* The regular expressions of the source are modelled by the search they
  perform (`Go.findDigits`, `Textparser.findHeader`).
* A run-time panic is a result of its own (`Logtail.Res.panic`).
-/

namespace Storage

/-! ## Association lists standing for Go maps -/

/-- Lookup `m[k]` with the comma-ok idiom. -/
def mapGet {β : Type} : List (String × β) → String → Option β
  | [], _ => none
  | (k, v) :: m, q => if k = q then some v else mapGet m q

/-- Assignment `m[k] = v`. -/
def mapSet {β : Type} : List (String × β) → String → β → List (String × β)
  | [], q, b => [(q, b)]
  | (k, v) :: m, q, b => if k = q then (k, b) :: m else (k, v) :: mapSet m q b

/-- Builtin `delete(m, k)`. -/
def mapDelete {β : Type} : List (String × β) → String → List (String × β)
  | [], _ => []
  | (k, v) :: m, q => if k = q then mapDelete m q else (k, v) :: mapDelete m q

/-! ## types.go -/

/-- A value of a `Metadata` map (an `interface{}`): one that `encoding/json` marshals,
given by its JSON text, or one that it does not support (a channel, a function, a
complex number, a NaN). -/
inductive MetaValue where
  | json (text : String)
  | unsupported
deriving DecidableEq, Repr

/-- Type `Metadata` (`map[string]interface{}`). -/
abbrev Metadata := List (String × MetaValue)

/-- Struct `EventEntry` of types.go (`Type` is spelled `Type_`). -/
structure EventEntry where
  ID : String
  Source : String
  Type_ : String
  JobID : String
  Message : String
  Timestamp : Int
  Severity : Int
  Metadata : Metadata
  Processed : Bool
  ProcessedAt : Int
deriving DecidableEq, Repr

/-- Struct `FileIndex` of types.go; `EventTypes` lists the keys of the
`map[string]bool`, whose values are always `true`. -/
structure FileIndex where
  Path : String
  MinTime : Int
  MaxTime : Int
  MaxSeverity : Int
  EventTypes : List String
  AllProcessed : Bool
deriving DecidableEq, Repr

/-- Struct `EventFilter` of types.go. -/
structure EventFilter where
  StartTime : Int
  EndTime : Int
  MinSeverity : Int
  Type_ : String
  Source : String
  JobID : String
  Unprocessed : Bool
deriving DecidableEq, Repr

/-- Struct `EventUpdate` of update.go. -/
structure EventUpdate where
  Processed : Bool
  ProcessedAt : Int
deriving DecidableEq, Repr

/-- Struct `PendingUpdateManager` of update.go: filePath -> eventID -> update. -/
structure PendingUpdateManager where
  updates : List (String × List (String × EventUpdate))
deriving DecidableEq, Repr

/-- Struct `FileLockManager` of lock_manager.go; a `*sync.Mutex` is identified by
the number it was allocated under. -/
structure FileLockManager where
  locks : List (String × Nat)
deriving DecidableEq, Repr

/-! ## The file system -/

/-- Bytes of a regular file: their length and their `json.Unmarshal` reading. -/
structure FileData where
  size : Nat
  events : Option (List EventEntry)
deriving DecidableEq, Repr

/-- A directory or a regular file. -/
inductive Node where
  | dir
  | file (data : FileData)
deriving DecidableEq, Repr

/-- The file system: nodes by path, the paths that cannot be opened for writing
(permission denied), and the paths whose device fails during a write (device full),
each with a bound on the number of bytes that reach the file before the failure. -/
structure Disk where
  nodes : List (String × Node)
  readOnly : List String
  cutShort : List (String × Nat)
deriving DecidableEq, Repr

/-- How a write ends: without error, or with an error; in both cases with the file
system it leaves behind. -/
inductive WriteResult where
  | ok (d : Disk)
  | err (d : Disk)
deriving DecidableEq, Repr

/-- Function `os.ReadFile`; `none` is an error. -/
def readFile (d : Disk) (path : String) : Option FileData :=
  match mapGet d.nodes path with
  | some (Node.file data) => some data
  | _ => none

/-- Function `os.WriteFile`: the file is opened with `O_WRONLY|O_CREATE|O_TRUNC`, then
written.  When the open is refused the file system is as it was.  When the write is
cut short the file has been truncated by the open and holds a proper prefix of the
bytes, which does not parse. -/
def writeFile (d : Disk) (path : String) (data : FileData) : WriteResult :=
  if path ∈ d.readOnly then WriteResult.err d
  else match mapGet d.nodes path with
    | some Node.dir => WriteResult.err d
    | _ =>
      match mapGet d.cutShort path with
      | some n =>
        WriteResult.err
          { d with nodes := mapSet d.nodes path (Node.file ⟨min n (data.size - 1), none⟩) }
      | none => WriteResult.ok { d with nodes := mapSet d.nodes path (Node.file data) }

/-- The events a path holds: the file exists and parses. -/
def fileEvents (d : Disk) (path : String) : Option (List EventEntry) :=
  match readFile d path with
  | some data => data.events
  | none => none

/-- Strip a prefix from a list of characters. -/
def stripPrefix? : List Char → List Char → Option (List Char)
  | [], s => some s
  | _ :: _, [] => none
  | c :: p, d :: s => if c = d then stripPrefix? p s else none

/-- Function `filepath.Join(baseDir, name)` for a clean `baseDir`. -/
def joinPath (baseDir name : String) : String :=
  baseDir ++ "/" ++ name

/-- The name under which `path` is listed in directory `baseDir`, if it is one
of its direct children. -/
def childName? (baseDir path : String) : Option String :=
  match stripPrefix? (baseDir ++ "/").data path.data with
  | some r => if r ≠ [] ∧ '/' ∉ r then some (String.mk r) else none
  | none => none

/-- A directory entry as returned by `os.ReadDir`. -/
structure DirEntry where
  name : String
  isDir : Bool
deriving DecidableEq, Repr

/-- Function `os.ReadDir`; `none` is an error (not a directory). -/
def readDir (d : Disk) (baseDir : String) : Option (List DirEntry) :=
  match mapGet d.nodes baseDir with
  | some Node.dir =>
    some (d.nodes.filterMap fun pn =>
      match childName? baseDir pn.1 with
      | some name => some ⟨name, decide (pn.2 = Node.dir)⟩
      | none => none)
  | _ => none

/-- Function `os.MkdirAll`; fails when the path is taken by a regular file or
cannot be created. -/
def mkdirAll (d : Disk) (path : String) : Option Disk :=
  match mapGet d.nodes path with
  | some Node.dir => some d
  | some (Node.file _) => none
  | none => if path ∈ d.readOnly then none
            else some { d with nodes := mapSet d.nodes path Node.dir }

/-- Function `filepath.Ext` on the characters of a name, scanned from the end. -/
def extRev : List Char → List Char → List Char
  | [], _ => []
  | c :: rest, acc =>
    if c = '/' then []
    else if c = '.' then c :: acc
    else extRev rest (c :: acc)

/-- Function `filepath.Ext`. -/
def Ext (name : String) : String :=
  String.mk (extRev name.data.reverse [])

/-- Function `strings.Contains`. -/
def Contains (s substr : String) : Bool :=
  decide (substr.data <:+: s.data)

/-! ## The environment -/

/-- What a call reads from outside the store. -/
structure Env where
  /-- Successive readings of `time.Now().UnixMilli()`. -/
  now : Nat → Int
  /-- Successive results of `uuid.New().String()`. -/
  uuid : Nat → String
  /-- Successive results of `time.Now().Format("20060102")`. -/
  date : Nat → String
  /-- Length of `json.MarshalIndent` of an event file. -/
  marshalLen : List EventEntry → Nat
  /-- Environment variable `NODE_RANK`. -/
  nodeRank : String
  /-- Environment variable `WORK_DIR`. -/
  workDir : String

/-! ## The store -/

/-- Struct `EventStorage` of types.go, together with the file system it works
on.  `currentMutex` is `true` while the mutex is held. -/
structure EventStorage where
  baseDir : String
  filePrefix : String
  maxFileSize : Int
  currentFile : String
  currentMutex : Bool
  fileIndexes : List (String × FileIndex)
  pendingUpdates : PendingUpdateManager
  lockManager : FileLockManager
  disk : Disk
deriving DecidableEq, Repr

/-- How a call ends. -/
inductive Outcome (α : Type) where
  /-- It returned `v` and a nil error. -/
  | ok (v : α) (s : EventStorage)
  /-- It returned a non-nil error. -/
  | fail (s : EventStorage)
  /-- It never returns: it waits for a mutex that is never released. -/
  | blocked
  /-- The recursion budget of the model is used up. -/
  | fuel
deriving DecidableEq, Repr

def defaultBaseDir : String := "/tmp"

def defaultMaxSize : Int := 10 * 1024 * 1024

/-! ## lock_manager.go, update.go -/

/-- Method `FileLockManager.GetLock`: the mutex of the path, allocated on first use. -/
def GetLock (m : FileLockManager) (filePath : String) : Nat × FileLockManager :=
  match mapGet m.locks filePath with
  | some mu => (mu, m)
  | none => (m.locks.length, ⟨mapSet m.locks filePath m.locks.length⟩)

/-- Method `PendingUpdateManager.AddUpdate`. -/
def AddUpdate (m : PendingUpdateManager) (filePath eventID : String)
    (update : EventUpdate) : PendingUpdateManager :=
  match mapGet m.updates filePath with
  | some fileUpdates => ⟨mapSet m.updates filePath (mapSet fileUpdates eventID update)⟩
  | none => ⟨mapSet m.updates filePath (mapSet [] eventID update)⟩

/-! ## event_storage.go -/

/-- Function `getBaseDir`. -/
def getBaseDir (env : Env) : String :=
  if env.workDir = "" then defaultBaseDir else env.workDir

/-- Method `initFile`: `O_WRONLY|O_CREATE|O_EXCL`, then the 13 bytes
`{"events":[]}`.  When the open is refused (no permission, or the path exists) the
file system is as it was; when the write is cut short the file has been created and
holds fewer than the 13 bytes. -/
def initFile (d : Disk) (path : String) : WriteResult :=
  if path ∈ d.readOnly then WriteResult.err d
  else match mapGet d.nodes path with
    | some _ => WriteResult.err d
    | none =>
      match mapGet d.cutShort path with
      | some n =>
        WriteResult.err { d with nodes := mapSet d.nodes path (Node.file ⟨min n 12, none⟩) }
      | none => WriteResult.ok { d with nodes := mapSet d.nodes path (Node.file ⟨13, some []⟩) }

/-- Method `rotateIfNeeded`; it locks `currentMutex` itself. -/
def rotateIfNeeded (env : Env) (k : Nat) (s : EventStorage) : Outcome Unit :=
  if s.currentMutex then Outcome.blocked
  else
    let newFileName := s.filePrefix ++ env.date k ++ "_" ++
      String.mk ((env.uuid (k + 1)).data.take 8) ++ ".json"
    let s1 := { s with currentMutex := true, currentFile := joinPath s.baseDir newFileName }
    match initFile s1.disk s1.currentFile with
    | WriteResult.err d => Outcome.fail { s1 with disk := d, currentMutex := false }
    | WriteResult.ok d => Outcome.ok () { s1 with disk := d, currentMutex := false }

/-- Insertion of a key into `EventTypes`. -/
def setType (types : List String) (t : String) : List String :=
  if t ∈ types then types else t :: types

/-- Method `updateFileIndex`. -/
def updateFileIndex (s : EventStorage) (path : String) (event : EventEntry) : EventStorage :=
  match mapGet s.fileIndexes path with
  | some idx =>
    let idx1 := if event.Timestamp < idx.MinTime then { idx with MinTime := event.Timestamp } else idx
    let idx2 := if event.Timestamp > idx1.MaxTime then { idx1 with MaxTime := event.Timestamp } else idx1
    let idx3 := if event.Severity > idx2.MaxSeverity then { idx2 with MaxSeverity := event.Severity } else idx2
    let idx4 := { idx3 with AllProcessed := false, EventTypes := setType idx3.EventTypes event.Type_ }
    { s with fileIndexes := mapSet s.fileIndexes path idx4 }
  | none =>
    let idx : FileIndex :=
      { Path := path, MinTime := event.Timestamp, MaxTime := event.Timestamp,
        MaxSeverity := event.Severity, EventTypes := [event.Type_], AllProcessed := false }
    { s with fileIndexes := mapSet s.fileIndexes path idx }

/-- The loop of `indexFile` over the events; the flag is `hasUnprocessed`. -/
def indexLoop : List EventEntry → FileIndex → Bool → FileIndex × Bool
  | [], idx, hasUnprocessed => (idx, hasUnprocessed)
  | event :: rest, idx, hasUnprocessed =>
    let idx1 := if event.Timestamp < idx.MinTime then { idx with MinTime := event.Timestamp } else idx
    let idx2 := if event.Timestamp > idx1.MaxTime then { idx1 with MaxTime := event.Timestamp } else idx1
    let idx3 := if event.Severity > idx2.MaxSeverity then { idx2 with MaxSeverity := event.Severity } else idx2
    let hasUnprocessed1 := if !event.Processed then true else hasUnprocessed
    indexLoop rest { idx3 with EventTypes := setType idx3.EventTypes event.Type_ } hasUnprocessed1

/-- The index `indexFile` computes for a non-empty event list. -/
def buildIndex (path : String) (first : EventEntry) (events : List EventEntry) : FileIndex :=
  let r := indexLoop events
    { Path := path, MinTime := first.Timestamp, MaxTime := first.Timestamp,
      MaxSeverity := 0, EventTypes := [], AllProcessed := false } false
  { r.1 with AllProcessed := !r.2 }

/-- Method `indexFile`; the flag is `true` for a non-nil error. -/
def indexFile (s : EventStorage) (path : String) : Bool × EventStorage :=
  match readFile s.disk path with
  | none => (true, s)
  | some data =>
    match data.events with
    | none => (true, s)
    | some [] => (false, s)
    | some (first :: rest) =>
      let idx := buildIndex path first (first :: rest)
      (false, { s with fileIndexes := mapSet s.fileIndexes path idx })

/-- The loop of `initializeStorage` over the directory entries. -/
def indexDir : List DirEntry → EventStorage → EventStorage
  | [], s => s
  | file :: rest, s =>
    if file.isDir || decide (Ext file.name ≠ ".json") || !Contains file.name s.filePrefix then
      indexDir rest s
    else
      indexDir rest (indexFile s (joinPath s.baseDir file.name)).2

/-- Method `initializeStorage`. -/
def initializeStorage (env : Env) (k : Nat) (s : EventStorage) : Outcome Unit :=
  match readDir s.disk s.baseDir with
  | none => Outcome.fail s
  | some files => rotateIfNeeded env k (indexDir files s)

/-- Function `NewEventStorage` run on a file system; on failure Go returns no
store, the `fail` outcome carries the discarded value. -/
def NewEventStorage (env : Env) (disk : Disk) (baseDir : String) (maxFileSize : Int) :
    Outcome Unit :=
  let baseDir1 := if baseDir = "" then getBaseDir env else baseDir
  let maxFileSize1 := if maxFileSize ≤ 0 then defaultMaxSize else maxFileSize
  let storage : EventStorage :=
    { baseDir := baseDir1, filePrefix := "rank" ++ env.nodeRank ++ "_events_",
      maxFileSize := maxFileSize1, currentFile := "", currentMutex := false,
      fileIndexes := [], pendingUpdates := ⟨[]⟩, lockManager := ⟨[]⟩, disk := disk }
  match mkdirAll disk baseDir1 with
  | none => Outcome.fail storage
  | some d => initializeStorage env 0 { storage with disk := d }

/-- The deferred `s.currentMutex.Unlock()` of `StoreEvent`. -/
def unlockCurrent {α : Type} : Outcome α → Outcome α
  | Outcome.ok v s => Outcome.ok v { s with currentMutex := false }
  | Outcome.fail s => Outcome.fail { s with currentMutex := false }
  | Outcome.blocked => Outcome.blocked
  | Outcome.fuel => Outcome.fuel

/-- The entry `StoreEvent` stores for `event`: empty `ID`, zero `Timestamp` and
empty `Type` are filled in, reading the oracles from position `k` on. -/
def ensureFields (env : Env) (k : Nat) (event : EventEntry) : EventEntry :=
  let k1 := if event.ID = "" then k + 1 else k
  let event1 := if event.ID = "" then { event with ID := env.uuid k } else event
  let event2 := if event1.Timestamp = 0 then { event1 with Timestamp := env.now k1 } else event1
  if event2.Type_ = "" then { event2 with Type_ := "alert" } else event2

/-- Number of oracle readings `ensureFields` makes. -/
def ensureTicks (event : EventEntry) : Nat :=
  (if event.ID = "" then 1 else 0) + (if event.Timestamp = 0 then 1 else 0)

/-- Whether an entry holds a `Metadata` value that `encoding/json` does not support. -/
def unsupported (event : EventEntry) : Bool :=
  event.Metadata.any fun kv => decide (kv.2 = MetaValue.unsupported)

/-- Function `json.MarshalIndent` on the content of an event file; `none` is an error
(an entry holds an unsupported value), otherwise the bytes: their length and, since
they parse back to the same list, the list itself. -/
def MarshalIndent (env : Env) (events : List EventEntry) : Option FileData :=
  if events.any unsupported then none
  else some ⟨env.marshalLen events, some events⟩

/-- Method `StoreEvent`; the first argument bounds the depth of the recursion. -/
def StoreEvent (env : Env) : Nat → Nat → EventStorage → EventEntry → Outcome String
  | 0, _, _, _ => Outcome.fuel
  | fuel + 1, k, s, event0 =>
    let event := ensureFields env k event0
    let k1 := k + ensureTicks event0
    if s.currentMutex then Outcome.blocked
    else
      let s1 := { s with currentMutex := true }
      unlockCurrent <|
        match readFile s1.disk s1.currentFile with
        | none => Outcome.fail s1
        | some data =>
          match data.events with
          | none => Outcome.fail s1
          | some events =>
            if (data.size : Int) > s1.maxFileSize then
              match rotateIfNeeded env k1 s1 with
              | Outcome.ok _ s2 => StoreEvent env fuel (k1 + 2) s2 event
              | Outcome.fail s2 => Outcome.fail s2
              | Outcome.blocked => Outcome.blocked
              | Outcome.fuel => Outcome.fuel
            else
              let events1 := events ++ [event]
              match MarshalIndent env events1 with
              | none => Outcome.fail s1
              | some newData =>
                match writeFile s1.disk s1.currentFile newData with
                | WriteResult.err d => Outcome.fail { s1 with disk := d }
                | WriteResult.ok d =>
                  let s2 := updateFileIndex { s1 with disk := d } s1.currentFile event
                  Outcome.ok s2.currentFile s2

/-- Method `getCandidateFiles`. -/
def getCandidateFiles (s : EventStorage) (filter : EventFilter) : List String :=
  s.fileIndexes.filterMap fun pi =>
    let idx := pi.2
    if idx.MaxTime < filter.StartTime || idx.MinTime > filter.EndTime then none
    else if idx.MaxSeverity < filter.MinSeverity then none
    else if filter.Type_ ≠ "" && !decide (filter.Type_ ∈ idx.EventTypes) then none
    else if filter.Unprocessed && idx.AllProcessed then none
    else some pi.1

/-- Method `MarkPendingProcessed`. -/
def MarkPendingProcessed (env : Env) (k : Nat) (s : EventStorage) (eventID filePath : String) :
    EventStorage :=
  let m := AddUpdate s.pendingUpdates filePath eventID ⟨true, env.now k⟩
  { s with pendingUpdates := m }

/-- The `continue` conditions of the loop of `loadFile`. -/
def skips (filter : EventFilter) (event : EventEntry) : Bool :=
  (event.Timestamp < filter.StartTime || event.Timestamp > filter.EndTime) ||
  event.Severity < filter.MinSeverity ||
  (filter.Type_ ≠ "" && event.Type_ ≠ filter.Type_) ||
  (filter.Source ≠ "" && event.Source ≠ filter.Source) ||
  (filter.JobID ≠ "" && event.JobID ≠ filter.JobID) ||
  (filter.Unprocessed && event.Processed)

/-- The loop of `loadFile` over the events of the file. -/
def loadLoop (env : Env) (path : String) (filter : EventFilter) :
    List EventEntry → EventStorage → Nat → List EventEntry × EventStorage × Nat
  | [], s, k => ([], s, k)
  | event :: rest, s, k =>
    if skips filter event then loadLoop env path filter rest s k
    else
      let r := loadLoop env path filter rest (MarkPendingProcessed env k s event.ID path) (k + 1)
      (event :: r.1, r.2)

/-- Method `loadFile`; `none` is a non-nil error. -/
def loadFile (env : Env) (k : Nat) (s : EventStorage) (path : String) (filter : EventFilter) :
    Option (List EventEntry × EventStorage × Nat) :=
  match readFile s.disk path with
  | none => none
  | some data =>
    match data.events with
    | none => none
    | some events => some (loadLoop env path filter events s k)

/-- The loop of `LoadEvents` over the candidate files. -/
def loadCandidates (env : Env) (filter : EventFilter) :
    List String → List EventEntry → EventStorage → Nat → List EventEntry × EventStorage × Nat
  | [], allEvents, s, k => (allEvents, s, k)
  | path :: rest, allEvents, s, k =>
    match loadFile env k s path filter with
    | none => loadCandidates env filter rest allEvents s k
    | some r => loadCandidates env filter rest (allEvents ++ r.1) r.2.1 r.2.2

/-- Insertion step of the model of `sort.Slice`. -/
def insertBy {α : Type} (less : α → α → Bool) (x : α) : List α → List α
  | [] => [x]
  | y :: ys => if less x y then x :: y :: ys else y :: insertBy less x ys

/-- Function `sort.Slice` (which promises a sorted rearrangement and no
stability): insertion sort by `less`. -/
def sortSlice {α : Type} (less : α → α → Bool) : List α → List α
  | [] => []
  | x :: xs => insertBy less x (sortSlice less xs)

/-- The update loop of `applySingleFileUpdates`. -/
def applyUpdates (fileUpdates : List (String × EventUpdate)) :
    List EventEntry → List EventEntry × Bool
  | [] => ([], false)
  | event :: rest =>
    let r := applyUpdates fileUpdates rest
    match mapGet fileUpdates event.ID with
    | some update =>
      ({ event with Processed := update.Processed, ProcessedAt := update.ProcessedAt } :: r.1, true)
    | none => (event :: r.1, r.2)

/-- Method `applySingleFileUpdates`; the flag is `true` for a non-nil error.  The
per-file mutex is taken from the lock manager, locked and released again. -/
def applySingleFileUpdates (env : Env) (s : EventStorage) (filePath : String)
    (fileUpdates : List (String × EventUpdate)) : Bool × EventStorage :=
  let s1 := { s with lockManager := (GetLock s.lockManager filePath).2 }
  match readFile s1.disk filePath with
  | none => (true, s1)
  | some data =>
    match data.events with
    | none => (true, s1)
    | some events =>
      let r := applyUpdates fileUpdates events
      if !r.2 then (false, s1)
      else
        match MarshalIndent env r.1 with
        | none => (true, s1)
        | some newData =>
          match writeFile s1.disk filePath newData with
          | WriteResult.err d => (true, { s1 with disk := d })
          | WriteResult.ok d => (false, (indexFile { s1 with disk := d } filePath).2)

/-- The loop of `ApplyPendingUpdates` over the entries of the pending map. -/
def applyLoop (env : Env) :
    List (String × List (String × EventUpdate)) → EventStorage → EventStorage
  | [], s => s
  | (filePath, fileUpdates) :: rest, s =>
    if fileUpdates.length = 0 then applyLoop env rest s
    else
      let s1 := (applySingleFileUpdates env s filePath fileUpdates).2
      applyLoop env rest
        { s1 with pendingUpdates := ⟨mapDelete s1.pendingUpdates.updates filePath⟩ }

/-- Method `ApplyPendingUpdates`; the flag is `true` for a non-nil error. -/
def ApplyPendingUpdates (env : Env) (s : EventStorage) : Bool × EventStorage :=
  (false, applyLoop env s.pendingUpdates.updates s)

/-- The filter `LoadEvents` works with: a zero `EndTime` becomes the current time. -/
def effectiveFilter (env : Env) (k : Nat) (filter : EventFilter) : EventFilter :=
  if filter.EndTime = 0 then { filter with EndTime := env.now k } else filter

/-- Method `LoadEvents`. -/
def LoadEvents (env : Env) (k : Nat) (s : EventStorage) (filter0 : EventFilter) :
    Outcome (List EventEntry) :=
  let filter := effectiveFilter env k filter0
  let k1 := if filter0.EndTime = 0 then k + 1 else k
  let candidateFiles := getCandidateFiles s filter
  let r := loadCandidates env filter candidateFiles [] s k1
  let allEvents := sortSlice (fun a b => decide (a.Timestamp > b.Timestamp)) r.1
  let f := ApplyPendingUpdates env r.2.1
  if f.1 then Outcome.fail f.2
  else Outcome.ok allEvents f.2

/-! ## Notions used in the statements -/

/-- The update `applySingleFileUpdates` makes to one event. -/
def markEvent (fileUpdates : List (String × EventUpdate)) (event : EventEntry) : EventEntry :=
  match mapGet fileUpdates event.ID with
  | some update => { event with Processed := update.Processed, ProcessedAt := update.ProcessedAt }
  | none => event

/-- What the flush step `applySingleFileUpdates` leaves in the file at `path`: nothing is
written when no event is updated, when the entries do not marshal or when the file
cannot be opened for writing; a write that is cut short leaves a file that does not
parse. -/
def flushed (d : Disk) (path : String) (fileUpdates : List (String × EventUpdate)) :
    Option (List EventEntry) :=
  match fileEvents d path with
  | none => none
  | some events =>
    if (applyUpdates fileUpdates events).2 = false then some events
    else if events.any unsupported then some events
    else if path ∈ d.readOnly then some events
    else match mapGet d.cutShort path with
      | some _ => none
      | none => some (events.map (markEvent fileUpdates))

/-- The entries of the file at `path` that pass per-file filtering (none when
the file cannot be read or parsed). -/
def passing (d : Disk) (filter : EventFilter) (path : String) : List EventEntry :=
  match fileEvents d path with
  | some events => events.filter fun e => !skips filter e
  | none => []

/-- The filter predicates in the words of the specification. -/
def Matches (f : EventFilter) (e : EventEntry) : Prop :=
  (f.StartTime ≤ e.Timestamp ∧ e.Timestamp ≤ f.EndTime) ∧
  e.Severity ≥ f.MinSeverity ∧
  (f.Type_ = "" ∨ e.Type_ = f.Type_) ∧
  (f.Source = "" ∨ e.Source = f.Source) ∧
  (f.JobID = "" ∨ e.JobID = f.JobID) ∧
  (f.Unprocessed = false ∨ e.Processed = false)

/-- A file index is no tighter than a list of events. -/
def Covers (idx : FileIndex) (events : List EventEntry) : Prop :=
  ∀ e ∈ events,
    idx.MinTime ≤ e.Timestamp ∧ e.Timestamp ≤ idx.MaxTime ∧
    idx.MaxSeverity ≥ e.Severity ∧ e.Type_ ∈ idx.EventTypes ∧
    (idx.AllProcessed = true → e.Processed = true)

/-- The event files of a store: its active file, and the files of `baseDir`
that the start-up scan of `initializeStorage` selects by name. -/
def isEventFile (s : EventStorage) (path : String) : Prop :=
  path = s.currentFile ∨
  ∃ name, childName? s.baseDir path = some name ∧
    Ext name = ".json" ∧ Contains name s.filePrefix = true

/-- The file at `path`, when it holds at least one event, has an index entry
that covers its events. -/
def Indexed (s : EventStorage) (path : String) : Prop :=
  ∀ events, fileEvents s.disk path = some events → events ≠ [] →
    ∃ idx, mapGet s.fileIndexes path = some idx ∧ Covers idx events

/-- The states a store passes through between calls: opened by
`NewEventStorage`, then any sequence of returning `StoreEvent` and `LoadEvents`
calls. -/
inductive Reachable : EventStorage → Prop where
  | opened (env : Env) (disk : Disk) (baseDir : String) (maxFileSize : Int) (s : EventStorage) :
      NewEventStorage env disk baseDir maxFileSize = Outcome.ok () s → Reachable s
  | stored (env : Env) (fuel k : Nat) (s : EventStorage) (event : EventEntry) (path : String)
      (s1 : EventStorage) :
      Reachable s → StoreEvent env fuel k s event = Outcome.ok path s1 → Reachable s1
  | storeFailed (env : Env) (fuel k : Nat) (s : EventStorage) (event : EventEntry)
      (s1 : EventStorage) :
      Reachable s → StoreEvent env fuel k s event = Outcome.fail s1 → Reachable s1
  | loaded (env : Env) (k : Nat) (s : EventStorage) (filter : EventFilter)
      (events : List EventEntry) (s1 : EventStorage) :
      Reachable s → LoadEvents env k s filter = Outcome.ok events s1 → Reachable s1
  | loadFailed (env : Env) (k : Nat) (s : EventStorage) (filter : EventFilter)
      (s1 : EventStorage) :
      Reachable s → LoadEvents env k s filter = Outcome.fail s1 → Reachable s1

/-- What holds of a store between calls. -/
structure Inv (s : EventStorage) : Prop where
  mutexFree : s.currentMutex = false
  noPending : s.pendingUpdates.updates = []
  currentReadable : ∃ events, fileEvents s.disk s.currentFile = some events
  indexed : ∀ path, isEventFile s path → Indexed s path
  nodupIndex : (s.fileIndexes.map Prod.fst).Nodup
  currentWritable : s.currentFile ∉ s.disk.readOnly
  currentNotCut : mapGet s.disk.cutShort s.currentFile = none

/-- The parts of a store that only `NewEventStorage` sets. -/
def SameConfig (s s1 : EventStorage) : Prop :=
  s1.baseDir = s.baseDir ∧ s1.filePrefix = s.filePrefix ∧ s1.maxFileSize = s.maxFileSize ∧
  s1.currentFile = s.currentFile ∧ s1.currentMutex = s.currentMutex ∧
  s1.disk.readOnly = s.disk.readOnly ∧ s1.disk.cutShort = s.disk.cutShort

/-- The index entry of `path` is the one `indexFile` computes from the file. -/
def IndexFresh (s : EventStorage) (path : String) : Prop :=
  ∃ first rest, fileEvents s.disk path = some (first :: rest) ∧
    mapGet s.fileIndexes path = some (buildIndex path first (first :: rest))

/-- The pending updates of one file (none recorded: the empty map). -/
def updatesFor (m : PendingUpdateManager) (path : String) : List (String × EventUpdate) :=
  (mapGet m.updates path).getD []

/-- A pending map as Go keeps it: one entry per path, none of them empty. -/
def PendingWF (m : PendingUpdateManager) : Prop :=
  (m.updates.map Prod.fst).Nodup ∧ ∀ kv ∈ m.updates, kv.2 ≠ []

/-- The test `getCandidateFiles` applies to one index entry. -/
def admits (f : EventFilter) (idx : FileIndex) : Prop :=
  idx.MaxTime ≥ f.StartTime ∧ idx.MinTime ≤ f.EndTime ∧ idx.MaxSeverity ≥ f.MinSeverity ∧
  (f.Type_ = "" ∨ f.Type_ ∈ idx.EventTypes) ∧ ¬ (f.Unprocessed = true ∧ idx.AllProcessed = true)

/-- Entry `r` equals entry `e` except for the fields `StoreEvent` fills in when they are
unset (`ID`, `Timestamp`, `Type`). -/
def EqualExceptDefaulted (e r : EventEntry) : Prop :=
  r.Source = e.Source ∧ r.JobID = e.JobID ∧ r.Message = e.Message ∧
  r.Severity = e.Severity ∧ r.Metadata = e.Metadata ∧ r.Processed = e.Processed ∧
  r.ProcessedAt = e.ProcessedAt ∧ (e.ID ≠ "" → r.ID = e.ID) ∧
  (e.Timestamp ≠ 0 → r.Timestamp = e.Timestamp) ∧ (e.Type_ ≠ "" → r.Type_ = e.Type_)

/-! ## Concrete stores -/

/-- An environment: the clock reads 1000, 1001, ...; every uuid is the same. -/
def demoEnv : Env :=
  { now := fun k => 1000 + k, uuid := fun _ => "0123456789abcdef", date := fun _ => "20240101",
    marshalLen := fun events => 18 + 200 * events.length, nodeRank := "0", workDir := "" }

/-- An event with the given id, timestamp and severity. -/
def demoEvent (id : String) (ts sev : Int) : EventEntry :=
  { ID := id, Source := "training", Type_ := "alert", JobID := "job", Message := "msg",
    Timestamp := ts, Severity := sev, Metadata := [], Processed := false, ProcessedAt := 0 }

/-- The path of the active file of the concrete stores. -/
def demoPath : String := "/data/rank0_events_20240101_01234567.json"

/-- The store `NewEventStorage demoEnv ⟨[], [], []⟩ "/data" maxFileSize` returns. -/
def demoOpened (maxFileSize : Int) : EventStorage :=
  { baseDir := "/data", filePrefix := "rank0_events_", maxFileSize := maxFileSize,
    currentFile := demoPath, currentMutex := false, fileIndexes := [],
    pendingUpdates := ⟨[]⟩, lockManager := ⟨[]⟩,
    disk := ⟨[("/data", Node.dir), (demoPath, Node.file ⟨13, some []⟩)], [], []⟩ }

/-- The store after `StoreEvent` of `demoEvent "a" 5 0` into `demoOpened`. -/
def demoStored (maxFileSize : Int) : EventStorage :=
  { demoOpened maxFileSize with
    fileIndexes := [(demoPath, ⟨demoPath, 5, 5, 0, ["alert"], false⟩)],
    disk := ⟨[("/data", Node.dir),
      (demoPath, Node.file ⟨218, some [demoEvent "a" 5 0]⟩)], [], []⟩ }

/-- The store after `StoreEvent` of `demoEvent "a" 5 0` and of `demoEvent "a" 6 5`, two
events with the same caller-supplied id, into `demoOpened 1000`. -/
def demoTwo : EventStorage :=
  { demoOpened 1000 with
    fileIndexes := [(demoPath, ⟨demoPath, 5, 6, 5, ["alert"], false⟩)],
    disk := ⟨[("/data", Node.dir),
      (demoPath, Node.file ⟨418, some [demoEvent "a" 5 0, demoEvent "a" 6 5]⟩)], [], []⟩ }

/-- Function `NewFileLockManager`. -/
def NewFileLockManager : FileLockManager := ⟨[]⟩

/-- Function `NewPendingUpdateManager`. -/
def NewPendingUpdateManager : PendingUpdateManager := ⟨[]⟩

/-- The manager after successive `GetLock` calls for the given paths. -/
def lockSeq (m : FileLockManager) : List String → FileLockManager
  | [] => m
  | p :: rest => lockSeq (GetLock m p).2 rest

/-- A lock manager as `GetLock` builds it: different paths hold different mutexes, and
every mutex was allocated before the next one to be allocated. -/
def LockWF (m : FileLockManager) : Prop :=
  (∀ p q i, mapGet m.locks p = some i → mapGet m.locks q = some i → p = q) ∧
  ∀ p i, mapGet m.locks p = some i → i < m.locks.length

/-- The path of an event file that exists before the concrete stores are opened. -/
def demoOldPath : String := "/data/rank0_events_20231231_deadbeef.json"

/-- A file system whose directory `/data` holds one event file, with one event, that
cannot be opened for writing. -/
def demoReadOnlyDisk : Disk :=
  ⟨[("/data", Node.dir), (demoOldPath, Node.file ⟨218, some [demoEvent "a" 5 0]⟩)],
    [demoOldPath], []⟩

/-- The store `NewEventStorage demoEnv demoReadOnlyDisk "/data" 1000` returns. -/
def demoReadOnly : EventStorage :=
  { demoOpened 1000 with
    fileIndexes := [(demoOldPath, ⟨demoOldPath, 5, 5, 0, ["alert"], false⟩)],
    disk := ⟨[("/data", Node.dir), (demoOldPath, Node.file ⟨218, some [demoEvent "a" 5 0]⟩),
      (demoPath, Node.file ⟨13, some []⟩)], [demoOldPath], []⟩ }

/-- A file system whose directory `/data` holds one event file, with one event, on a
device that has run full: a write to the file is cut short after 100 bytes. -/
def demoFullDisk : Disk :=
  ⟨[("/data", Node.dir), (demoOldPath, Node.file ⟨218, some [demoEvent "a" 5 0]⟩)],
    [], [(demoOldPath, 100)]⟩

/-- The store `NewEventStorage demoEnv demoFullDisk "/data" 1000` returns. -/
def demoFull : EventStorage :=
  { demoOpened 1000 with
    fileIndexes := [(demoOldPath, ⟨demoOldPath, 5, 5, 0, ["alert"], false⟩)],
    disk := ⟨[("/data", Node.dir), (demoOldPath, Node.file ⟨218, some [demoEvent "a" 5 0]⟩),
      (demoPath, Node.file ⟨13, some []⟩)], [], [(demoOldPath, 100)]⟩ }

/-- The store after `StoreEvent` of `demoEvent "b" 6 1` into `demoReadOnly`. -/
def demoReadOnlyStored : EventStorage :=
  { demoReadOnly with
    fileIndexes := [(demoOldPath, ⟨demoOldPath, 5, 5, 0, ["alert"], false⟩),
      (demoPath, ⟨demoPath, 6, 6, 1, ["alert"], false⟩)],
    disk := ⟨[("/data", Node.dir), (demoOldPath, Node.file ⟨218, some [demoEvent "a" 5 0]⟩),
      (demoPath, Node.file ⟨218, some [demoEvent "b" 6 1]⟩)], [demoOldPath], []⟩ }

/-- A store whose only indexed file no longer parses. -/
def demoCorrupt : EventStorage :=
  { demoStored 1000 with
    disk := ⟨[("/data", Node.dir), (demoPath, Node.file ⟨10, none⟩)], [], []⟩ }

/-- Successive `StoreEvent` calls that return, each reading the oracles from the position
the call before stopped at (a returning call has read them in `ensureFields` only);
`none` when a call does not return. -/
def storeSeq (env : Env) (fuel : Nat) : Nat → EventStorage → List EventEntry → Option EventStorage
  | _, s, [] => some s
  | k, s, e :: rest =>
    match StoreEvent env fuel k s e with
    | Outcome.ok _ s1 => storeSeq env fuel (k + ensureTicks e) s1 rest
    | Outcome.fail s1 => storeSeq env fuel (k + ensureTicks e) s1 rest
    | Outcome.blocked => none
    | Outcome.fuel => none

/-- An environment whose identifiers never repeat. -/
def seqEnv : Env :=
  { demoEnv with uuid := fun k => String.mk (List.replicate (k + 1) 'u') }

/-- The store after `StoreEvent` of two events without id into `demoOpened 1000`, the
identifiers read from position 2 of `seqEnv` on. -/
def demoSeqStored : EventStorage :=
  { demoOpened 1000 with
    fileIndexes := [(demoPath, ⟨demoPath, 5, 6, 1, ["alert"], false⟩)],
    disk := ⟨[("/data", Node.dir),
      (demoPath, Node.file ⟨418, some [demoEvent "uuu" 5 0, demoEvent "uuuu" 6 1]⟩)], [], []⟩ }

end Storage

namespace Rules

open Storage

/-- Message `ThreadStack` of the generated package `deeptrace/v1`, which is not in the
source tree: the fields that threadstack.go and its test read.  An element of
`Threads` is taken to be a non-nil pointer. -/
structure ThreadStack where
  ThreadId : Int
  StackFrames : List String
deriving DecidableEq, Repr

/-- Message `ProcessInfo` of the generated package `deeptrace/v1`: the fields that
threadstack.go and its test read; `Type_` is the text `Type.String()` gives. -/
structure ProcessInfo where
  Rank : String
  Pid : Int
  Type_ : String
  Threads : List ThreadStack
deriving DecidableEq, Repr

/-- Conversion `int32(n)`. -/
def toInt32 (n : Int) : Int := (n + 2147483648) % 4294967296 - 2147483648

/-- The inner loop of `ThreadsStacksEqual` at counter `flevel`, with the frames of both
threads from that index on: the first level, below `bound`, whose frames differ. -/
def frameLoop (equalFold : String → String → Bool) (bound : Int) :
    Int → List String → List String → Option (Int × String × String)
  | flevel, fa :: ra, fb :: rb =>
    if flevel < bound then
      if !equalFold fa fb then some (flevel, fa, fb)
      else frameLoop equalFold bound (toInt32 (flevel + 1)) ra rb
    else none
  | _, _, _ => none

/-- The loop of `ThreadsStacksEqual` over the sorted threads. -/
def threadLoop (equalFold : String → String → Bool) (time1 time2 : String)
    (proccessa : ProcessInfo) : List ThreadStack → List ThreadStack → Bool × String × Option String
  | ta :: ra, tb :: rb =>
    if ta.ThreadId ≠ tb.ThreadId then
      let header := "Detected different thread IDs. " ++ proccessa.Rank ++ ", Process type: " ++
        proccessa.Type_ ++ ", Process ID:" ++ toString proccessa.Pid ++ "\n"
      let before := "[" ++ time1 ++ "]Thread ID: " ++ toString ta.ThreadId ++ "\n"
      let after := "[" ++ time2 ++ "]Thread ID: " ++ toString tb.ThreadId ++ "\n"
      (false, header ++ before ++ after, none)
    else if ta.StackFrames.length ≠ tb.StackFrames.length then
      let header := "Detected different number of thread stack frames. " ++ proccessa.Rank ++
        ", Process type: " ++ proccessa.Type_ ++ ", Process ID:" ++ toString proccessa.Pid ++
        ", Thread ID: " ++ toString ta.ThreadId ++ "\n"
      let before := "[" ++ time1 ++ "]Frame count: " ++ toString ta.StackFrames.length ++ "\n"
      let after := "[" ++ time2 ++ "]Frame count: " ++ toString tb.StackFrames.length ++ "\n"
      (false, header ++ before ++ after, none)
    else
      match frameLoop equalFold (toInt32 ta.StackFrames.length) 0 ta.StackFrames tb.StackFrames with
      | some (flevel, fa, fb) =>
        let header := "Detected different process stacks. " ++ proccessa.Rank ++
          ", Process type: " ++ proccessa.Type_ ++ ", Process ID:" ++ toString proccessa.Pid ++
          ", Thread ID: " ++ toString ta.ThreadId ++ ", Stack frame level: " ++
          toString (toInt32 (flevel + 1)) ++ "\n"
        let before := "[" ++ time1 ++ "]Stack frame content: " ++ fa ++ "\n"
        let after := "[" ++ time2 ++ "]Stack frame content: " ++ fb ++ "\n"
        (false, header ++ before ++ after, none)
      | none => threadLoop equalFold time1 time2 proccessa ra rb
  | _, _ => (true, "", none)

/-- Function `ThreadsStacksEqual` of threadstack.go; the result is `(equal, diff, err)`,
`none` being a nil error, and a nil process is `none`.  The library function
`strings.EqualFold` is the parameter `equalFold`.  (The function also leaves both
`Threads` slices sorted, which its results do not show.) -/
def ThreadsStacksEqual (equalFold : String → String → Bool) (time1 time2 : String)
    (proccessa proccessb : Option ProcessInfo) : Bool × String × Option String :=
  match proccessa, proccessb with
  | some a, some b =>
    if !equalFold a.Rank b.Rank then
      (false, "", some ("process ranks are different: " ++ a.Rank ++ " and " ++ b.Rank))
    else if a.Pid ≠ b.Pid then
      (false, "", some ("internal error, comparing two different processes. pid: " ++
        toString a.Pid ++ " and " ++ toString b.Pid))
    else if a.Threads.length ≠ b.Threads.length then
      let header := "Detected different number of threads in process stack. " ++ a.Rank ++
        ", Process type: " ++ a.Type_ ++ ", Process ID:" ++ toString a.Pid ++ "\n"
      let before := "[" ++ time1 ++ "]Thread count: " ++ toString a.Threads.length ++ "\n"
      let after := "[" ++ time2 ++ "]Thread count: " ++ toString b.Threads.length ++ "\n"
      (false, header ++ before ++ after, none)
    else
      threadLoop equalFold time1 time2 a
        (sortSlice (fun x y => decide (x.ThreadId < y.ThreadId)) a.Threads)
        (sortSlice (fun x y => decide (x.ThreadId < y.ThreadId)) b.Threads)
  | _, _ => (false, "", some "process info is empty")

/-- An `equalFold` for the concrete processes: equality after `Char.toLower`. -/
def demoEqualFold (a b : String) : Bool :=
  decide (a.data.map Char.toLower = b.data.map Char.toLower)

/-- The first process of the case "normal" of threadstack_test.go. -/
def demoProcessA : ProcessInfo :=
  ⟨"", 112, "", [⟨345, ["bbbb", "aaaa"]⟩, ⟨123, ["aaaa", "bbbb"]⟩]⟩

/-- The second process of the case "normal" of threadstack_test.go. -/
def demoProcessB : ProcessInfo :=
  ⟨"", 112, "", [⟨123, ["aaaa", "bbbb"]⟩, ⟨345, ["bbbb", "aaaa"]⟩]⟩

end Rules

namespace Storage

/-- A directory with four files: one with an event, one with an empty event list,
one that does not parse, and one whose name contains the prefix `rank0_events_`
without beginning with it. -/
def demoScanDisk : Disk :=
  ⟨[("/data", Node.dir),
    ("/data/rank0_events_good.json", Node.file ⟨218, some [demoEvent "a" 5 0]⟩),
    ("/data/rank0_events_empty.json", Node.file ⟨13, some []⟩),
    ("/data/rank0_events_bad.json", Node.file ⟨10, none⟩),
    ("/data/xrank0_events_old.json", Node.file ⟨218, some [demoEvent "b" 6 1]⟩)], [], []⟩

/-- The store `NewEventStorage demoEnv demoScanDisk "/data" 1000` hands to
`initializeStorage`. -/
def demoScanStart : EventStorage :=
  { baseDir := "/data", filePrefix := "rank0_events_", maxFileSize := 1000,
    currentFile := "", currentMutex := false, fileIndexes := [],
    pendingUpdates := ⟨[]⟩, lockManager := ⟨[]⟩, disk := demoScanDisk }

/-- The number of `rotateIfNeeded` calls that a `StoreEvent` call makes, those of its
retries included: the control flow of `StoreEvent`, counting. -/
def rotations (env : Env) : Nat → Nat → EventStorage → EventEntry → Nat
  | 0, _, _, _ => 0
  | fuel + 1, k, s, event0 =>
    let event := ensureFields env k event0
    let k1 := k + ensureTicks event0
    if s.currentMutex then 0
    else
      let s1 := { s with currentMutex := true }
      match readFile s1.disk s1.currentFile with
      | none => 0
      | some data =>
        match data.events with
        | none => 0
        | some _ =>
          if (data.size : Int) > s1.maxFileSize then
            match rotateIfNeeded env k1 s1 with
            | Outcome.ok _ s2 => 1 + rotations env fuel (k1 + 2) s2 event
            | _ => 1
          else 0

/-- An entry whose `Metadata` holds a value that `encoding/json` does not support. -/
def demoUnsupported : EventEntry :=
  { demoEvent "a" 5 0 with Metadata := [("callback", MetaValue.unsupported)] }

/-- The store `demoStored 1000` after its device has run full: a write to the active
file is cut short after 100 bytes. -/
def demoActiveFull : EventStorage :=
  { demoStored 1000 with
    disk := ⟨[("/data", Node.dir), (demoPath, Node.file ⟨218, some [demoEvent "a" 5 0]⟩)],
      [], [(demoPath, 100)]⟩ }

/-- A store whose active file cannot be opened for writing. -/
def demoActiveReadOnly : EventStorage :=
  { demoStored 1000 with
    disk := ⟨[("/data", Node.dir), (demoPath, Node.file ⟨218, some [demoEvent "a" 5 0]⟩)],
      [demoPath], []⟩ }

end Storage

namespace Go

/-- The class `\d` of package regexp: an ASCII digit. -/
def isDigit (c : Char) : Bool := decide (48 ≤ c.toNat ∧ c.toNat ≤ 57)

/-- The number a string of ASCII digits writes in base 10. -/
def decimal (ds : List Char) : Nat :=
  ds.foldl (fun n c => 10 * n + (c.toNat - 48)) 0

/-- The largest `int` (64 bits). -/
def maxInt : Int := 9223372036854775807

/-- The smallest `int` (64 bits). -/
def minInt : Int := -9223372036854775808

/-- Function `strconv.Atoi`: the value and whether the error is non-nil.  A text that is
not an optional sign followed by ASCII digits is a syntax error (value 0); a number
outside the range of `int` is a range error (value the nearest bound). -/
def Atoi (s : String) : Int × Bool :=
  let neg := decide (s.data.head? = some '-')
  let ds := if s.data.head? = some '-' ∨ s.data.head? = some '+' then s.data.tail else s.data
  if ds = [] ∨ ¬ ds.all isDigit = true then (0, true)
  else if neg then
    if (decimal ds : Int) ≤ 9223372036854775808 then (-(decimal ds : Int), false)
    else (minInt, true)
  else
    if (decimal ds : Int) ≤ maxInt then ((decimal ds : Int), false)
    else (maxInt, true)

/-- Function `unicode.IsSpace`: the code points with the property White_Space. -/
def isSpace (c : Char) : Bool :=
  decide ((9 ≤ c.toNat ∧ c.toNat ≤ 13) ∨ c.toNat = 32 ∨ c.toNat = 133 ∨ c.toNat = 160 ∨
    c.toNat = 5760 ∨ (8192 ≤ c.toNat ∧ c.toNat ≤ 8202) ∨ c.toNat = 8232 ∨ c.toNat = 8233 ∨
    c.toNat = 8239 ∨ c.toNat = 8287 ∨ c.toNat = 12288)

/-- Function `strings.TrimSpace`. -/
def TrimSpace (s : String) : String :=
  String.mk ((s.data.dropWhile isSpace).reverse.dropWhile isSpace).reverse

/-- Function `strings.HasPrefix`. -/
def HasPrefix (s pre : String) : Bool := decide (pre.data <+: s.data)

/-- Method `FindString` of the regular expression `\d+`: the leftmost, longest run of
ASCII digits (empty when there is none). -/
def findDigits (s : String) : String :=
  String.mk ((s.data.dropWhile fun c => !isDigit c).takeWhile isDigit)

end Go

namespace Utils

open Go

/-- Function `ExtractNumber` of utils.go: the number and whether the error is non-nil. -/
def ExtractNumber (s : String) : Int × Bool :=
  let numStr := findDigits s
  if numStr = "" then (0, true)
  else Atoi numStr

/-- Function `CompareRank` of utils.go. -/
def CompareRank (a b : String) : Int :=
  let numA := ExtractNumber a
  let numB := ExtractNumber b
  if numA.2 ∨ numB.2 then 0
  else if numA.1 < numB.1 then -1
  else if numA.1 > numB.1 then 1
  else 0

/-- The digits `ds` are the first maximal run of decimal digits in `s`. -/
def IsFirstRun (s ds : List Char) : Prop :=
  ∃ pre post, s = pre ++ ds ++ post ∧ (∀ c ∈ pre, isDigit c = false) ∧ ds ≠ [] ∧
    (∀ c ∈ ds, isDigit c = true) ∧ ∀ c, post.head? = some c → isDigit c = false

end Utils

namespace Go

/-- Function `strings.Split` for a separator of one character. -/
def Split1 (sep : Char) : List Char → List (List Char)
  | [] => [[]]
  | c :: cs =>
    if c = sep then [] :: Split1 sep cs
    else
      match Split1 sep cs with
      | l :: ls => (c :: l) :: ls
      | [] => [[c]]

end Go

namespace Scripts

open Go

/-- The errors `parseRankRangeOutput` makes with `fmt.Errorf`, by their format. -/
inductive RangeError where
  | script (output : String)
  | format (output : String)
  | minRank
  | maxRank
deriving DecidableEq, Repr

/-- Function `parseRankRangeOutput` of get_rank_range.go; `none` is a nil error. -/
def parseRankRangeOutput (output0 : String) : Int × Int × Option RangeError :=
  let output := TrimSpace output0
  if HasPrefix output "error:" then (0, 0, some (RangeError.script output))
  else
    match Split1 ':' output.data with
    | [p0, p1] =>
      let minRank := Atoi (String.mk p0)
      if minRank.2 then (0, 0, some RangeError.minRank)
      else
        let maxRank := Atoi (String.mk p1)
        if maxRank.2 then (0, 0, some RangeError.maxRank)
        else (minRank.1, maxRank.1, none)
    | _ => (0, 0, some (RangeError.format output))

/-- The text `f` is an integer field writing `n`: an optional sign and decimal digits,
within the range of `int`. -/
def IntField (f : List Char) (n : Int) : Prop :=
  ∃ ds, ds ≠ [] ∧ (∀ c ∈ ds, isDigit c = true) ∧
    (((f = ds ∨ f = '+' :: ds) ∧ n = decimal ds ∧ n ≤ maxInt) ∨
      (f = '-' :: ds ∧ n = -(decimal ds : Int) ∧ minInt ≤ n))

end Scripts

namespace Go

/-- The raw lines of a text as the split function `bufio.ScanLines` delimits them: the
runs between newlines, a final run without newline included when it is not empty. -/
def rawLines : List Char → List (List Char)
  | [] => []
  | c :: cs =>
    if c = '\n' then [] :: rawLines cs
    else
      match rawLines cs with
      | [] => [[c]]
      | l :: ls => (c :: l) :: ls

/-- Length in bytes of the UTF-8 encoding. -/
def byteLen (l : List Char) : Nat :=
  (l.map fun c => c.utf8Size).sum

/-- Function `dropCR` of package bufio: one trailing carriage return is dropped. -/
def dropCR (l : List Char) : List Char :=
  if l.getLast? = some '\r' then l.dropLast else l

/-- A `bufio.Scanner` with `ScanLines` and buffer limit `maxTokenSize`, run over the raw
lines until `Scan` returns false: the tokens delivered, and whether `Err` is non-nil
(a raw line of `maxTokenSize` bytes or more does not fit the buffer: `ErrTooLong`). -/
def scanLines (maxTokenSize : Nat) : List (List Char) → List String × Bool
  | [] => ([], false)
  | raw :: rest =>
    if byteLen raw ≥ maxTokenSize then ([], true)
    else
      let r := scanLines maxTokenSize rest
      (String.mk (dropCR raw) :: r.1, r.2)

/-- The lines of a text: its raw lines without their trailing carriage return. -/
def textLines (text : String) : List String :=
  (rawLines text.data).map fun raw => String.mk (dropCR raw)

end Go

namespace Logtail

open Go

/-- What a call comes to: a result, a non-nil error, or a run-time panic. -/
inductive Res (α : Type) where
  | ok (v : α)
  | err
  | panic
deriving DecidableEq, Repr

/-- The scanning loop of `readRankLogTail`: `ringBuffer[index] = scanner.Text()`,
`index = (index + 1) % lines`, `lineCount++`; `none` is a panic (index out of range,
division by zero). -/
def ringLoop (lines : Nat) : List String → List String → Nat → Nat →
    Option (List String × Nat × Nat)
  | [], ringBuffer, index, lineCount => some (ringBuffer, index, lineCount)
  | text :: rest, ringBuffer, index, lineCount =>
    if index < ringBuffer.length then
      if lines = 0 then none
      else ringLoop lines rest (ringBuffer.set index text) ((index + 1) % lines) (lineCount + 1)
    else none

/-- The loop of `readRankLogTail` that fills `logLines`, at counter `i` with `m`
rounds to go; `none` is a panic. -/
def collect (ringBuffer : List String) (lines start : Nat) : Nat → Nat → Option (List String)
  | 0, _ => some []
  | m + 1, i =>
    if lines = 0 then none
    else
      match ringBuffer[(start + i) % lines]? with
      | none => none
      | some text => (collect ringBuffer lines start m (i + 1)).map fun r => text :: r

/-- Function `readRankLogTail` of file_reader.go, given what `os.Open` finds at
`rank<rank>.log` (`none`: the open fails); the modification time it also returns is
left out. -/
def readRankLogTail (file : Option String) (lines : Int) : Res (List String) :=
  match file with
  | none => Res.err
  | some content =>
    let scanned := scanLines (1024 * 1024) (rawLines content.data)
    if lines < 0 then Res.panic
    else
      match ringLoop lines.toNat scanned.1 (List.replicate lines.toNat "") 0 0 with
      | none => Res.panic
      | some (ringBuffer, index, lineCount) =>
        if scanned.2 then Res.err
        else
          let start := if lineCount > lines.toNat then index else 0
          match collect ringBuffer lines.toNat start (min lineCount lines.toNat) 0 with
          | none => Res.panic
          | some logLines => Res.ok logLines

/-- Message `RankLog` of the generated package `deeptrace/v1`, which is not in the source
tree: the fields `GetRecentLogs` sets; `E` is the message `LogEntry`. -/
structure RankLog (E : Type) where
  Rank : String
  TailTime : Int
  SuspendSeconds : Int
  Entries : List E
deriving Repr

/-- What `GetRecentLogs` reads from outside: the result of `getLatestLogDir`, the result
of `scripts.GetCurrentNodeRankRange`, the log file of each rank, the text of a read
error, the parser `LogParser`, and the clock (time of the round of a rank, seconds since
the latest entry of a rank). -/
structure LogEnv (E : Type) where
  logDir : Option String
  rankRange : Option (Int × Int)
  logFile : Int → Option String
  errText : Int → String
  parse : List String → List E
  now : Int → Int
  suspendSeconds : Int → List E → Int

/-- The body of the loop of `GetRecentLogs` for one rank; `none` is a panic. -/
def rankRound {E : Type} (env : LogEnv E) (maxLines : Int) (rank : Int) : Option (RankLog E) :=
  match readRankLogTail (env.logFile rank) maxLines with
  | Res.panic => none
  | r =>
    let lines := match r with
      | Res.ok lines => lines
      | _ => ["Log reading failed: " ++ env.errText rank]
    let entries := env.parse lines
    let ranklog : RankLog E := ⟨"RANK" ++ toString rank, env.now rank, 0, []⟩
    if entries.length > 0 then
      some { ranklog with SuspendSeconds := env.suspendSeconds rank entries, Entries := entries }
    else some ranklog

/-- The loop `for rank := rankMin; rank < rankMax; rank++` of `GetRecentLogs`, at
`rank` with at most `n` rounds to go; `none` is a panic. -/
def rankLoop {E : Type} (env : LogEnv E) (maxLines rankMax : Int) :
    Nat → Int → Option (List (RankLog E))
  | 0, _ => some []
  | n + 1, rank =>
    if rank < rankMax then
      match rankRound env maxLines rank with
      | none => none
      | some ranklog => (rankLoop env maxLines rankMax n (rank + 1)).map fun r => ranklog :: r
    else some []

/-- Method `GetRecentLogs` of file_reader.go. -/
def GetRecentLogs {E : Type} (env : LogEnv E) (maxLines : Int) : Res (List (RankLog E)) :=
  match env.logDir with
  | none => Res.err
  | some _ =>
    match env.rankRange with
    | none => Res.err
    | some (rankMin, rankMax) =>
      let rankRange := rankMax - rankMin + 1
      if rankRange < 0 then Res.panic
      else
        match rankLoop env maxLines rankMax (rankMax - rankMin).toNat rankMin with
        | none => Res.panic
        | some rankLogs => Res.ok rankLogs

/-- A log of five lines. -/
def demoLog : String := "Line 0\nLine 1\nLine 2\r\nLine 3\nLine 4\n"

/-- A node with the ranks 0 and 1, each with the log `demoLog`. -/
def demoLogEnv : LogEnv String :=
  { logDir := some "/work/run1", rankRange := some (0, 1), logFile := fun _ => some demoLog,
    errText := fun _ => "open", parse := fun lines => lines, now := fun _ => 100,
    suspendSeconds := fun _ _ => 3 }

end Logtail

namespace Textparser

open Go Storage

/-- Message `ThreadStack` of the generated package `deeptrace/v1`, which is not in the
source tree: the fields that stack_parser.go sets. -/
structure ThreadStack where
  ThreadId : Int
  ThreadName : String
  StackFrames : List String
deriving DecidableEq, Repr

/-- Function `isThreadStart`. -/
def isThreadStart (line : String) : Bool :=
  HasPrefix line "Traceback for thread"

/-- Function `isPythonFrame`. -/
def isPythonFrame (line : String) : Bool :=
  Contains line "(Python) File"

/-- Function `isCodeLine`. -/
def isCodeLine (line : String) : Bool :=
  HasPrefix line "    " && !Contains line "File" && decide (TrimSpace line ≠ "")

/-- Function `strings.Replace(s, old, "", 1)` for a non-empty `old`: the leftmost
occurrence of `old` is removed. -/
def removeFirst (old : List Char) : List Char → List Char
  | [] => []
  | c :: cs =>
    match stripPrefix? old (c :: cs) with
    | some r => r
    | none => c :: removeFirst old cs

/-- Function `cleanFrame`. -/
def cleanFrame (line : String) : String :=
  TrimSpace (String.mk (removeFirst "(Python) ".data line.data))

/-- A match of `Traceback for thread (\d+) \((.*?)\)` that begins at the head of the
text: the two submatches. -/
def matchHeaderAt (cs : List Char) : Option (List Char × List Char) :=
  match stripPrefix? "Traceback for thread ".data cs with
  | none => none
  | some r =>
    if r.takeWhile isDigit = [] then none
    else
      match stripPrefix? " (".data (r.dropWhile isDigit) with
      | none => none
      | some r2 => if ')' ∈ r2 then some (r.takeWhile isDigit, r2.takeWhile fun c => c ≠ ')') else none

/-- Method `FindStringSubmatch` of that regular expression: the leftmost match. -/
def findHeader : List Char → Option (List Char × List Char)
  | [] => none
  | c :: cs =>
    match matchHeaderAt (c :: cs) with
    | some m => some m
    | none => findHeader cs

/-- Function `parseThreadHeader`. -/
def parseThreadHeader (line : String) : ThreadStack :=
  match findHeader line.data with
  | none => { ThreadId := -1, ThreadName := "unknown", StackFrames := [] }
  | some (ds, name) =>
    let tid := Atoi (String.mk ds)
    let tid1 := if tid.2 then -1 else tid.1
    { ThreadId := Rules.toInt32 tid1, ThreadName := String.mk name, StackFrames := [] }

/-- The statement `frames[len(frames)-1] += s`. -/
def appendLast : List String → String → List String
  | [], _ => []
  | [f], s => [f ++ s]
  | f :: g :: rest, s => f :: appendLast (g :: rest) s

/-- The body of the scanning loop of `Parse`: the `switch` on one line, for the threads
collected so far and the current thread (`none`: nil). -/
def parseLine (st : List ThreadStack × Option ThreadStack) (line : String) :
    List ThreadStack × Option ThreadStack :=
  if isThreadStart line then
    match st.2 with
    | some current => (st.1 ++ [current], some (parseThreadHeader line))
    | none => (st.1, some (parseThreadHeader line))
  else if isPythonFrame line then
    match st.2 with
    | some current =>
      (st.1, some { current with StackFrames := current.StackFrames ++ [cleanFrame line] })
    | none => st
  else if isCodeLine line then
    match st.2 with
    | some current =>
      if current.StackFrames.length > 0 then
        (st.1, some { current with
          StackFrames := appendLast current.StackFrames ("\n" ++ TrimSpace line) })
      else st
    | none => st
  else st

/-- The body of the loop of `Parse` over the inputs: one input is scanned line by line
with a `bufio.Scanner` (buffer limit 64 KiB, `Err` not looked at). -/
def parseInput (threads : List ThreadStack) (input : String) : List ThreadStack :=
  let st := (scanLines (64 * 1024) (rawLines input.data)).1.foldl parseLine (threads, none)
  match st.2 with
  | some current => st.1 ++ [current]
  | none => st.1

/-- Method `Parse` of `StackParser`: the threads, and whether the error is non-nil. -/
def Parse (inputs : List String) : List ThreadStack × Bool :=
  (inputs.foldl parseInput [], false)

/-- What one line does to the frames of the current thread. -/
def frameStep (frames : List String) (line : String) : List String :=
  if isPythonFrame line then frames ++ [cleanFrame line]
  else if isCodeLine line then
    if frames.length > 0 then appendLast frames ("\n" ++ TrimSpace line) else frames
  else frames

/-- The code lines among `ls`, each trimmed and put after a newline. -/
def codeText : List String → String
  | [] => ""
  | l :: rest => if isCodeLine l then ("\n" ++ TrimSpace l) ++ codeText rest else codeText rest

/-- The frames of a thread in the words of the specification: one for each frame line
of the lines under its header, cleaned, with the code lines that follow it, up to the
next frame line, appended. -/
def specFrames : List String → List String
  | [] => []
  | l :: rest =>
    if isPythonFrame l then
      (cleanFrame l ++ codeText (rest.takeWhile fun x => !isPythonFrame x)) :: specFrames rest
    else specFrames rest

/-- The threads of a text in the words of the specification: one for each header line,
with the frames of the lines up to the next header line. -/
def specThreads : List String → List ThreadStack
  | [] => []
  | l :: rest =>
    if isThreadStart l then
      { parseThreadHeader l with
        StackFrames := specFrames (rest.takeWhile fun x => !isThreadStart x) } :: specThreads rest
    else specThreads rest

/-- A stack dump of two threads, after stack_parser_test.go. -/
def demoDump : String :=
  "The frame stack for thread 2846 is empty\nTraceback for thread 2843 (pt_autograd_0) [] (most recent call last):\n    (Python) File /torch/autograd/function.py, line 307, in apply\n        return user_fn(self, *args)\n    (Python) File /tmp/yy.py, line 101, in call\n        buf0.copy_(primals_2, False)\n\nTraceback for thread 1654 (python) [] (most recent call last):\n    (Python) File /usr/lib/python3.12/threading.py, line 355, in wait\n        waiter.acquire()"

/-- A stack dump whose code line contains the word `File`. -/
def demoFileDump : String :=
  "Traceback for thread 7 (main) [] (most recent call last):\n    (Python) File /app/a.py, line 1, in f\n        raise FileNotFoundError(p)\n"

end Textparser

namespace Storage

/-! ## Association lists -/

theorem mapGet_mapSet_same {β : Type} (m : List (String × β)) (k : String) (v : β) :
    mapGet (mapSet m k v) k = some v := by
  induction m with
  | nil => simp [mapSet, mapGet]
  | cons a m ih =>
    obtain ⟨a1, a2⟩ := a
    by_cases h : a1 = k
    · simp [mapSet, mapGet, h]
    · simp [mapSet, mapGet, h, ih]

theorem mapGet_mapSet_other {β : Type} (m : List (String × β)) (k q : String) (v : β)
    (h : k ≠ q) : mapGet (mapSet m k v) q = mapGet m q := by
  induction m with
  | nil => simp [mapSet, mapGet, h]
  | cons a m ih =>
    obtain ⟨a1, a2⟩ := a
    by_cases h1 : a1 = k
    · subst h1
      simp [mapSet, mapGet, h]
    · by_cases h2 : a1 = q
      · subst h2
        simp [mapSet, mapGet, h1]
      · simp [mapSet, mapGet, h1, h2, ih]

theorem mem_of_mapGet {β : Type} (m : List (String × β)) (k : String) (v : β)
    (h : mapGet m k = some v) : (k, v) ∈ m := by
  induction m with
  | nil => simp [mapGet] at h
  | cons a m ih =>
    obtain ⟨a1, a2⟩ := a
    by_cases h1 : a1 = k
    · simp [mapGet, h1] at h
      simp [h1, h]
    · simp [mapGet, h1] at h
      exact List.mem_cons_of_mem _ (ih h)

theorem mapGet_none_of_not_mem {β : Type} (m : List (String × β)) (k : String)
    (h : k ∉ m.map Prod.fst) : mapGet m k = none := by
  induction m with
  | nil => rfl
  | cons a m ih =>
    obtain ⟨a1, a2⟩ := a
    simp at h
    have h1 : ¬ a1 = k := fun e => h.1 e.symm
    simp only [mapGet, h1, if_false]
    exact ih (by simpa using h.2)

theorem mapGet_of_mem {β : Type} (m : List (String × β)) (k : String) (v : β)
    (hn : (m.map Prod.fst).Nodup) (h : (k, v) ∈ m) : mapGet m k = some v := by
  induction m with
  | nil => simp at h
  | cons a m ih =>
    obtain ⟨a1, a2⟩ := a
    simp only [List.map_cons, List.nodup_cons] at hn
    rcases List.mem_cons.1 h with h1 | h1
    · cases h1
      simp [mapGet]
    · have hk : k ∈ m.map Prod.fst := List.mem_map.2 ⟨(k, v), h1, rfl⟩
      have h2 : ¬ a1 = k := fun e => hn.1 (e ▸ hk)
      simp only [mapGet, h2, if_false]
      exact ih hn.2 h1

theorem keys_mapSet {β : Type} (m : List (String × β)) (k : String) (v : β) :
    (mapSet m k v).map Prod.fst =
      if k ∈ m.map Prod.fst then m.map Prod.fst else m.map Prod.fst ++ [k] := by
  induction m with
  | nil => simp [mapSet]
  | cons a m ih =>
    obtain ⟨a1, a2⟩ := a
    by_cases h1 : a1 = k
    · simp [mapSet, h1]
    · have h2 : ¬ k = a1 := fun e => h1 e.symm
      simp only [mapSet, h1, if_false, List.map_cons, ih, List.mem_cons, h2, false_or]
      split <;> simp

theorem nodup_keys_mapSet {β : Type} (m : List (String × β)) (k : String) (v : β)
    (hn : (m.map Prod.fst).Nodup) : ((mapSet m k v).map Prod.fst).Nodup := by
  rw [keys_mapSet]
  split
  · exact hn
  · rename_i h
    exact List.nodup_append.2 ⟨hn, List.nodup_singleton _, by
      intro a ha hb
      simp at hb
      exact h (hb ▸ ha)⟩

theorem mem_mapSet {β : Type} (m : List (String × β)) (k : String) (v : β) (x : String × β)
    (h : x ∈ mapSet m k v) : x = (k, v) ∨ x ∈ m := by
  induction m with
  | nil => simpa [mapSet] using h
  | cons a m ih =>
    obtain ⟨a1, a2⟩ := a
    by_cases h1 : a1 = k
    · simp only [mapSet, h1, if_true, List.mem_cons] at h
      rcases h with h | h
      · exact Or.inl h
      · exact Or.inr (List.mem_cons_of_mem _ h)
    · simp only [mapSet, h1, if_false, List.mem_cons] at h
      rcases h with h | h
      · exact Or.inr (h ▸ List.mem_cons_self _ _)
      · rcases ih h with h | h
        · exact Or.inl h
        · exact Or.inr (List.mem_cons_of_mem _ h)

theorem mapDelete_eq_filter {β : Type} (m : List (String × β)) (q : String) :
    mapDelete m q = m.filter (fun kv => decide (kv.1 ≠ q)) := by
  induction m with
  | nil => rfl
  | cons a m ih =>
    obtain ⟨a1, a2⟩ := a
    by_cases h1 : a1 = q
    · simp [mapDelete, h1, ih]
    · simp [mapDelete, h1, ih]

/-! ## The model of `sort.Slice` -/

theorem insertBy_perm {α : Type} (less : α → α → Bool) (x : α) (l : List α) :
    (insertBy less x l).Perm (x :: l) := by
  induction l with
  | nil => exact List.Perm.refl _
  | cons y ys ih =>
    by_cases h : less x y = true
    · simp [insertBy, h]
    · simp only [insertBy, h]
      exact (List.Perm.cons y ih).trans (List.Perm.swap x y ys)

theorem sortSlice_perm {α : Type} (less : α → α → Bool) (l : List α) :
    (sortSlice less l).Perm l := by
  induction l with
  | nil => exact List.Perm.refl _
  | cons x xs ih =>
    exact (insertBy_perm less x _).trans (List.Perm.cons x ih)

theorem insertBy_timestamp_sorted (x : EventEntry) (l : List EventEntry)
    (h : l.Pairwise fun a b => a.Timestamp ≥ b.Timestamp) :
    (insertBy (fun a b => decide (a.Timestamp > b.Timestamp)) x l).Pairwise
      fun a b => a.Timestamp ≥ b.Timestamp := by
  induction l with
  | nil => simp [insertBy]
  | cons y ys ih =>
    rw [List.pairwise_cons] at h
    by_cases hxy : x.Timestamp > y.Timestamp
    · simp only [insertBy, hxy, decide_True, if_true]
      refine List.pairwise_cons.2 ⟨?_, List.pairwise_cons.2 h⟩
      intro z hz
      rcases List.mem_cons.1 hz with hz | hz
      · subst hz
        exact le_of_lt hxy
      · exact le_trans (h.1 z hz) (le_of_lt hxy)
    · simp only [insertBy, hxy, decide_False]
      refine List.pairwise_cons.2 ⟨?_, ih h.2⟩
      intro z hz
      have hz1 := (insertBy_perm _ x ys).mem_iff.1 hz
      rcases List.mem_cons.1 hz1 with hz2 | hz2
      · subst hz2
        exact not_lt.1 hxy
      · exact h.1 z hz2

theorem sortSlice_timestamp_sorted (l : List EventEntry) :
    (sortSlice (fun a b => decide (a.Timestamp > b.Timestamp)) l).Pairwise
      fun a b => a.Timestamp ≥ b.Timestamp := by
  induction l with
  | nil => simp [sortSlice]
  | cons x xs ih => exact insertBy_timestamp_sorted x _ ih

/-! ## The read phase of `LoadEvents` -/

theorem loadLoop_fst (env : Env) (path : String) (f : EventFilter) (events : List EventEntry)
    (s : EventStorage) (k : Nat) :
    (loadLoop env path f events s k).1 = events.filter fun e => !skips f e := by
  induction events generalizing s k with
  | nil => rfl
  | cons e es ih =>
    by_cases h : skips f e = true
    · simp [loadLoop, h, ih]
    · simp [loadLoop, h, ih]

theorem loadLoop_frame (env : Env) (path : String) (f : EventFilter) (events : List EventEntry)
    (s : EventStorage) (k : Nat) :
    (loadLoop env path f events s k).2.1 =
      { s with pendingUpdates := (loadLoop env path f events s k).2.1.pendingUpdates } := by
  induction events generalizing s k with
  | nil => rfl
  | cons e es ih =>
    by_cases h : skips f e = true
    · simp only [loadLoop, h, if_true]
      exact ih s k
    · have h1 : skips f e = false := by simpa using h
      simp only [loadLoop, h1]
      show (loadLoop env path f es (MarkPendingProcessed env k s e.ID path) (k + 1)).2.1 = _
      rw [ih]
      simp [MarkPendingProcessed]

theorem loadFile_eq (env : Env) (k : Nat) (s : EventStorage) (path : String) (f : EventFilter) :
    loadFile env k s path f =
      (fileEvents s.disk path).map fun events => loadLoop env path f events s k := by
  unfold loadFile fileEvents
  cases readFile s.disk path with
  | none => rfl
  | some data =>
    obtain ⟨sz, evs⟩ := data
    cases evs <;> rfl

theorem loadCandidates_frame (env : Env) (f : EventFilter) (cands : List String)
    (all : List EventEntry) (s : EventStorage) (k : Nat) :
    (loadCandidates env f cands all s k).2.1 =
      { s with pendingUpdates := (loadCandidates env f cands all s k).2.1.pendingUpdates } := by
  induction cands generalizing all s k with
  | nil => rfl
  | cons p ps ih =>
    rw [loadCandidates, loadFile_eq]
    cases fileEvents s.disk p with
    | none => exact ih all s k
    | some events =>
      simp only [Option.map_some']
      rw [ih, loadLoop_frame]

theorem loadCandidates_fst (env : Env) (f : EventFilter) (cands : List String)
    (all : List EventEntry) (s : EventStorage) (k : Nat) :
    (loadCandidates env f cands all s k).1 = all ++ cands.flatMap (passing s.disk f) := by
  induction cands generalizing all s k with
  | nil => simp [loadCandidates]
  | cons p ps ih =>
    rw [loadCandidates, loadFile_eq]
    cases hp : fileEvents s.disk p with
    | none => simp [ih, passing, hp]
    | some events =>
      simp only [Option.map_some']
      rw [ih, loadLoop_fst, loadLoop_frame]
      simp [passing, hp]

theorem LoadEvents_eq (env : Env) (k : Nat) (s : EventStorage) (f0 : EventFilter) :
    LoadEvents env k s f0 =
      Outcome.ok
        (sortSlice (fun a b => decide (a.Timestamp > b.Timestamp))
          ((getCandidateFiles s (effectiveFilter env k f0)).flatMap
            (passing s.disk (effectiveFilter env k f0))))
        (ApplyPendingUpdates env
          (loadCandidates env (effectiveFilter env k f0)
            (getCandidateFiles s (effectiveFilter env k f0)) [] s
            (if f0.EndTime = 0 then k + 1 else k)).2.1).2 := by
  simp [LoadEvents, ApplyPendingUpdates, loadCandidates_fst]

/-! ## `StoreEvent` -/

theorem rotateIfNeeded_blocked (env : Env) (k : Nat) (s : EventStorage)
    (h : s.currentMutex = true) : rotateIfNeeded env k s = Outcome.blocked := by
  simp [rotateIfNeeded, h]

theorem updateFileIndex_unlock (s : EventStorage) (d : Disk) (path : String) (event : EventEntry)
    (h : s.currentMutex = false) :
    { updateFileIndex { s with currentMutex := true, disk := d } path event with
        currentMutex := false } =
      updateFileIndex { s with disk := d } path event := by
  unfold updateFileIndex
  cases s
  simp only at h
  subst h
  dsimp only
  split <;> rfl

theorem MarshalIndent_eq_some (env : Env) (events : List EventEntry) (newData : FileData)
    (h : MarshalIndent env events = some newData) :
    events.any unsupported = false ∧ newData = ⟨env.marshalLen events, some events⟩ := by
  unfold MarshalIndent at h
  split at h
  · cases h
  · rename_i hn
    cases h
    exact ⟨by simpa using hn, rfl⟩

theorem MarshalIndent_of_supported (env : Env) (events : List EventEntry)
    (h : events.any unsupported = false) :
    MarshalIndent env events = some ⟨env.marshalLen events, some events⟩ := by
  simp [MarshalIndent, h]

theorem MarshalIndent_eq_none (env : Env) (events : List EventEntry)
    (h : MarshalIndent env events = none) : events.any unsupported = true := by
  unfold MarshalIndent at h
  split at h
  · assumption
  · cases h

/-- The successful run of `StoreEvent`, step by step. -/
theorem StoreEvent_ok_inv (env : Env) (fuel k : Nat) (s : EventStorage) (e0 : EventEntry)
    (path : String) (s1 : EventStorage)
    (h : StoreEvent env fuel k s e0 = Outcome.ok path s1) :
    s.currentMutex = false ∧ path = s.currentFile ∧
    ∃ data events d, readFile s.disk s.currentFile = some data ∧ data.events = some events ∧
      (data.size : Int) ≤ s.maxFileSize ∧
      writeFile s.disk s.currentFile
        ⟨env.marshalLen (events ++ [ensureFields env k e0]),
          some (events ++ [ensureFields env k e0])⟩ = WriteResult.ok d ∧
      s1 = updateFileIndex { s with disk := d } s.currentFile (ensureFields env k e0) := by
  cases fuel with
  | zero => simp [StoreEvent] at h
  | succ fuel =>
    rw [StoreEvent] at h
    by_cases hm : s.currentMutex = true
    · simp [hm] at h
    · have hm1 : s.currentMutex = false := by simpa using hm
      simp only [hm1] at h
      refine ⟨hm1, ?_⟩
      cases hr : readFile s.disk s.currentFile with
      | none => simp [hr, unlockCurrent] at h
      | some data =>
        cases he : data.events with
        | none => simp [hr, he, unlockCurrent] at h
        | some events =>
          by_cases hs : (data.size : Int) > s.maxFileSize
          · simp [hr, he, hs, rotateIfNeeded_blocked, unlockCurrent] at h
          · cases hmi : MarshalIndent env (events ++ [ensureFields env k e0]) with
            | none => simp [hr, he, hs, hmi, unlockCurrent] at h
            | some newData =>
              have hnd := (MarshalIndent_eq_some _ _ _ hmi).2
              cases hw : writeFile s.disk s.currentFile newData with
              | err d => simp [hr, he, hs, hmi, hw, unlockCurrent] at h
              | ok d =>
                simp only [hr, he, hs, hmi, hw, unlockCurrent, if_false, Bool.false_eq_true,
                  Outcome.ok.injEq] at h
                have h2 := h.2
                rw [updateFileIndex_unlock s d _ _ hm1] at h2
                rw [hnd] at hw
                refine ⟨?_, data, events, d, rfl, he, not_lt.1 hs, hw, h2.symm⟩
                rw [← h.1]
                unfold updateFileIndex
                split <;> rfl

/-- A successful `StoreEvent` has marshalled the new content of the file. -/
theorem StoreEvent_ok_supported (env : Env) (fuel k : Nat) (s : EventStorage) (e0 : EventEntry)
    (path : String) (s1 : EventStorage) (events : List EventEntry)
    (h : StoreEvent env fuel k s e0 = Outcome.ok path s1)
    (hev : fileEvents s.disk s.currentFile = some events) :
    (events ++ [ensureFields env k e0]).any unsupported = false := by
  cases fuel with
  | zero => simp [StoreEvent] at h
  | succ fuel =>
    rw [StoreEvent] at h
    by_cases hm : s.currentMutex = true
    · simp [hm] at h
    · have hm1 : s.currentMutex = false := by simpa using hm
      simp only [hm1] at h
      cases hr : readFile s.disk s.currentFile with
      | none => simp [hr, unlockCurrent] at h
      | some data =>
        cases he : data.events with
        | none => simp [hr, he, unlockCurrent] at h
        | some events1 =>
          have hee : events1 = events := by
            simp [fileEvents, hr, he] at hev
            exact hev
          subst hee
          by_cases hs : (data.size : Int) > s.maxFileSize
          · simp [hr, he, hs, rotateIfNeeded_blocked, unlockCurrent] at h
          · cases hmi : MarshalIndent env (events1 ++ [ensureFields env k e0]) with
            | none => simp [hr, he, hs, hmi, unlockCurrent] at h
            | some newData => exact (MarshalIndent_eq_some _ _ _ hmi).1

theorem StoreEvent_ok_of (env : Env) (fuel k : Nat) (s : EventStorage) (e0 : EventEntry)
    (data : FileData) (events : List EventEntry) (d : Disk)
    (hm : s.currentMutex = false)
    (hr : readFile s.disk s.currentFile = some data) (he : data.events = some events)
    (hs : (data.size : Int) ≤ s.maxFileSize)
    (hsup : (events ++ [ensureFields env k e0]).any unsupported = false)
    (hw : writeFile s.disk s.currentFile
        ⟨env.marshalLen (events ++ [ensureFields env k e0]),
          some (events ++ [ensureFields env k e0])⟩ = WriteResult.ok d) :
    StoreEvent env (fuel + 1) k s e0 =
      Outcome.ok s.currentFile
        (updateFileIndex { s with disk := d } s.currentFile (ensureFields env k e0)) := by
  rw [StoreEvent]
  have hs1 : ¬ (data.size : Int) > s.maxFileSize := not_lt.2 hs
  have hmi := MarshalIndent_of_supported env _ hsup
  simp only [hm, hr, he, hs1, hmi, hw, unlockCurrent, if_false, Bool.false_eq_true,
    Outcome.ok.injEq]
  refine ⟨?_, ?_⟩
  · unfold updateFileIndex
    split <;> rfl
  · have h := updateFileIndex_unlock s d s.currentFile (ensureFields env k e0) hm
    simp only [hm] at h
    exact h

/-- The failing run of `StoreEvent`: the store is as before, except that a write that
failed has left its mark on the file system. -/
theorem StoreEvent_fail_inv (env : Env) (fuel k : Nat) (s : EventStorage) (e0 : EventEntry)
    (s1 : EventStorage) (h : StoreEvent env fuel k s e0 = Outcome.fail s1) :
    s.currentMutex = false ∧
    (s1 = s ∨
      ∃ data events d, readFile s.disk s.currentFile = some data ∧ data.events = some events ∧
        writeFile s.disk s.currentFile
          ⟨env.marshalLen (events ++ [ensureFields env k e0]),
            some (events ++ [ensureFields env k e0])⟩ = WriteResult.err d ∧
        s1 = { s with disk := d }) := by
  cases fuel with
  | zero => simp [StoreEvent] at h
  | succ fuel =>
    rw [StoreEvent] at h
    by_cases hm : s.currentMutex = true
    · simp [hm] at h
    · have hm1 : s.currentMutex = false := by simpa using hm
      simp only [hm1] at h
      refine ⟨hm1, ?_⟩
      have hs : { s with currentMutex := false } = s := by
        cases s
        simp only at hm1
        subst hm1
        rfl
      cases hr : readFile s.disk s.currentFile with
      | none =>
        simp only [hr, unlockCurrent, if_false, Bool.false_eq_true, Outcome.fail.injEq] at h
        left
        rw [← h, ← hs]
      | some data =>
        cases he : data.events with
        | none =>
          simp only [hr, he, unlockCurrent, if_false, Bool.false_eq_true, Outcome.fail.injEq] at h
          left
          rw [← h, ← hs]
        | some events =>
          by_cases hsz : (data.size : Int) > s.maxFileSize
          · simp [hr, he, hsz, rotateIfNeeded_blocked, unlockCurrent] at h
          · cases hmi : MarshalIndent env (events ++ [ensureFields env k e0]) with
            | none =>
              simp only [hr, he, hsz, hmi, unlockCurrent, if_false, Bool.false_eq_true,
                Outcome.fail.injEq] at h
              left
              rw [← h, ← hs]
            | some newData =>
              have hnd := (MarshalIndent_eq_some _ _ _ hmi).2
              cases hw : writeFile s.disk s.currentFile newData with
              | err d =>
                simp only [hr, he, hsz, hmi, hw, unlockCurrent, if_false, Bool.false_eq_true,
                  Outcome.fail.injEq] at h
                right
                rw [hnd] at hw
                refine ⟨data, events, d, rfl, he, hw, ?_⟩
                rw [← h]
                cases s
                simp only at hm1
                subst hm1
                rfl
              | ok d => simp [hr, he, hsz, hmi, hw, unlockCurrent] at h

/-- An oversized active file: the call locks `currentMutex`, then `rotateIfNeeded`
locks it again. -/
theorem StoreEvent_blocked_of_oversized (env : Env) (fuel k : Nat) (s : EventStorage)
    (e0 : EventEntry) (data : FileData) (events : List EventEntry)
    (hr : readFile s.disk s.currentFile = some data) (he : data.events = some events)
    (hs : (data.size : Int) > s.maxFileSize) :
    StoreEvent env (fuel + 1) k s e0 = Outcome.blocked := by
  rw [StoreEvent]
  by_cases hm : s.currentMutex = true
  · simp [hm]
  · have hm1 : s.currentMutex = false := by simpa using hm
    simp [hm1, hr, he, hs, rotateIfNeeded_blocked, unlockCurrent]

/-! ## The file system -/

theorem writeFile_ok_inv (d d1 : Disk) (p : String) (data : FileData)
    (h : writeFile d p data = WriteResult.ok d1) :
    p ∉ d.readOnly ∧ mapGet d.cutShort p = none ∧
      d1 = { d with nodes := mapSet d.nodes p (Node.file data) } := by
  unfold writeFile at h
  split at h
  · cases h
  · rename_i hro
    split at h
    · cases h
    · split at h
      · cases h
      · rename_i hc
        cases h
        exact ⟨hro, hc, rfl⟩

/-- A failed write: the open was refused and the file system is as it was, or the write
was cut short and the file no longer parses. -/
theorem writeFile_err_inv (d d1 : Disk) (p : String) (data : FileData)
    (h : writeFile d p data = WriteResult.err d1) :
    d1 = d ∨ ∃ n, mapGet d.cutShort p = some n ∧
      d1 = { d with nodes := mapSet d.nodes p (Node.file ⟨min n (data.size - 1), none⟩) } := by
  unfold writeFile at h
  split at h
  · cases h
    exact Or.inl rfl
  · split at h
    · cases h
      exact Or.inl rfl
    · split at h
      · rename_i n hn
        cases h
        exact Or.inr ⟨n, hn, rfl⟩
      · cases h

theorem readFile_writeFile_same (d d1 : Disk) (p : String) (data : FileData)
    (h : writeFile d p data = WriteResult.ok d1) : readFile d1 p = some data := by
  rw [(writeFile_ok_inv d d1 p data h).2.2]
  simp [readFile, mapGet_mapSet_same]

theorem mapGet_writeFile_other (d d1 : Disk) (p q : String) (data : FileData)
    (h : writeFile d p data = WriteResult.ok d1) (hq : p ≠ q) :
    mapGet d1.nodes q = mapGet d.nodes q := by
  rw [(writeFile_ok_inv d d1 p data h).2.2]
  simp [mapGet_mapSet_other _ _ _ _ hq]

theorem readFile_writeFile_other (d d1 : Disk) (p q : String) (data : FileData)
    (h : writeFile d p data = WriteResult.ok d1) (hq : p ≠ q) : readFile d1 q = readFile d q := by
  simp [readFile, mapGet_writeFile_other d d1 p q data h hq]

theorem readOnly_writeFile (d d1 : Disk) (p : String) (data : FileData)
    (h : writeFile d p data = WriteResult.ok d1) : d1.readOnly = d.readOnly := by
  rw [(writeFile_ok_inv d d1 p data h).2.2]

theorem cutShort_writeFile (d d1 : Disk) (p : String) (data : FileData)
    (h : writeFile d p data = WriteResult.ok d1) : d1.cutShort = d.cutShort := by
  rw [(writeFile_ok_inv d d1 p data h).2.2]

theorem writeFile_not_readOnly (d d1 : Disk) (p : String) (data : FileData)
    (h : writeFile d p data = WriteResult.ok d1) : p ∉ d.readOnly :=
  (writeFile_ok_inv d d1 p data h).1

theorem writeFile_of_readable (d : Disk) (p : String) (old data : FileData)
    (hr : readFile d p = some old) (hw : p ∉ d.readOnly) (hc : mapGet d.cutShort p = none) :
    ∃ d1, writeFile d p data = WriteResult.ok d1 := by
  unfold readFile at hr
  unfold writeFile
  simp only [hw, if_false]
  split at hr
  · rename_i x h
    simp [h, hc]
  · cases hr

theorem cutShort_writeFile_err (d d1 : Disk) (p : String) (data : FileData)
    (h : writeFile d p data = WriteResult.err d1) : d1.cutShort = d.cutShort := by
  rcases writeFile_err_inv d d1 p data h with h1 | ⟨n, _, h1⟩ <;> rw [h1]

theorem mapGet_writeFile_err_other (d d1 : Disk) (p q : String) (data : FileData)
    (h : writeFile d p data = WriteResult.err d1) (hq : p ≠ q) :
    mapGet d1.nodes q = mapGet d.nodes q := by
  rcases writeFile_err_inv d d1 p data h with h1 | ⟨n, _, h1⟩ <;> rw [h1]
  simp [mapGet_mapSet_other _ _ _ _ hq]

theorem fileEvents_writeFile_same (d d1 : Disk) (p : String) (data : FileData)
    (h : writeFile d p data = WriteResult.ok d1) : fileEvents d1 p = data.events := by
  simp [fileEvents, readFile_writeFile_same d d1 p data h]

theorem fileEvents_writeFile_other (d d1 : Disk) (p q : String) (data : FileData)
    (h : writeFile d p data = WriteResult.ok d1) (hq : p ≠ q) :
    fileEvents d1 q = fileEvents d q := by
  simp [fileEvents, readFile_writeFile_other d d1 p q data h hq]

theorem fileEvents_writeFile_err_other (d d1 : Disk) (p q : String) (data : FileData)
    (h : writeFile d p data = WriteResult.err d1) (hq : p ≠ q) :
    fileEvents d1 q = fileEvents d q := by
  simp [fileEvents, readFile, mapGet_writeFile_err_other d d1 p q data h hq]

/-- After a failed write the file holds what it held, or it no longer parses. -/
theorem fileEvents_writeFile_err_same (d d1 : Disk) (p : String) (data : FileData)
    (h : writeFile d p data = WriteResult.err d1) :
    fileEvents d1 p = fileEvents d p ∨
      (mapGet d.cutShort p ≠ none ∧ fileEvents d1 p = none) := by
  rcases writeFile_err_inv d d1 p data h with h1 | ⟨n, hn, h1⟩
  · rw [h1]
    exact Or.inl rfl
  · right
    rw [h1]
    refine ⟨by simp [hn], ?_⟩
    simp [fileEvents, readFile, mapGet_mapSet_same]

theorem fileEvents_eq_some (d : Disk) (p : String) (events : List EventEntry)
    (h : fileEvents d p = some events) :
    ∃ data, readFile d p = some data ∧ data.events = some events := by
  unfold fileEvents at h
  cases hr : readFile d p with
  | none => simp [hr] at h
  | some data => exact ⟨data, rfl, by simpa [hr] using h⟩

/-! ## The file index -/

theorem mem_setType (types : List String) (t u : String) :
    u ∈ setType types t ↔ u = t ∨ u ∈ types := by
  unfold setType
  split
  · constructor
    · exact Or.inr
    · rintro (h | h)
      · subst h
        assumption
      · exact h
  · simp

theorem indexLoop_spec (events : List EventEntry) (idx : FileIndex) (flag : Bool) :
    (indexLoop events idx flag).1.MinTime ≤ idx.MinTime ∧
    idx.MaxTime ≤ (indexLoop events idx flag).1.MaxTime ∧
    idx.MaxSeverity ≤ (indexLoop events idx flag).1.MaxSeverity ∧
    (∀ t ∈ idx.EventTypes, t ∈ (indexLoop events idx flag).1.EventTypes) ∧
    (flag = true → (indexLoop events idx flag).2 = true) ∧
    ((indexLoop events idx flag).2 = true →
      flag = true ∨ ∃ e ∈ events, e.Processed = false) ∧
    ∀ e ∈ events,
      (indexLoop events idx flag).1.MinTime ≤ e.Timestamp ∧
      e.Timestamp ≤ (indexLoop events idx flag).1.MaxTime ∧
      e.Severity ≤ (indexLoop events idx flag).1.MaxSeverity ∧
      e.Type_ ∈ (indexLoop events idx flag).1.EventTypes ∧
      ((indexLoop events idx flag).2 = false → e.Processed = true) := by
  induction events generalizing idx flag with
  | nil => simp [indexLoop]
  | cons ev rest ih =>
    simp only [indexLoop]
    generalize hi1 : (if ev.Timestamp < idx.MinTime then { idx with MinTime := ev.Timestamp }
      else idx) = idx1
    generalize hi2 : (if ev.Timestamp > idx1.MaxTime then { idx1 with MaxTime := ev.Timestamp }
      else idx1) = idx2
    generalize hi3 : (if ev.Severity > idx2.MaxSeverity then
      { idx2 with MaxSeverity := ev.Severity } else idx2) = idx3
    generalize hf : (if (!ev.Processed) = true then true else flag) = flag1
    have a1 : idx1.MinTime ≤ idx.MinTime ∧ idx1.MinTime ≤ ev.Timestamp ∧
        idx1.MaxTime = idx.MaxTime ∧ idx1.MaxSeverity = idx.MaxSeverity ∧
        idx1.EventTypes = idx.EventTypes := by
      rw [← hi1]
      split <;> simp <;> omega
    have a2 : idx2.MinTime = idx1.MinTime ∧ idx1.MaxTime ≤ idx2.MaxTime ∧
        ev.Timestamp ≤ idx2.MaxTime ∧ idx2.MaxSeverity = idx1.MaxSeverity ∧
        idx2.EventTypes = idx1.EventTypes := by
      rw [← hi2]
      split <;> simp <;> omega
    have a3 : idx3.MinTime = idx2.MinTime ∧ idx3.MaxTime = idx2.MaxTime ∧
        idx2.MaxSeverity ≤ idx3.MaxSeverity ∧ ev.Severity ≤ idx3.MaxSeverity ∧
        idx3.EventTypes = idx2.EventTypes := by
      rw [← hi3]
      split <;> simp <;> omega
    have a4 : (flag = true → flag1 = true) ∧ (ev.Processed = false → flag1 = true) ∧
        (flag1 = true → flag = true ∨ ev.Processed = false) := by
      rw [← hf]
      cases ev.Processed <;> simp
    obtain ⟨b1, b2, b3, b4, b5, b6, b7⟩ :=
      ih { idx3 with EventTypes := setType idx3.EventTypes ev.Type_ } flag1
    simp only at b1 b2 b3 b4
    refine ⟨by omega, by omega, by omega, ?_, ?_, ?_, ?_⟩
    · intro t ht
      apply b4
      rw [mem_setType]
      right
      rw [a3.2.2.2.2, a2.2.2.2.2, a1.2.2.2.2]
      exact ht
    · intro hfl
      exact b5 (a4.1 hfl)
    · intro hfl
      rcases b6 hfl with h | ⟨e, he, hp⟩
      · rcases a4.2.2 h with h1 | h1
        · exact Or.inl h1
        · exact Or.inr ⟨ev, List.mem_cons_self _ _, h1⟩
      · exact Or.inr ⟨e, List.mem_cons_of_mem _ he, hp⟩
    · intro e he
      rcases List.mem_cons.1 he with h | h
      · subst h
        refine ⟨by omega, by omega, by omega, ?_, ?_⟩
        · apply b4
          rw [mem_setType]
          exact Or.inl rfl
        · intro hfl
          cases hp : e.Processed with
          | true => rfl
          | false =>
            have := b5 (a4.2.1 hp)
            rw [hfl] at this
            cases this
      · exact b7 e h

theorem buildIndex_covers (path : String) (first : EventEntry) (events : List EventEntry) :
    Covers (buildIndex path first events) events := by
  intro e he
  obtain ⟨_, _, _, _, _, _, b7⟩ := indexLoop_spec events
    { Path := path, MinTime := first.Timestamp, MaxTime := first.Timestamp,
      MaxSeverity := 0, EventTypes := [], AllProcessed := false } false
  obtain ⟨c1, c2, c3, c4, c5⟩ := b7 e he
  refine ⟨c1, c2, c3, c4, ?_⟩
  intro h
  apply c5
  simpa [buildIndex] using h

theorem buildIndex_allProcessed (path : String) (first : EventEntry)
    (events : List EventEntry) (h : ∀ e ∈ events, e.Processed = true) :
    (buildIndex path first events).AllProcessed = true := by
  obtain ⟨_, _, _, _, _, b6, _⟩ := indexLoop_spec events
    { Path := path, MinTime := first.Timestamp, MaxTime := first.Timestamp,
      MaxSeverity := 0, EventTypes := [], AllProcessed := false } false
  simp only [buildIndex, Bool.not_eq_true']
  cases hf : (indexLoop events
    { Path := path, MinTime := first.Timestamp, MaxTime := first.Timestamp,
      MaxSeverity := 0, EventTypes := [], AllProcessed := false } false).2 with
  | false => rfl
  | true =>
    rcases b6 hf with h1 | ⟨e, he, hp⟩
    · cases h1
    · rw [h e he] at hp
      cases hp

theorem updateFileIndex_eq (s : EventStorage) (p : String) (ev : EventEntry) :
    ∃ idx1, updateFileIndex s p ev = { s with fileIndexes := mapSet s.fileIndexes p idx1 } ∧
      Covers idx1 [ev] ∧
      ∀ idx events, mapGet s.fileIndexes p = some idx → Covers idx events →
        Covers idx1 events := by
  unfold updateFileIndex
  cases hg : mapGet s.fileIndexes p with
  | none =>
    refine ⟨_, rfl, ?_, ?_⟩
    · intro e he
      simp only [List.mem_singleton] at he
      subst he
      simp
    · intro idx events h
      cases h
  | some idx =>
    simp only
    generalize hi1 : (if ev.Timestamp < idx.MinTime then { idx with MinTime := ev.Timestamp }
      else idx) = idx1
    generalize hi2 : (if ev.Timestamp > idx1.MaxTime then { idx1 with MaxTime := ev.Timestamp }
      else idx1) = idx2
    generalize hi3 : (if ev.Severity > idx2.MaxSeverity then
      { idx2 with MaxSeverity := ev.Severity } else idx2) = idx3
    have a1 : idx1.MinTime ≤ idx.MinTime ∧ idx1.MinTime ≤ ev.Timestamp ∧
        idx1.MaxTime = idx.MaxTime ∧ idx1.MaxSeverity = idx.MaxSeverity ∧
        idx1.EventTypes = idx.EventTypes := by
      rw [← hi1]
      split <;> simp <;> omega
    have a2 : idx2.MinTime = idx1.MinTime ∧ idx1.MaxTime ≤ idx2.MaxTime ∧
        ev.Timestamp ≤ idx2.MaxTime ∧ idx2.MaxSeverity = idx1.MaxSeverity ∧
        idx2.EventTypes = idx1.EventTypes := by
      rw [← hi2]
      split <;> simp <;> omega
    have a3 : idx3.MinTime = idx2.MinTime ∧ idx3.MaxTime = idx2.MaxTime ∧
        idx2.MaxSeverity ≤ idx3.MaxSeverity ∧ ev.Severity ≤ idx3.MaxSeverity ∧
        idx3.EventTypes = idx2.EventTypes := by
      rw [← hi3]
      split <;> simp <;> omega
    refine ⟨_, rfl, ?_, ?_⟩
    · intro e he
      simp only [List.mem_singleton] at he
      subst he
      refine ⟨by simp only; omega, by simp only; omega, by simp only [ge_iff_le]; omega, ?_, ?_⟩
      · simp [mem_setType]
      · simp
    · intro idx0 events h hc e he
      cases h
      obtain ⟨c1, c2, c3, c4, _⟩ := hc e he
      refine ⟨by simp only; omega, by simp only; omega, by simp only [ge_iff_le]; omega, ?_, ?_⟩
      · simp only [mem_setType]
        right
        rw [a3.2.2.2.2, a2.2.2.2.2, a1.2.2.2.2]
        exact c4
      · simp

theorem indexFile_snd (s : EventStorage) (q : String) :
    (indexFile s q).2 =
      match fileEvents s.disk q with
      | some (first :: rest) =>
        { s with fileIndexes := mapSet s.fileIndexes q (buildIndex q first (first :: rest)) }
      | _ => s := by
  unfold indexFile fileEvents
  cases readFile s.disk q with
  | none => rfl
  | some data =>
    obtain ⟨sz, evs⟩ := data
    cases evs with
    | none => rfl
    | some l => cases l <;> rfl

theorem SameConfig.refl (s : EventStorage) : SameConfig s s :=
  ⟨rfl, rfl, rfl, rfl, rfl, rfl, rfl⟩

theorem SameConfig.trans {s s1 s2 : EventStorage} (h1 : SameConfig s s1)
    (h2 : SameConfig s1 s2) : SameConfig s s2 := by
  unfold SameConfig at h1 h2 ⊢
  rw [h2.1, h2.2.1, h2.2.2.1, h2.2.2.2.1, h2.2.2.2.2.1, h2.2.2.2.2.2.1, h2.2.2.2.2.2.2]
  exact h1

theorem isEventFile_congr {s s1 : EventStorage} (h : SameConfig s s1) (p : String) :
    isEventFile s1 p ↔ isEventFile s p := by
  obtain ⟨a1, a2, _, a4, _, _, _⟩ := h
  simp [isEventFile, a1, a2, a4]

theorem Indexed_congr {s s1 : EventStorage} {p : String}
    (hd : fileEvents s1.disk p = fileEvents s.disk p)
    (hi : mapGet s1.fileIndexes p = mapGet s.fileIndexes p) (h : Indexed s p) :
    Indexed s1 p := by
  intro events he hne
  rw [hd] at he
  rw [hi]
  exact h events he hne

theorem Indexed_of_fresh {s : EventStorage} {p : String} (h : IndexFresh s p) : Indexed s p := by
  obtain ⟨first, rest, h1, h2⟩ := h
  intro events he _
  rw [h1] at he
  cases he
  exact ⟨_, h2, buildIndex_covers _ _ _⟩

theorem indexFile_frame (s : EventStorage) (q : String) :
    SameConfig s (indexFile s q).2 ∧ (indexFile s q).2.disk = s.disk ∧
    (indexFile s q).2.pendingUpdates = s.pendingUpdates ∧
    (indexFile s q).2.lockManager = s.lockManager ∧
    (∀ p, p ≠ q → mapGet (indexFile s q).2.fileIndexes p = mapGet s.fileIndexes p) ∧
    ((s.fileIndexes.map Prod.fst).Nodup → ((indexFile s q).2.fileIndexes.map Prod.fst).Nodup) ∧
    (∀ first rest, fileEvents s.disk q = some (first :: rest) → IndexFresh (indexFile s q).2 q) ∧
    (∀ events, fileEvents s.disk q = some events → events = [] → (indexFile s q).2 = s) ∧
    (fileEvents s.disk q = none → (indexFile s q).2 = s) := by
  rw [indexFile_snd]
  cases he : fileEvents s.disk q with
  | none =>
    refine ⟨SameConfig.refl s, rfl, rfl, rfl, fun _ _ => rfl, id, ?_, fun _ _ _ => rfl, fun _ => rfl⟩
    intro first rest h
    cases h
  | some l =>
    cases l with
    | nil =>
      refine ⟨SameConfig.refl s, rfl, rfl, rfl, fun _ _ => rfl, id, ?_, fun _ _ _ => rfl,
        fun h => by cases h⟩
      intro first rest h
      cases h
    | cons first rest =>
      refine ⟨⟨rfl, rfl, rfl, rfl, rfl, rfl, rfl⟩, rfl, rfl, rfl, ?_, ?_, ?_, ?_,
        fun h => by cases h⟩
      · intro p hp
        exact mapGet_mapSet_other _ _ _ _ (Ne.symm hp)
      · exact nodup_keys_mapSet _ _ _
      · intro f r h
        cases h
        exact ⟨first, rest, he, mapGet_mapSet_same _ _ _⟩
      · intro events h hn
        cases h
        cases hn

theorem indexFile_indexed (s : EventStorage) (q p : String) (h : Indexed s p) :
    Indexed (indexFile s q).2 p := by
  obtain ⟨_, a2, _, _, a5, _, a7, a8, a9⟩ := indexFile_frame s q
  by_cases hp : p = q
  · subst hp
    cases he : fileEvents s.disk p with
    | none =>
      rw [a9 he]
      exact h
    | some l =>
      cases l with
      | nil =>
        rw [a8 _ he rfl]
        exact h
      | cons first rest => exact Indexed_of_fresh (a7 first rest he)
  · exact Indexed_congr (by rw [a2]) (a5 p hp) h

theorem indexFile_indexed_self (s : EventStorage) (q : String) :
    Indexed (indexFile s q).2 q := by
  obtain ⟨_, a2, _, _, _, _, a7, a8, a9⟩ := indexFile_frame s q
  cases he : fileEvents s.disk q with
  | none =>
    intro events h
    rw [a2, he] at h
    cases h
  | some l =>
    cases l with
    | nil =>
      intro events h hn
      rw [a2, he] at h
      cases h
      exact absurd rfl hn
    | cons first rest => exact Indexed_of_fresh (a7 first rest he)

/-! ## The flush phase of `LoadEvents` -/

theorem markEvent_nil (e : EventEntry) : markEvent [] e = e := by
  simp [markEvent, mapGet]

theorem applyUpdates_fst (ups : List (String × EventUpdate)) (events : List EventEntry) :
    (applyUpdates ups events).1 = events.map (markEvent ups) := by
  induction events with
  | nil => rfl
  | cons e es ih =>
    simp only [applyUpdates, List.map_cons, markEvent]
    cases mapGet ups e.ID <;> simp [ih]

theorem applyUpdates_snd_true (ups : List (String × EventUpdate)) (events : List EventEntry)
    (e : EventEntry) (he : e ∈ events) (u : EventUpdate) (hu : mapGet ups e.ID = some u) :
    (applyUpdates ups events).2 = true := by
  induction events with
  | nil => cases he
  | cons a es ih =>
    simp only [applyUpdates]
    cases ha : mapGet ups a.ID with
    | some x => rfl
    | none =>
      rcases List.mem_cons.1 he with h | h
      · subst h
        rw [hu] at ha
        cases ha
      · exact ih h

theorem applyUpdates_snd_false (ups : List (String × EventUpdate)) (events : List EventEntry)
    (h : (applyUpdates ups events).2 = false) : events.map (markEvent ups) = events := by
  induction events with
  | nil => rfl
  | cons a es ih =>
    simp only [applyUpdates] at h
    cases ha : mapGet ups a.ID with
    | some x => simp [ha] at h
    | none =>
      simp only [ha] at h
      simp [markEvent, ha, ih h]

theorem applyUpdates_snd_ne_nil (ups : List (String × EventUpdate)) (events : List EventEntry)
    (h : (applyUpdates ups events).2 = true) : events ≠ [] := by
  intro hn
  subst hn
  simp [applyUpdates] at h

theorem IndexFresh_congr {s s1 : EventStorage} {p : String}
    (hd : fileEvents s1.disk p = fileEvents s.disk p)
    (hi : mapGet s1.fileIndexes p = mapGet s.fileIndexes p) (h : IndexFresh s p) :
    IndexFresh s1 p := by
  obtain ⟨first, rest, h1, h2⟩ := h
  exact ⟨first, rest, hd.trans h1, hi.trans h2⟩

theorem unsupported_markEvent (ups : List (String × EventUpdate)) (e : EventEntry) :
    unsupported (markEvent ups e) = unsupported e := by
  unfold markEvent
  cases mapGet ups e.ID <;> rfl

theorem any_unsupported_map_markEvent (ups : List (String × EventUpdate))
    (events : List EventEntry) :
    (events.map (markEvent ups)).any unsupported = events.any unsupported := by
  induction events with
  | nil => rfl
  | cons e es ih => simp only [List.map_cons, List.any_cons, ih, unsupported_markEvent]

/-- Writing a path that holds a regular file. -/
theorem writeFile_file (d : Disk) (p : String) (old data : FileData)
    (hr : readFile d p = some old) :
    writeFile d p data =
      if p ∈ d.readOnly then WriteResult.err d
      else match mapGet d.cutShort p with
        | some n =>
          WriteResult.err
            { d with nodes := mapSet d.nodes p (Node.file ⟨min n (data.size - 1), none⟩) }
        | none => WriteResult.ok { d with nodes := mapSet d.nodes p (Node.file data) } := by
  unfold readFile at hr
  unfold writeFile
  split at hr
  · rename_i x h
    simp only [h]
  · cases hr

theorem flushed_nil (d : Disk) (p : String) : flushed d p [] = fileEvents d p := by
  unfold flushed
  cases h : fileEvents d p with
  | none => rfl
  | some events =>
    have h2 : ∀ l : List EventEntry, (applyUpdates [] l).2 = false := by
      intro l
      induction l with
      | nil => rfl
      | cons e es ih => simp [applyUpdates, mapGet, ih]
    simp [h2]

theorem flushed_congr (d d1 : Disk) (p : String) (ups : List (String × EventUpdate))
    (h1 : fileEvents d1 p = fileEvents d p) (h2 : d1.readOnly = d.readOnly)
    (h3 : d1.cutShort = d.cutShort) : flushed d1 p ups = flushed d p ups := by
  unfold flushed
  rw [h1, h2, h3]

/-- A flush that goes through marks the events. -/
theorem flushed_of_writable (d : Disk) (p : String) (ups : List (String × EventUpdate))
    (events : List EventEntry) (he : fileEvents d p = some events)
    (hs : events.any unsupported = false) (hro : p ∉ d.readOnly)
    (hc : mapGet d.cutShort p = none) :
    flushed d p ups = some (events.map (markEvent ups)) := by
  unfold flushed
  rw [he]
  simp only [hs, hro, hc, Bool.false_eq_true, if_false]
  split
  · rename_i h
    rw [applyUpdates_snd_false ups events h]
  · rfl

/-- Whatever the flush does, the file keeps its events, or holds them marked, or no
longer parses because the write was cut short. -/
theorem flushed_cases (d : Disk) (p : String) (ups : List (String × EventUpdate)) :
    flushed d p ups = fileEvents d p ∨
    flushed d p ups = (fileEvents d p).map (List.map (markEvent ups)) ∨
    (mapGet d.cutShort p ≠ none ∧ flushed d p ups = none) := by
  unfold flushed
  cases he : fileEvents d p with
  | none => exact Or.inl rfl
  | some events =>
    dsimp only
    split
    · exact Or.inl rfl
    · split
      · exact Or.inl rfl
      · split
        · exact Or.inl rfl
        · split
          · rename_i n hn
            exact Or.inr (Or.inr ⟨by simp [hn], rfl⟩)
          · exact Or.inr (Or.inl rfl)

theorem applySingleFileUpdates_snd (env : Env) (s : EventStorage) (q : String)
    (ups : List (String × EventUpdate)) :
    (applySingleFileUpdates env s q ups).2 =
      match fileEvents s.disk q with
      | none => { s with lockManager := (GetLock s.lockManager q).2 }
      | some events =>
        if (applyUpdates ups events).2 = true then
          match MarshalIndent env (applyUpdates ups events).1 with
          | none => { s with lockManager := (GetLock s.lockManager q).2 }
          | some newData =>
            match writeFile s.disk q newData with
            | WriteResult.err d =>
              { s with lockManager := (GetLock s.lockManager q).2, disk := d }
            | WriteResult.ok d =>
              (indexFile { s with lockManager := (GetLock s.lockManager q).2, disk := d } q).2
        else { s with lockManager := (GetLock s.lockManager q).2 } := by
  unfold applySingleFileUpdates fileEvents
  dsimp only
  cases readFile s.disk q with
  | none => rfl
  | some data =>
    obtain ⟨sz, evs⟩ := data
    cases evs with
    | none => rfl
    | some events =>
      dsimp only
      cases (applyUpdates ups events).2 with
      | false => rfl
      | true =>
        simp only [Bool.not_true, Bool.false_eq_true, if_false, if_true]
        cases MarshalIndent env (applyUpdates ups events).1 with
        | none => rfl
        | some newData =>
          dsimp only
          cases writeFile s.disk q newData <;> rfl

theorem applySingleFileUpdates_spec (env : Env) (s : EventStorage) (q : String)
    (ups : List (String × EventUpdate)) :
    SameConfig s (applySingleFileUpdates env s q ups).2 ∧
    (applySingleFileUpdates env s q ups).2.pendingUpdates = s.pendingUpdates ∧
    (∀ p, fileEvents (applySingleFileUpdates env s q ups).2.disk p =
      if p = q then flushed s.disk q ups else fileEvents s.disk p) ∧
    (∀ p, Indexed s p → Indexed (applySingleFileUpdates env s q ups).2 p) ∧
    (∀ p, IndexFresh s p → mapGet s.disk.cutShort p = none →
      IndexFresh (applySingleFileUpdates env s q ups).2 p) ∧
    ((s.fileIndexes.map Prod.fst).Nodup →
      ((applySingleFileUpdates env s q ups).2.fileIndexes.map Prod.fst).Nodup) ∧
    (q ∉ s.disk.readOnly → mapGet s.disk.cutShort q = none →
      ∀ events e u, fileEvents s.disk q = some events → events.any unsupported = false →
      e ∈ events → mapGet ups e.ID = some u →
      IndexFresh (applySingleFileUpdates env s q ups).2 q) := by
  have base : ∀ lm : FileLockManager,
      flushed s.disk q ups = fileEvents s.disk q →
      (∀ events e u, q ∉ s.disk.readOnly → mapGet s.disk.cutShort q = none →
        fileEvents s.disk q = some events → events.any unsupported = false → e ∈ events →
        mapGet ups e.ID = some u → False) →
      SameConfig s { s with lockManager := lm } ∧
      ({ s with lockManager := lm } : EventStorage).pendingUpdates = s.pendingUpdates ∧
      (∀ p, fileEvents ({ s with lockManager := lm } : EventStorage).disk p =
        if p = q then flushed s.disk q ups else fileEvents s.disk p) ∧
      (∀ p, Indexed s p → Indexed { s with lockManager := lm } p) ∧
      (∀ p, IndexFresh s p → mapGet s.disk.cutShort p = none →
        IndexFresh { s with lockManager := lm } p) ∧
      ((s.fileIndexes.map Prod.fst).Nodup →
        ((({ s with lockManager := lm } : EventStorage).fileIndexes).map Prod.fst).Nodup) ∧
      (q ∉ s.disk.readOnly → mapGet s.disk.cutShort q = none →
        ∀ events e u, fileEvents s.disk q = some events → events.any unsupported = false →
        e ∈ events → mapGet ups e.ID = some u → IndexFresh { s with lockManager := lm } q) := by
    intro lm h1 h2
    refine ⟨⟨rfl, rfl, rfl, rfl, rfl, rfl, rfl⟩, rfl, ?_, fun p h => Indexed_congr rfl rfl h,
      fun p h _ => IndexFresh_congr rfl rfl h, id, ?_⟩
    · intro p
      by_cases hp : p = q
      · rw [if_pos hp, h1, hp]
      · rw [if_neg hp]
    · intro hw hc events e u he hsup hm hu
      exact (h2 events e u hw hc he hsup hm hu).elim
  generalize hres : (applySingleFileUpdates env s q ups).2 = r
  rw [applySingleFileUpdates_snd] at hres
  obtain ⟨o, hf⟩ : ∃ o, fileEvents s.disk q = o := ⟨_, rfl⟩
  cases o with
  | none =>
    simp only [hf] at hres
    subst hres
    refine base _ ?_ ?_
    · simp [flushed, hf]
    · intro events e u _ _ he
      rw [hf] at he
      cases he
  | some events =>
    simp only [hf] at hres
    obtain ⟨b, hu⟩ : ∃ b, (applyUpdates ups events).2 = b := ⟨_, rfl⟩
    cases b with
    | false =>
      simp only [hu, Bool.false_eq_true, if_false] at hres
      subst hres
      refine base _ ?_ ?_
      · simp [flushed, hf, hu]
      · intro events1 e u _ _ he _ hm hmu
        rw [hf] at he
        have he2 := Option.some.inj he
        rw [← he2] at hm
        rw [applyUpdates_snd_true ups events e hm u hmu] at hu
        cases hu
    | true =>
      simp only [hu, if_true] at hres
      obtain ⟨data, hr, _⟩ := fileEvents_eq_some _ _ _ hf
      cases hmi : MarshalIndent env (applyUpdates ups events).1 with
      | none =>
        simp only [hmi] at hres
        subst hres
        have hun := MarshalIndent_eq_none _ _ hmi
        rw [applyUpdates_fst, any_unsupported_map_markEvent] at hun
        refine base _ ?_ ?_
        · simp [flushed, hf, hu, hun]
        · intro events1 e u _ _ he hsup
          rw [hf] at he
          have he2 := Option.some.inj he
          rw [← he2, hun] at hsup
          cases hsup
      | some newData =>
        have hsup := (MarshalIndent_eq_some _ _ _ hmi).1
        have hnd := (MarshalIndent_eq_some _ _ _ hmi).2
        rw [applyUpdates_fst, any_unsupported_map_markEvent] at hsup
        simp only [hmi] at hres
        rw [writeFile_file s.disk q data newData hr] at hres
        by_cases hro : q ∈ s.disk.readOnly
        · simp only [hro, if_true] at hres
          subst hres
          refine base _ ?_ ?_
          · simp [flushed, hf, hu, hsup, hro]
          · intro events1 e u hc
            exact absurd hro hc
        · simp only [hro, if_false] at hres
          cases hc : mapGet s.disk.cutShort q with
          | some n =>
            simp only [hc] at hres
            generalize hd : mapSet s.disk.nodes q (Node.file ⟨min n (newData.size - 1), none⟩) =
              nodes1 at hres
            subst hres
            have hfl : flushed s.disk q ups = none := by
              simp [flushed, hf, hu, hsup, hro, hc]
            have hq : fileEvents ({ s.disk with nodes := nodes1 } : Disk) q = none := by
              rw [← hd]
              simp [fileEvents, readFile, mapGet_mapSet_same]
            have hother : ∀ p, p ≠ q →
                fileEvents ({ s.disk with nodes := nodes1 } : Disk) p = fileEvents s.disk p := by
              intro p hp
              rw [← hd]
              simp [fileEvents, readFile, mapGet_mapSet_other _ _ _ _ (Ne.symm hp)]
            refine ⟨⟨rfl, rfl, rfl, rfl, rfl, rfl, rfl⟩, rfl, ?_, ?_, ?_, id, ?_⟩
            · intro p
              by_cases hp : p = q
              · rw [if_pos hp, hfl, hp]
                exact hq
              · rw [if_neg hp]
                exact hother p hp
            · intro p hp
              by_cases hpq : p = q
              · intro events1 he1
                rw [hpq] at he1
                rw [show fileEvents _ q = none from hq] at he1
                cases he1
              · exact Indexed_congr (hother p hpq) rfl hp
            · intro p hp hcp
              by_cases hpq : p = q
              · rw [hpq, hc] at hcp
                cases hcp
              · exact IndexFresh_congr (hother p hpq) rfl hp
            · intro _ hcn
              cases hcn
          | none =>
            simp only [hc] at hres
            have hw : writeFile s.disk q newData =
                WriteResult.ok { s.disk with nodes := mapSet s.disk.nodes q (Node.file newData) } := by
              rw [writeFile_file s.disk q data newData hr]
              simp [hro, hc]
            generalize hd : ({ s.disk with nodes := mapSet s.disk.nodes q (Node.file newData) } :
              Disk) = d at hres hw
            subst hres
            have hrod := readOnly_writeFile _ _ _ _ hw
            have hcd := cutShort_writeFile _ _ _ _ hw
            have hne := applyUpdates_snd_ne_nil ups events hu
            have hfd : fileEvents d q = some (events.map (markEvent ups)) := by
              rw [fileEvents_writeFile_same _ _ _ _ hw, hnd, applyUpdates_fst]
            have hfl : flushed s.disk q ups = some (events.map (markEvent ups)) :=
              flushed_of_writable _ _ _ _ hf hsup hro hc
            obtain ⟨a1, a2, a3, a4, a5, a6, a7, _, _⟩ := indexFile_frame
              { s with lockManager := (GetLock s.lockManager q).2, disk := d } q
            have hfresh : IndexFresh (indexFile
                { s with lockManager := (GetLock s.lockManager q).2, disk := d } q).2 q := by
              cases hm : events.map (markEvent ups) with
              | nil =>
                rw [List.map_eq_nil_iff] at hm
                exact absurd hm hne
              | cons first rest =>
                apply a7 first rest
                show fileEvents d q = _
                rw [hfd, hm]
            refine ⟨?_, a3, ?_, ?_, ?_, ?_, fun _ _ _ _ _ _ _ _ _ => hfresh⟩
            · obtain ⟨b1, b2, b3, b4, b5, b6, b7⟩ := a1
              exact ⟨b1, b2, b3, b4, b5, b6.trans hrod, b7.trans hcd⟩
            · intro p
              rw [a2]
              show fileEvents d p = _
              by_cases hp : p = q
              · rw [if_pos hp, hfl, hp]
                exact hfd
              · rw [if_neg hp]
                exact fileEvents_writeFile_other _ _ _ _ _ hw (Ne.symm hp)
            · intro p hp
              by_cases hpq : p = q
              · subst hpq
                exact Indexed_of_fresh hfresh
              · apply indexFile_indexed
                exact Indexed_congr (fileEvents_writeFile_other _ _ _ _ _ hw (Ne.symm hpq)) rfl hp
            · intro p hp _
              by_cases hpq : p = q
              · subst hpq
                exact hfresh
              · refine IndexFresh_congr ?_ (a5 p hpq) ?_
                · rw [a2]
                · exact IndexFresh_congr
                    (fileEvents_writeFile_other _ _ _ _ _ hw (Ne.symm hpq)) rfl hp
            · exact a6

theorem applyLoop_spec (env : Env) (L : List (String × List (String × EventUpdate)))
    (s : EventStorage) (hn : (L.map Prod.fst).Nodup) :
    SameConfig s (applyLoop env L s) ∧
    (∀ kv ∈ (applyLoop env L s).pendingUpdates.updates,
      kv ∈ s.pendingUpdates.updates ∧ ∀ ups, (kv.1, ups) ∈ L → ups.length = 0) ∧
    (∀ p, fileEvents (applyLoop env L s).disk p = flushed s.disk p ((mapGet L p).getD [])) ∧
    (∀ p, Indexed s p → Indexed (applyLoop env L s) p) ∧
    (∀ p, IndexFresh s p → mapGet s.disk.cutShort p = none →
      IndexFresh (applyLoop env L s) p) ∧
    ((s.fileIndexes.map Prod.fst).Nodup →
      (((applyLoop env L s).fileIndexes).map Prod.fst).Nodup) ∧
    (∀ p ups events e u, mapGet L p = some ups → p ∉ s.disk.readOnly →
      mapGet s.disk.cutShort p = none →
      fileEvents s.disk p = some events → events.any unsupported = false →
      e ∈ events → mapGet ups e.ID = some u →
      IndexFresh (applyLoop env L s) p) := by
  induction L generalizing s with
  | nil =>
    refine ⟨SameConfig.refl s, ?_, ?_, fun _ h => h, fun _ h _ => h, id, ?_⟩
    · intro kv hkv
      exact ⟨hkv, fun ups h => by cases h⟩
    · intro p
      simp only [applyLoop, mapGet, Option.getD_none, flushed_nil]
    · intro p ups events e u h
      cases h
  | cons a rest ih =>
    obtain ⟨q, ups0⟩ := a
    simp only [List.map_cons, List.nodup_cons] at hn
    obtain ⟨hq, hn1⟩ := hn
    have hgq : mapGet rest q = none := mapGet_none_of_not_mem rest q hq
    by_cases hl : ups0.length = 0
    · have h0 : ups0 = [] := List.length_eq_zero.1 hl
      simp only [applyLoop, hl, if_true]
      obtain ⟨i1, i2, i3, i4, i5, i6, i7⟩ := ih s hn1
      refine ⟨i1, ?_, ?_, i4, i5, i6, ?_⟩
      · intro kv hkv
        obtain ⟨j1, j2⟩ := i2 kv hkv
        refine ⟨j1, ?_⟩
        intro ups hu
        rcases List.mem_cons.1 hu with h | h
        · cases h
          exact hl
        · exact j2 ups h
      · intro p
        rw [i3 p]
        by_cases hp : q = p
        · subst hp
          simp [mapGet, hgq, h0]
        · simp [mapGet, hp]
      · intro p ups events e u hg
        by_cases hp : q = p
        · subst hp
          simp only [mapGet, if_true, Option.some.injEq] at hg
          subst hg
          subst h0
          intro _ _ _ _ _ hu
          simp [mapGet] at hu
        · simp only [mapGet, hp, if_false] at hg
          exact i7 p ups events e u hg
    · simp only [applyLoop, hl, if_false]
      obtain ⟨a1, a2, a3, a4, a5, a6, a7⟩ := applySingleFileUpdates_spec env s q ups0
      generalize hs1 : (applySingleFileUpdates env s q ups0).2 = s1 at a1 a2 a3 a4 a5 a6 a7
      obtain ⟨i1, i2, i3, i4, i5, i6, i7⟩ := ih
        { s1 with pendingUpdates := ⟨mapDelete s1.pendingUpdates.updates q⟩ } hn1
      generalize hs2 : applyLoop env rest
        { s1 with pendingUpdates := ⟨mapDelete s1.pendingUpdates.updates q⟩ } = s2
        at i1 i2 i3 i4 i5 i6 i7
      have hro : s1.disk.readOnly = s.disk.readOnly := a1.2.2.2.2.2.1
      have hcs : s1.disk.cutShort = s.disk.cutShort := a1.2.2.2.2.2.2
      refine ⟨?_, ?_, ?_, ?_, ?_, ?_, ?_⟩
      · exact SameConfig.trans a1 i1
      · intro kv hkv
        obtain ⟨j1, j2⟩ := i2 kv hkv
        simp only [mapDelete_eq_filter, List.mem_filter, decide_eq_true_eq, a2] at j1
        refine ⟨j1.1, ?_⟩
        intro ups hu
        rcases List.mem_cons.1 hu with h | h
        · cases h
          exact absurd rfl j1.2
        · exact j2 ups h
      · intro p
        rw [i3 p]
        show flushed s1.disk p _ = _
        by_cases hp : q = p
        · subst hp
          rw [hgq]
          simp only [Option.getD_none, flushed_nil, mapGet, if_true, Option.getD_some]
          rw [a3 q, if_pos rfl]
        · have hp1 : ¬ p = q := fun h => hp h.symm
          simp only [mapGet, hp, if_false]
          exact flushed_congr _ _ _ _ (by rw [a3 p, if_neg hp1]) hro hcs
      · intro p hp
        exact i4 p (Indexed_congr rfl rfl (a4 p hp))
      · intro p hp hc
        exact i5 p (IndexFresh_congr rfl rfl (a5 p hp hc))
          (by show mapGet s1.disk.cutShort p = none; rw [hcs]; exact hc)
      · intro h
        exact i6 (a6 h)
      · intro p ups events e u hg hw hc he hsup hm hu
        by_cases hp : q = p
        · subst hp
          simp only [mapGet, if_true, Option.some.injEq] at hg
          subst hg
          exact i5 q (IndexFresh_congr rfl rfl (a7 hw hc events e u he hsup hm hu))
            (by show mapGet s1.disk.cutShort q = none; rw [hcs]; exact hc)
        · simp only [mapGet, hp, if_false] at hg
          have hp1 : ¬ p = q := fun h => hp h.symm
          refine i7 p ups events e u hg ?_ ?_ ?_ hsup hm hu
          · show p ∉ s1.disk.readOnly
            rw [hro]
            exact hw
          · show mapGet s1.disk.cutShort p = none
            rw [hcs]
            exact hc
          · show fileEvents s1.disk p = some events
            rw [a3 p, if_neg hp1]
            exact he

/-! ## The pending updates recorded by the read phase -/

theorem mapSet_ne_nil {β : Type} (m : List (String × β)) (k : String) (v : β) :
    mapSet m k v ≠ [] := by
  cases m with
  | nil => simp [mapSet]
  | cons a m =>
    obtain ⟨a1, a2⟩ := a
    simp only [mapSet]
    split <;> simp

theorem AddUpdate_eq (m : PendingUpdateManager) (p id : String) (u : EventUpdate) :
    AddUpdate m p id u = ⟨mapSet m.updates p (mapSet (updatesFor m p) id u)⟩ := by
  unfold AddUpdate updatesFor
  cases mapGet m.updates p <;> rfl

theorem AddUpdate_get (m : PendingUpdateManager) (p id : String) (u : EventUpdate)
    (q id1 : String) :
    mapGet (updatesFor (AddUpdate m p id u) q) id1 =
      if q = p ∧ id1 = id then some u else mapGet (updatesFor m q) id1 := by
  rw [AddUpdate_eq]
  by_cases hq : q = p
  · subst hq
    simp only [updatesFor, mapGet_mapSet_same, Option.getD_some, true_and]
    by_cases hi : id1 = id
    · subst hi
      simp [mapGet_mapSet_same]
    · simp [hi, mapGet_mapSet_other _ _ _ _ (Ne.symm hi)]
  · have hq1 : p ≠ q := fun h => hq h.symm
    simp [updatesFor, hq, mapGet_mapSet_other _ _ _ _ hq1]

theorem AddUpdate_wf (m : PendingUpdateManager) (p id : String) (u : EventUpdate)
    (h : PendingWF m) : PendingWF (AddUpdate m p id u) := by
  rw [AddUpdate_eq]
  refine ⟨nodup_keys_mapSet _ _ _ h.1, ?_⟩
  intro kv hkv
  rcases mem_mapSet _ _ _ _ hkv with h1 | h1
  · rw [h1]
    exact mapSet_ne_nil _ _ _
  · exact h.2 kv h1

theorem loadLoop_pending (env : Env) (p : String) (f : EventFilter) (events : List EventEntry)
    (s : EventStorage) (k : Nat) :
    (PendingWF s.pendingUpdates →
      PendingWF (loadLoop env p f events s k).2.1.pendingUpdates) ∧
    (∀ q id t, mapGet (updatesFor s.pendingUpdates q) id = some ⟨true, t⟩ →
      ∃ t1, mapGet (updatesFor (loadLoop env p f events s k).2.1.pendingUpdates q) id =
        some ⟨true, t1⟩) ∧
    (∀ e ∈ events, skips f e = false →
      ∃ t, mapGet (updatesFor (loadLoop env p f events s k).2.1.pendingUpdates p) e.ID =
        some ⟨true, t⟩) ∧
    (∀ q id u, mapGet (updatesFor (loadLoop env p f events s k).2.1.pendingUpdates q) id = some u →
      mapGet (updatesFor s.pendingUpdates q) id = some u ∨
        (q = p ∧ u.Processed = true ∧ ∃ e ∈ events, skips f e = false ∧ e.ID = id)) := by
  induction events generalizing s k with
  | nil =>
    refine ⟨id, fun q id t h => ⟨t, h⟩, ?_, fun q id u h => Or.inl h⟩
    intro e he
    cases he
  | cons ev rest ih =>
    by_cases hsk : skips f ev = true
    · simp only [loadLoop, hsk, if_true]
      obtain ⟨i1, i2, i3, i4⟩ := ih s k
      refine ⟨i1, i2, ?_, ?_⟩
      · intro e he hs
        rcases List.mem_cons.1 he with h | h
        · subst h
          rw [hsk] at hs
          cases hs
        · exact i3 e h hs
      · intro q id u h
        rcases i4 q id u h with h1 | ⟨h1, h2, e, he, h3, h4⟩
        · exact Or.inl h1
        · exact Or.inr ⟨h1, h2, e, List.mem_cons_of_mem _ he, h3, h4⟩
    · have hsk1 : skips f ev = false := by simpa using hsk
      simp only [loadLoop, hsk1, Bool.false_eq_true, if_false]
      obtain ⟨i1, i2, i3, i4⟩ := ih (MarkPendingProcessed env k s ev.ID p) (k + 1)
      have hget := AddUpdate_get s.pendingUpdates p ev.ID ⟨true, env.now k⟩
      have hmp : (MarkPendingProcessed env k s ev.ID p).pendingUpdates =
          AddUpdate s.pendingUpdates p ev.ID ⟨true, env.now k⟩ := rfl
      rw [hmp] at i1 i2 i4
      refine ⟨fun h => i1 (AddUpdate_wf _ _ _ _ h), ?_, ?_, ?_⟩
      · intro q id t h
        by_cases hc : q = p ∧ id = ev.ID
        · exact i2 q id (env.now k) (by rw [hget, if_pos hc])
        · exact i2 q id t (by rw [hget, if_neg hc]; exact h)
      · intro e he hs
        rcases List.mem_cons.1 he with h | h
        · subst h
          exact i2 p e.ID (env.now k) (by rw [hget, if_pos ⟨rfl, rfl⟩])
        · exact i3 e h hs
      · intro q id u h
        rcases i4 q id u h with h1 | ⟨h1, h2, e, he, h3, h4⟩
        · rw [hget] at h1
          by_cases hc : q = p ∧ id = ev.ID
          · rw [if_pos hc] at h1
            cases h1
            exact Or.inr ⟨hc.1, rfl, ev, List.mem_cons_self _ _, hsk1, hc.2.symm⟩
          · rw [if_neg hc] at h1
            exact Or.inl h1
        · exact Or.inr ⟨h1, h2, e, List.mem_cons_of_mem _ he, h3, h4⟩

theorem loadCandidates_pending (env : Env) (f : EventFilter) (cands : List String)
    (all : List EventEntry) (s : EventStorage) (k : Nat) :
    (PendingWF s.pendingUpdates →
      PendingWF (loadCandidates env f cands all s k).2.1.pendingUpdates) ∧
    (∀ q id t, mapGet (updatesFor s.pendingUpdates q) id = some ⟨true, t⟩ →
      ∃ t1, mapGet (updatesFor (loadCandidates env f cands all s k).2.1.pendingUpdates q) id =
        some ⟨true, t1⟩) ∧
    (∀ p ∈ cands, ∀ e ∈ passing s.disk f p,
      ∃ t, mapGet (updatesFor (loadCandidates env f cands all s k).2.1.pendingUpdates p) e.ID =
        some ⟨true, t⟩) ∧
    (∀ q id u,
      mapGet (updatesFor (loadCandidates env f cands all s k).2.1.pendingUpdates q) id = some u →
      mapGet (updatesFor s.pendingUpdates q) id = some u ∨
        (q ∈ cands ∧ u.Processed = true ∧ ∃ e ∈ passing s.disk f q, e.ID = id)) := by
  induction cands generalizing all s k with
  | nil =>
    refine ⟨id, fun q id t h => ⟨t, h⟩, ?_, fun q id u h => Or.inl h⟩
    intro p hp
    cases hp
  | cons c rest ih =>
    rw [loadCandidates, loadFile_eq]
    obtain ⟨o, ho⟩ : ∃ o, fileEvents s.disk c = o := ⟨_, rfl⟩
    cases o with
    | none =>
      rw [ho]
      simp only [Option.map_none']
      obtain ⟨i1, i2, i3, i4⟩ := ih all s k
      refine ⟨i1, i2, ?_, ?_⟩
      · intro p hp e he
        rcases List.mem_cons.1 hp with h | h
        · subst h
          simp [passing, ho] at he
        · exact i3 p h e he
      · intro q id u h
        rcases i4 q id u h with h1 | ⟨h1, h2, h3⟩
        · exact Or.inl h1
        · exact Or.inr ⟨List.mem_cons_of_mem _ h1, h2, h3⟩
    | some events =>
      rw [ho]
      simp only [Option.map_some']
      obtain ⟨l1, l2, l3, l4⟩ := loadLoop_pending env c f events s k
      have hfr := loadLoop_frame env c f events s k
      generalize (loadLoop env c f events s k) = r at l1 l2 l3 l4 hfr ⊢
      have hd : r.2.1.disk = s.disk := by rw [hfr]
      obtain ⟨i1, i2, i3, i4⟩ := ih (all ++ r.1) r.2.1 r.2.2
      rw [hd] at i3 i4
      refine ⟨fun h => i1 (l1 h), ?_, ?_, ?_⟩
      · intro q id t h
        obtain ⟨t1, h1⟩ := l2 q id t h
        exact i2 q id t1 h1
      · intro p hp e he
        rcases List.mem_cons.1 hp with h | h
        · subst h
          simp only [passing, ho, List.mem_filter, Bool.not_eq_true'] at he
          obtain ⟨t, ht⟩ := l3 e he.1 he.2
          exact i2 p e.ID t ht
        · exact i3 p h e he
      · intro q id u h
        rcases i4 q id u h with h1 | ⟨h1, h2, h3⟩
        · rcases l4 q id u h1 with h5 | ⟨h5, h6, e, he, h7, h8⟩
          · exact Or.inl h5
          · refine Or.inr ⟨by rw [h5]; exact List.mem_cons_self _ _, h6, e, ?_, h8⟩
            rw [h5]
            simp only [passing, ho, List.mem_filter, Bool.not_eq_true']
            exact ⟨he, h7⟩
        · exact Or.inr ⟨List.mem_cons_of_mem _ h1, h2, h3⟩

/-! ## `LoadEvents` as a whole -/

theorem mem_passing (d : Disk) (f : EventFilter) (p : String) (e : EventEntry) :
    e ∈ passing d f p ↔ ∃ events, fileEvents d p = some events ∧ e ∈ events ∧ skips f e = false := by
  unfold passing
  cases h : fileEvents d p with
  | none => simp
  | some events => simp

/-- What a `LoadEvents` call started with no pending updates returns and leaves
behind; `U p` are the updates it recorded for file `p`. -/
theorem LoadEvents_spec (env : Env) (k : Nat) (s : EventStorage) (f0 : EventFilter)
    (hp : s.pendingUpdates.updates = []) :
    ∃ (s1 : EventStorage) (U : String → List (String × EventUpdate)),
      LoadEvents env k s f0 =
        Outcome.ok
          (sortSlice (fun a b => decide (a.Timestamp > b.Timestamp))
            ((getCandidateFiles s (effectiveFilter env k f0)).flatMap
              (passing s.disk (effectiveFilter env k f0)))) s1 ∧
      SameConfig s s1 ∧ s1.pendingUpdates.updates = [] ∧
      (∀ p, fileEvents s1.disk p = flushed s.disk p (U p)) ∧
      (∀ p ∈ getCandidateFiles s (effectiveFilter env k f0),
        ∀ e ∈ passing s.disk (effectiveFilter env k f0) p,
          ∃ t, mapGet (U p) e.ID = some ⟨true, t⟩) ∧
      (∀ q id u, mapGet (U q) id = some u →
        q ∈ getCandidateFiles s (effectiveFilter env k f0) ∧ u.Processed = true ∧
          ∃ e ∈ passing s.disk (effectiveFilter env k f0) q, e.ID = id) ∧
      (∀ p, Indexed s p → Indexed s1 p) ∧
      (∀ p, IndexFresh s p → mapGet s.disk.cutShort p = none → IndexFresh s1 p) ∧
      ((s.fileIndexes.map Prod.fst).Nodup → (s1.fileIndexes.map Prod.fst).Nodup) ∧
      (∀ p ∈ getCandidateFiles s (effectiveFilter env k f0), p ∉ s.disk.readOnly →
        mapGet s.disk.cutShort p = none →
        (∀ events, fileEvents s.disk p = some events → events.any unsupported = false) →
        ∀ e ∈ passing s.disk (effectiveFilter env k f0) p, IndexFresh s1 p) := by
  rw [LoadEvents_eq]
  generalize hf : effectiveFilter env k f0 = f
  generalize hk : (if f0.EndTime = 0 then k + 1 else k) = k1
  obtain ⟨c1, c2, c3, c4⟩ := loadCandidates_pending env f (getCandidateFiles s f) [] s k1
  have hfr := loadCandidates_frame env f (getCandidateFiles s f) [] s k1
  generalize (loadCandidates env f (getCandidateFiles s f) [] s k1).2.1 = sP at c1 c2 c3 c4 hfr
  have hwf0 : PendingWF s.pendingUpdates := by
    refine ⟨by rw [hp]; exact List.nodup_nil, ?_⟩
    intro kv hkv
    rw [hp] at hkv
    cases hkv
  have hwf := c1 hwf0
  have hnone : ∀ q id, mapGet (updatesFor s.pendingUpdates q) id = none := by
    intro q id
    simp [updatesFor, hp, mapGet]
  obtain ⟨a1, a2, a3, a4, a5, a6, a7⟩ := applyLoop_spec env sP.pendingUpdates.updates sP hwf.1
  have hd : sP.disk = s.disk := by rw [hfr]
  have hix : sP.fileIndexes = s.fileIndexes := by rw [hfr]
  refine ⟨applyLoop env sP.pendingUpdates.updates sP, updatesFor sP.pendingUpdates, rfl,
    ?_, ?_, ?_, c3, ?_, ?_, ?_, ?_, ?_⟩
  · refine SameConfig.trans ?_ a1
    rw [hfr]
    exact ⟨rfl, rfl, rfl, rfl, rfl, rfl, rfl⟩
  · rw [List.eq_nil_iff_forall_not_mem]
    intro kv hkv
    obtain ⟨b1, b2⟩ := a2 kv hkv
    exact hwf.2 kv b1 (List.length_eq_zero.1 (b2 kv.2 b1))
  · intro p
    rw [a3 p, hd]
    rfl
  · intro q id u h
    rcases c4 q id u h with h1 | h1
    · rw [hnone] at h1
      cases h1
    · exact h1
  · intro p h
    exact a4 p (Indexed_congr (by rw [hd]) (by rw [hix]) h)
  · intro p h hc
    exact a5 p (IndexFresh_congr (by rw [hd]) (by rw [hix]) h) (by rw [hd]; exact hc)
  · intro h
    exact a6 (by rw [hix]; exact h)
  · intro p hpc hw hc hsup e he
    obtain ⟨t, ht⟩ := c3 p hpc e he
    obtain ⟨events, h1, h2, _⟩ := (mem_passing _ _ _ _).1 he
    cases hg : mapGet sP.pendingUpdates.updates p with
    | none => simp [updatesFor, hg, mapGet] at ht
    | some ups =>
      simp only [updatesFor, hg, Option.getD_some] at ht
      exact a7 p ups events e _ hg (by rw [hd]; exact hw) (by rw [hd]; exact hc)
        (by rw [hd]; exact h1) (hsup events h1) h2 ht

/-! ## Opening a store -/

theorem stripPrefix?_eq (p s r : List Char) (h : stripPrefix? p s = some r) : s = p ++ r := by
  induction p generalizing s with
  | nil =>
    simp only [stripPrefix?, Option.some.injEq] at h
    simp [h]
  | cons c p ih =>
    cases s with
    | nil => simp [stripPrefix?] at h
    | cons d s =>
      simp only [stripPrefix?] at h
      by_cases hc : c = d
      · simp only [hc, if_true] at h
        rw [hc, ih s h]
        rfl
      · simp [hc] at h

theorem childName?_join (baseDir path name : String) (h : childName? baseDir path = some name) :
    joinPath baseDir name = path := by
  unfold childName? at h
  split at h
  · rename_i r hs
    split at h
    · simp only [Option.some.injEq] at h
      have h1 := stripPrefix?_eq _ _ _ hs
      apply String.ext
      rw [joinPath, String.data_append, ← h, h1]
    · cases h
  · cases h

theorem mem_readDir (d : Disk) (baseDir path name : String) (files : List DirEntry)
    (data : FileData) (hr : readDir d baseDir = some files)
    (hg : mapGet d.nodes path = some (Node.file data))
    (hc : childName? baseDir path = some name) : ⟨name, false⟩ ∈ files := by
  unfold readDir at hr
  split at hr
  · simp only [Option.some.injEq] at hr
    rw [← hr, List.mem_filterMap]
    refine ⟨(path, Node.file data), mem_of_mapGet _ _ _ hg, ?_⟩
    simp [hc]
  · cases hr

theorem indexDir_spec (files : List DirEntry) (s : EventStorage) :
    SameConfig s (indexDir files s) ∧ (indexDir files s).disk = s.disk ∧
    (indexDir files s).pendingUpdates = s.pendingUpdates ∧
    ((s.fileIndexes.map Prod.fst).Nodup → ((indexDir files s).fileIndexes.map Prod.fst).Nodup) ∧
    (∀ p, Indexed s p → Indexed (indexDir files s) p) ∧
    (∀ file ∈ files, file.isDir = false → Ext file.name = ".json" →
      Contains file.name s.filePrefix = true →
      Indexed (indexDir files s) (joinPath s.baseDir file.name)) := by
  induction files generalizing s with
  | nil =>
    refine ⟨SameConfig.refl s, rfl, rfl, id, fun _ h => h, ?_⟩
    intro file hf
    cases hf
  | cons file rest ih =>
    by_cases hsel : (file.isDir || decide (Ext file.name ≠ ".json") ||
        !Contains file.name s.filePrefix) = true
    · simp only [indexDir, hsel, if_true]
      obtain ⟨i1, i2, i3, i4, i5, i6⟩ := ih s
      refine ⟨i1, i2, i3, i4, i5, ?_⟩
      intro g hg h1 h2 h3
      rcases List.mem_cons.1 hg with h | h
      · subst h
        simp [h1, h2, h3] at hsel
      · exact i6 g h h1 h2 h3
    · simp only [indexDir, hsel]
      obtain ⟨a1, a2, a3, _, _, a6, _, _, _⟩ := indexFile_frame s (joinPath s.baseDir file.name)
      have a8 := indexFile_indexed s (joinPath s.baseDir file.name)
      have a9 := indexFile_indexed_self s (joinPath s.baseDir file.name)
      generalize (indexFile s (joinPath s.baseDir file.name)).2 = s1 at a1 a2 a3 a6 a8 a9
      obtain ⟨i1, i2, i3, i4, i5, i6⟩ := ih s1
      refine ⟨SameConfig.trans a1 i1, i2.trans a2, i3.trans a3, fun h => i4 (a6 h),
        fun p h => i5 p (a8 p h), ?_⟩
      intro g hg h1 h2 h3
      rcases List.mem_cons.1 hg with h | h
      · subst h
        exact i5 _ a9
      · have := i6 g h h1 h2 (by rw [a1.2.1]; exact h3)
        rw [a1.1] at this
        exact this

theorem Covers_append (idx : FileIndex) (l1 l2 : List EventEntry) (h1 : Covers idx l1)
    (h2 : Covers idx l2) : Covers idx (l1 ++ l2) := by
  intro e he
  rcases List.mem_append.1 he with h | h
  · exact h1 e h
  · exact h2 e h

theorem initFile_ok_inv (d d1 : Disk) (path : String)
    (h : initFile d path = WriteResult.ok d1) :
    mapGet d.nodes path = none ∧ path ∉ d.readOnly ∧ mapGet d.cutShort path = none ∧
    d1 = { d with nodes := mapSet d.nodes path (Node.file ⟨13, some []⟩) } := by
  unfold initFile at h
  split at h
  · cases h
  · rename_i hro
    split at h
    · cases h
    · rename_i hg
      split at h
      · cases h
      · rename_i hc
        cases h
        exact ⟨hg, hro, hc, rfl⟩

theorem initFile_spec (d d1 : Disk) (path : String)
    (h : initFile d path = WriteResult.ok d1) :
    mapGet d.nodes path = none ∧ path ∉ d.readOnly ∧ d1.readOnly = d.readOnly ∧
    fileEvents d1 path = some [] ∧ readFile d1 path = some ⟨13, some []⟩ ∧
    ∀ q, q ≠ path → mapGet d1.nodes q = mapGet d.nodes q := by
  obtain ⟨hg, hro, _, hd⟩ := initFile_ok_inv d d1 path h
  subst hd
  refine ⟨hg, hro, rfl, ?_, ?_, ?_⟩
  · simp [fileEvents, readFile, mapGet_mapSet_same]
  · simp [readFile, mapGet_mapSet_same]
  · intro q hq
    exact mapGet_mapSet_other _ _ _ _ (Ne.symm hq)

theorem initFile_cutShort (d d1 : Disk) (path : String)
    (h : initFile d path = WriteResult.ok d1) :
    mapGet d.cutShort path = none ∧ d1.cutShort = d.cutShort := by
  obtain ⟨_, _, hc, hd⟩ := initFile_ok_inv d d1 path h
  subst hd
  exact ⟨hc, rfl⟩

theorem fileEvents_congr (d d1 : Disk) (q : String) (h : mapGet d1.nodes q = mapGet d.nodes q) :
    fileEvents d1 q = fileEvents d q := by
  simp [fileEvents, readFile, h]

/-- The successful run of `rotateIfNeeded`. -/
theorem rotateIfNeeded_ok_inv (env : Env) (k : Nat) (s s1 : EventStorage)
    (h : rotateIfNeeded env k s = Outcome.ok () s1) :
    s.currentMutex = false ∧
    ∃ d, initFile s.disk s1.currentFile = WriteResult.ok d ∧
      s1 = { s with currentFile := s1.currentFile, disk := d } := by
  unfold rotateIfNeeded at h
  by_cases hm : s.currentMutex = true
  · simp [hm] at h
  · have hm1 : s.currentMutex = false := by simpa using hm
    simp only [hm1, Bool.false_eq_true, if_false] at h
    split at h
    · cases h
    · rename_i d hd
      simp only [Outcome.ok.injEq, true_and] at h
      refine ⟨hm1, d, ?_, ?_⟩
      · rw [← h]
        exact hd
      · rw [← h]
        cases s
        simp only at hm1
        subst hm1
        rfl

theorem initializeStorage_inv (env : Env) (k : Nat) (st s : EventStorage)
    (hst1 : st.pendingUpdates.updates = [] ∧ st.fileIndexes = [])
    (h : initializeStorage env k st = Outcome.ok () s) : Inv s := by
  unfold initializeStorage at h
  split at h
  · cases h
  · rename_i files hfiles
    obtain ⟨i1, i2, i3, i4, i5, i6⟩ := indexDir_spec files st
    generalize indexDir files st = r at h i1 i2 i3 i4 i5 i6
    obtain ⟨hm, d1, hinit, hs⟩ := rotateIfNeeded_ok_inv env k r s h
    obtain ⟨b1, b2, b3, b4, b5, b6⟩ := initFile_spec _ _ _ hinit
    obtain ⟨b7, b8⟩ := initFile_cutShort _ _ _ hinit
    have hsd : s.disk = d1 := by rw [hs]
    have hsi : s.fileIndexes = r.fileIndexes := by rw [hs]
    have hsb : s.baseDir = st.baseDir := by rw [hs]; exact i1.1
    have hsp : s.filePrefix = st.filePrefix := by rw [hs]; exact i1.2.1
    refine ⟨?_, ?_, ⟨[], ?_⟩, ?_, ?_, ?_, ?_⟩
    · rw [hs]
      exact hm
    · rw [hs]
      show r.pendingUpdates.updates = []
      rw [i3]
      exact hst1.1
    · rw [hsd]
      exact b4
    · intro p hp
      by_cases hpc : p = s.currentFile
      · intro events he hne
        rw [hpc, hsd, b4] at he
        cases he
        exact absurd rfl hne
      · rcases hp with hp | ⟨name, hn1, hn2, hn3⟩
        · exact absurd hp hpc
        · intro events he hne
          rw [hsd, fileEvents_congr _ _ _ (b6 p hpc)] at he
          rw [hsi]
          rw [hsb] at hn1
          rw [hsp] at hn3
          obtain ⟨data, hr, _⟩ := fileEvents_eq_some _ _ _ he
          have hg : mapGet r.disk.nodes p = some (Node.file data) := by
            unfold readFile at hr
            split at hr
            · rename_i x hx
              cases hr
              exact hx
            · cases hr
          rw [i2] at hg
          have hjoin := childName?_join _ _ _ hn1
          have hmem := mem_readDir st.disk st.baseDir p name files data hfiles hg hn1
          have := i6 ⟨name, false⟩ hmem rfl hn2 hn3
          rw [hjoin] at this
          exact this events he hne
    · rw [hsi]
      apply i4
      rw [hst1.2]
      exact List.nodup_nil
    · rw [hsd, b3]
      exact b2
    · rw [hsd, b8]
      exact b7

theorem NewEventStorage_inv (env : Env) (disk : Disk) (baseDir : String) (maxFileSize : Int)
    (s : EventStorage) (h : NewEventStorage env disk baseDir maxFileSize = Outcome.ok () s) :
    Inv s := by
  unfold NewEventStorage at h
  simp only at h
  split at h
  · cases h
  · exact initializeStorage_inv _ _ _ _ ⟨rfl, rfl⟩ h

/-! ## The invariant -/

theorem StoreEvent_inv (env : Env) (fuel k : Nat) (s : EventStorage) (e0 : EventEntry)
    (path : String) (s1 : EventStorage) (hinv : Inv s)
    (h : StoreEvent env fuel k s e0 = Outcome.ok path s1) : Inv s1 := by
  obtain ⟨hm, _, data, events, d, hr, he, _, hw, hs1⟩ := StoreEvent_ok_inv _ _ _ _ _ _ _ h
  obtain ⟨idx1, hu, hc1, hc2⟩ := updateFileIndex_eq { s with disk := d } s.currentFile
    (ensureFields env k e0)
  rw [hu] at hs1
  have hfe : fileEvents s.disk s.currentFile = some events := by simp [fileEvents, hr, he]
  have hcfg : SameConfig s s1 := by
    rw [hs1]
    exact ⟨rfl, rfl, rfl, rfl, rfl, readOnly_writeFile _ _ _ _ hw, cutShort_writeFile _ _ _ _ hw⟩
  have hd : s1.disk = d := by rw [hs1]
  have hi : s1.fileIndexes = mapSet s.fileIndexes s.currentFile idx1 := by rw [hs1]
  refine ⟨?_, ?_, ⟨events ++ [ensureFields env k e0], ?_⟩, ?_, ?_, ?_, ?_⟩
  · rw [hcfg.2.2.2.2.1]
    exact hm
  · rw [hs1]
    exact hinv.noPending
  · rw [hcfg.2.2.2.1, hd, fileEvents_writeFile_same _ _ _ _ hw]
  · intro p hp
    rw [isEventFile_congr hcfg] at hp
    by_cases hpc : p = s.currentFile
    · subst hpc
      intro evs hevs _
      rw [hd, fileEvents_writeFile_same _ _ _ _ hw] at hevs
      simp only [Option.some.injEq] at hevs
      refine ⟨idx1, by rw [hi]; exact mapGet_mapSet_same _ _ _, ?_⟩
      rw [← hevs]
      apply Covers_append _ _ _ _ hc1
      by_cases hne : events = []
      · rw [hne]
        intro e he1
        cases he1
      · obtain ⟨idx, hg, hcov⟩ := hinv.indexed _ hp events hfe hne
        exact hc2 idx events hg hcov
    · have hpc1 : s.currentFile ≠ p := fun h => hpc h.symm
      apply Indexed_congr ?_ ?_ (hinv.indexed p hp)
      · rw [hd]
        exact fileEvents_writeFile_other _ _ _ _ _ hw hpc1
      · rw [hi]
        exact mapGet_mapSet_other _ _ _ _ hpc1
  · rw [hi]
    exact nodup_keys_mapSet _ _ _ hinv.nodupIndex
  · rw [hcfg.2.2.2.1, hcfg.2.2.2.2.2.1]
    exact hinv.currentWritable
  · rw [hcfg.2.2.2.1, hcfg.2.2.2.2.2.2]
    exact hinv.currentNotCut

theorem LoadEvents_inv (env : Env) (k : Nat) (s : EventStorage) (f0 : EventFilter)
    (events : List EventEntry) (s1 : EventStorage) (hinv : Inv s)
    (h : LoadEvents env k s f0 = Outcome.ok events s1) : Inv s1 := by
  obtain ⟨s2, U, hl, a1, a2, a3, _, _, a6, _, a8, _⟩ := LoadEvents_spec env k s f0 hinv.noPending
  rw [hl] at h
  simp only [Outcome.ok.injEq] at h
  obtain ⟨_, h2⟩ := h
  subst h2
  refine ⟨?_, a2, ?_, ?_, a8 hinv.nodupIndex, ?_, ?_⟩
  · rw [a1.2.2.2.2.1]
    exact hinv.mutexFree
  · obtain ⟨evs, hevs⟩ := hinv.currentReadable
    rw [a1.2.2.2.1, a3]
    rcases flushed_cases s.disk s.currentFile (U s.currentFile) with h1 | h1 | h1
    · exact ⟨evs, by rw [h1, hevs]⟩
    · exact ⟨_, by rw [h1, hevs]; rfl⟩
    · exact absurd hinv.currentNotCut h1.1
  · intro p hp
    rw [isEventFile_congr a1] at hp
    exact a6 p (hinv.indexed p hp)
  · rw [a1.2.2.2.1, a1.2.2.2.2.2.1]
    exact hinv.currentWritable
  · rw [a1.2.2.2.1, a1.2.2.2.2.2.2]
    exact hinv.currentNotCut

theorem Reachable.inv {s : EventStorage} (h : Reachable s) : Inv s := by
  induction h with
  | opened env disk baseDir maxFileSize s h => exact NewEventStorage_inv _ _ _ _ _ h
  | stored env fuel k s event path s1 _ h ih => exact StoreEvent_inv _ _ _ _ _ _ _ ih h
  | storeFailed env fuel k s event s1 _ h ih =>
    rcases (StoreEvent_fail_inv _ _ _ _ _ _ h).2 with h1 | ⟨data, events, d, hr, _, hw, _⟩
    · rw [h1]
      exact ih
    · obtain ⟨d1, hd1⟩ := writeFile_of_readable s.disk s.currentFile data
        ⟨env.marshalLen (events ++ [ensureFields env k event]),
          some (events ++ [ensureFields env k event])⟩ hr ih.currentWritable ih.currentNotCut
      rw [hd1] at hw
      cases hw
  | loaded env k s filter events s1 _ h ih => exact LoadEvents_inv _ _ _ _ _ _ ih h
  | loadFailed env k s filter s1 _ h ih =>
    rw [LoadEvents_eq] at h
    cases h

/-! ## Candidate selection and the filter -/

theorem skips_eq_false_iff (f : EventFilter) (e : EventEntry) :
    skips f e = false ↔ Matches f e := by
  unfold skips Matches
  simp only [Bool.or_eq_false_iff, Bool.and_eq_false_iff, decide_eq_false_iff_not, not_lt,
    ne_eq, Decidable.not_not, ge_iff_le, Bool.decide_eq_false, Bool.not_eq_true',
    decide_eq_true_eq, Bool.not_eq_false']
  constructor
  · rintro ⟨⟨⟨⟨⟨⟨h1, h2⟩, h3⟩, h4⟩, h5⟩, h6⟩, h7⟩
    refine ⟨⟨h1, h2⟩, h3, ?_, ?_, ?_, h7⟩
    · rcases h4 with h | h
      · exact Or.inl h
      · exact Or.inr h
    · rcases h5 with h | h
      · exact Or.inl h
      · exact Or.inr h
    · rcases h6 with h | h
      · exact Or.inl h
      · exact Or.inr h
  · rintro ⟨⟨h1, h2⟩, h3, h4, h5, h6, h7⟩
    exact ⟨⟨⟨⟨⟨⟨h1, h2⟩, h3⟩, h4⟩, h5⟩, h6⟩, h7⟩

theorem mem_getCandidateFiles (s : EventStorage) (f : EventFilter) (p : String) :
    p ∈ getCandidateFiles s f ↔ ∃ idx, (p, idx) ∈ s.fileIndexes ∧ admits f idx := by
  unfold getCandidateFiles admits
  rw [List.mem_filterMap]
  constructor
  · rintro ⟨⟨q, idx⟩, hmem, h⟩
    simp only at h
    split at h
    · cases h
    · rename_i h1
      split at h
      · cases h
      · rename_i h2
        split at h
        · cases h
        · rename_i h3
          split at h
          · cases h
          · rename_i h4
            simp only [Option.some.injEq] at h
            subst h
            simp only [Bool.or_eq_true, decide_eq_true_eq, not_or, not_lt] at h1
            simp only [not_lt] at h2
            simp only [Bool.and_eq_true, Bool.not_eq_true', decide_eq_false_iff_not,
              not_and, Decidable.not_not, ne_eq, decide_not] at h3
            simp only [Bool.and_eq_true, not_and] at h4
            refine ⟨idx, hmem, h1.1, h1.2, h2, ?_, ?_⟩
            · by_cases ht : f.Type_ = ""
              · exact Or.inl ht
              · exact Or.inr (h3 (by simpa using ht))
            · rintro ⟨h5, h6⟩
              exact absurd h6 (by simpa using h4 h5)
  · rintro ⟨idx, hmem, h1, h2, h3, h4, h5⟩
    refine ⟨(p, idx), hmem, ?_⟩
    simp only
    have c1 : ¬ ((decide (idx.MaxTime < f.StartTime) || decide (idx.MinTime > f.EndTime)) = true) := by
      simp only [Bool.or_eq_true, decide_eq_true_eq, not_or, not_lt]
      exact ⟨h1, h2⟩
    have c2 : ¬ (idx.MaxSeverity < f.MinSeverity) := not_lt.2 h3
    have c3 : ¬ ((decide (f.Type_ ≠ "") && !decide (f.Type_ ∈ idx.EventTypes)) = true) := by
      simp only [Bool.and_eq_true, decide_eq_true_eq, Bool.not_eq_true', decide_eq_false_iff_not,
        not_and, Decidable.not_not]
      intro hne
      rcases h4 with h | h
      · exact absurd h hne
      · exact h
    have c4 : ¬ ((f.Unprocessed && idx.AllProcessed) = true) := by
      simp only [Bool.and_eq_true]
      exact h5
    rw [if_neg c1, if_neg c2, if_neg c3, if_neg c4]

theorem admits_of_covers (f : EventFilter) (idx : FileIndex) (events : List EventEntry)
    (e : EventEntry) (hc : Covers idx events) (he : e ∈ events) (hm : Matches f e) :
    admits f idx := by
  obtain ⟨c1, c2, c3, c4, c5⟩ := hc e he
  obtain ⟨⟨m1, m2⟩, m3, m4, _, _, m7⟩ := hm
  refine ⟨le_trans m1 c2, le_trans c1 m2, le_trans m3 c3, ?_, ?_⟩
  · rcases m4 with h | h
    · exact Or.inl h
    · exact Or.inr (h ▸ c4)
  · rintro ⟨h1, h2⟩
    rcases m7 with h | h
    · rw [h1] at h
      cases h
    · rw [c5 h2] at h
      cases h

/-! ## Filter correctness and the index invariant -/

theorem effectiveFilter_eq (env : Env) (k : Nat) (f : EventFilter) :
    effectiveFilter env k f =
      { f with EndTime := if f.EndTime = 0 then env.now k else f.EndTime } := by
  unfold effectiveFilter
  split
  · rename_i h
    simp [h]
  · rename_i h
    simp [h]

theorem mem_sortSlice {α : Type} (less : α → α → Bool) (l : List α) (x : α) :
    x ∈ sortSlice less l ↔ x ∈ l :=
  (sortSlice_perm less l).mem_iff

/-- C1. Filter correctness: in every state reached from a fresh open by `StoreEvent`
and `LoadEvents` calls, and for every filter `f` (a zero `EndTime` standing for the
current time), `LoadEvents` returns, and an entry stored in an event file of the store
is in the result if and only if it satisfies the filter predicates: time window,
severity floor, type, source, job id, processed state.  In particular the index-based
selection of candidate files loses no matching entry. -/
theorem LoadEvents_filter_correct (s : EventStorage) (hr : Reachable s) (env : Env) (k : Nat)
    (f : EventFilter) :
    ∃ events s1, LoadEvents env k s f = Outcome.ok events s1 ∧
      ∀ path stored e, isEventFile s path → fileEvents s.disk path = some stored → e ∈ stored →
        (e ∈ events ↔
          Matches { f with EndTime := if f.EndTime = 0 then env.now k else f.EndTime } e) := by
  refine ⟨_, _, LoadEvents_eq env k s f, ?_⟩
  intro path stored e hev hst he
  rw [← effectiveFilter_eq, mem_sortSlice, List.mem_flatMap]
  constructor
  · rintro ⟨p, _, hp⟩
    obtain ⟨_, _, _, h⟩ := (mem_passing _ _ _ _).1 hp
    exact (skips_eq_false_iff _ _).1 h
  · intro hm
    have hne : stored ≠ [] := List.ne_nil_of_mem he
    obtain ⟨idx, hg, hc⟩ := hr.inv.indexed path hev stored hst hne
    refine ⟨path, ?_, ?_⟩
    · rw [mem_getCandidateFiles]
      exact ⟨idx, mem_of_mapGet _ _ _ hg, admits_of_covers _ _ _ _ hc he hm⟩
    · rw [mem_passing]
      exact ⟨stored, hst, he, (skips_eq_false_iff _ _).2 hm⟩

/-- Witness of C1 -/
theorem LoadEvents_filter_correct_witness :
    Reachable (demoStored 100) ∧
    ∃ events s1,
      LoadEvents demoEnv 0 (demoStored 100) ⟨0, 0, 0, "", "", "", false⟩ = Outcome.ok events s1 ∧
      ∀ path stored e, isEventFile (demoStored 100) path →
        fileEvents (demoStored 100).disk path = some stored → e ∈ stored →
        (e ∈ events ↔ Matches ⟨0, if (0 : Int) = 0 then demoEnv.now 0 else 0, 0, "", "", "", false⟩ e) :=
  ⟨Reachable.stored demoEnv 1 0 (demoOpened 100) (demoEvent "a" 5 0) demoPath (demoStored 100)
      (Reachable.opened demoEnv ⟨[], [], []⟩ "/data" 100 (demoOpened 100) rfl) rfl,
    LoadEvents_filter_correct (demoStored 100)
      (Reachable.stored demoEnv 1 0 (demoOpened 100) (demoEvent "a" 5 0) demoPath (demoStored 100)
        (Reachable.opened demoEnv ⟨[], [], []⟩ "/data" 100 (demoOpened 100) rfl) rfl)
      demoEnv 0 ⟨0, 0, 0, "", "", "", false⟩⟩

/-- C6. Index conservativeness: in every state reachable from an open by `StoreEvent` and
`LoadEvents` calls, every event file that holds at least one event has a `FileIndex`
entry that is no tighter than the file: `MinTime ≤ Timestamp ≤ MaxTime`,
`MaxSeverity ≥ Severity` and `Type ∈ EventTypes` for every event of the file, and
`AllProcessed` only if every event is processed. -/
theorem index_conservative (s : EventStorage) (hr : Reachable s) (path : String)
    (events : List EventEntry) (hf : isEventFile s path)
    (he : fileEvents s.disk path = some events) (hne : events ≠ []) :
    ∃ idx, mapGet s.fileIndexes path = some idx ∧
      ∀ e ∈ events,
        idx.MinTime ≤ e.Timestamp ∧ e.Timestamp ≤ idx.MaxTime ∧
        idx.MaxSeverity ≥ e.Severity ∧ e.Type_ ∈ idx.EventTypes ∧
        (idx.AllProcessed = true → e.Processed = true) :=
  hr.inv.indexed path hf events he hne

/-- Witness of C6 -/
theorem index_conservative_witness :
    Reachable (demoStored 100) ∧ isEventFile (demoStored 100) demoPath ∧
    fileEvents (demoStored 100).disk demoPath = some [demoEvent "a" 5 0] ∧
    ∃ idx, mapGet (demoStored 100).fileIndexes demoPath = some idx ∧
      ∀ e ∈ [demoEvent "a" 5 0],
        idx.MinTime ≤ e.Timestamp ∧ e.Timestamp ≤ idx.MaxTime ∧
        idx.MaxSeverity ≥ e.Severity ∧ e.Type_ ∈ idx.EventTypes ∧
        (idx.AllProcessed = true → e.Processed = true) :=
  ⟨Reachable.stored demoEnv 1 0 (demoOpened 100) (demoEvent "a" 5 0) demoPath (demoStored 100)
      (Reachable.opened demoEnv ⟨[], [], []⟩ "/data" 100 (demoOpened 100) rfl) rfl,
    Or.inl rfl, rfl,
    index_conservative (demoStored 100)
      (Reachable.stored demoEnv 1 0 (demoOpened 100) (demoEvent "a" 5 0) demoPath (demoStored 100)
        (Reachable.opened demoEnv ⟨[], [], []⟩ "/data" 100 (demoOpened 100) rfl) rfl)
      demoPath [demoEvent "a" 5 0] (Or.inl rfl) rfl (by simp)⟩

/-- C3. Ordering: for every store state and every filter, `LoadEvents` returns a list
sorted by `Timestamp` in non-increasing order that is a permutation of the entries
passing per-file filtering in the candidate files. -/
theorem LoadEvents_sorted_perm (env : Env) (k : Nat) (s : EventStorage) (f : EventFilter) :
    ∃ events s1, LoadEvents env k s f = Outcome.ok events s1 ∧
      events.Pairwise (fun a b => a.Timestamp ≥ b.Timestamp) ∧
      events.Perm
        ((getCandidateFiles s (effectiveFilter env k f)).flatMap
          (passing s.disk (effectiveFilter env k f))) :=
  ⟨_, _, LoadEvents_eq env k s f, sortSlice_timestamp_sorted _, sortSlice_perm _ _⟩

/-! ## Appending -/

theorem ensureFields_spec (env : Env) (k : Nat) (e : EventEntry) :
    (e.ID = "" → (ensureFields env k e).ID = env.uuid k) ∧
    (e.ID ≠ "" → (ensureFields env k e).ID = e.ID) ∧
    (e.Timestamp = 0 →
      (ensureFields env k e).Timestamp = env.now (if e.ID = "" then k + 1 else k)) ∧
    (e.Timestamp ≠ 0 → (ensureFields env k e).Timestamp = e.Timestamp) ∧
    (e.Type_ = "" → (ensureFields env k e).Type_ = "alert") ∧
    (e.Type_ ≠ "" → (ensureFields env k e).Type_ = e.Type_) ∧
    (ensureFields env k e).Source = e.Source ∧ (ensureFields env k e).JobID = e.JobID ∧
    (ensureFields env k e).Message = e.Message ∧ (ensureFields env k e).Severity = e.Severity ∧
    (ensureFields env k e).Metadata = e.Metadata ∧
    (ensureFields env k e).Processed = e.Processed ∧
    (ensureFields env k e).ProcessedAt = e.ProcessedAt := by
  unfold ensureFields
  by_cases h1 : e.ID = "" <;> by_cases h2 : e.Timestamp = 0 <;> by_cases h3 : e.Type_ = "" <;>
    simp [h1, h2, h3]

/-- C7. Defaulting: the record a successful `StoreEvent` appends to the active file has a
generated, non-empty `ID` when the caller's `ID` is empty, the current time as
`Timestamp` when the caller's is 0, and `Type` "alert" when the caller's is empty; a
non-empty `ID`, a non-zero `Timestamp`, a non-empty `Type` and every other field are
stored as supplied.  (`uuid.New().String()` never returns the empty string.) -/
theorem StoreEvent_defaulting (env : Env) (fuel k : Nat) (s : EventStorage) (e : EventEntry)
    (path : String) (s1 : EventStorage) (huuid : ∀ j, env.uuid j ≠ "")
    (h : StoreEvent env fuel k s e = Outcome.ok path s1) :
    ∃ old r, fileEvents s.disk s.currentFile = some old ∧
      fileEvents s1.disk path = some (old ++ [r]) ∧
      (e.ID = "" → r.ID = env.uuid k ∧ r.ID ≠ "") ∧
      (e.ID ≠ "" → r.ID = e.ID) ∧
      (e.Timestamp = 0 → r.Timestamp = env.now (if e.ID = "" then k + 1 else k)) ∧
      (e.Timestamp ≠ 0 → r.Timestamp = e.Timestamp) ∧
      (e.Type_ = "" → r.Type_ = "alert") ∧
      (e.Type_ ≠ "" → r.Type_ = e.Type_) ∧
      r.Source = e.Source ∧ r.JobID = e.JobID ∧ r.Message = e.Message ∧
      r.Severity = e.Severity ∧ r.Metadata = e.Metadata ∧
      r.Processed = e.Processed ∧ r.ProcessedAt = e.ProcessedAt := by
  obtain ⟨_, hp, data, events, d, hr, he, _, hw, hs1⟩ := StoreEvent_ok_inv _ _ _ _ _ _ _ h
  obtain ⟨idx1, hu, _, _⟩ := updateFileIndex_eq { s with disk := d } s.currentFile
    (ensureFields env k e)
  rw [hu] at hs1
  obtain ⟨a1, a2, a3, a4, a5, a6, a7⟩ := ensureFields_spec env k e
  refine ⟨events, ensureFields env k e, by simp [fileEvents, hr, he], ?_, ?_, a2, a3, a4, a5, a6,
    a7⟩
  · rw [hp, hs1]
    exact fileEvents_writeFile_same _ _ _ _ hw
  · intro hid
    rw [a1 hid]
    exact ⟨rfl, huuid k⟩

/-- Witness of C7 -/
theorem StoreEvent_defaulting_witness :
    (∀ j, demoEnv.uuid j ≠ "") ∧
    StoreEvent demoEnv 1 0 (demoOpened 100) (demoEvent "a" 5 0) =
      Outcome.ok demoPath (demoStored 100) ∧
    ∃ old r, fileEvents (demoOpened 100).disk (demoOpened 100).currentFile = some old ∧
      fileEvents (demoStored 100).disk demoPath = some (old ++ [r]) ∧
      ((demoEvent "a" 5 0).ID = "" → r.ID = demoEnv.uuid 0 ∧ r.ID ≠ "") ∧
      ((demoEvent "a" 5 0).ID ≠ "" → r.ID = (demoEvent "a" 5 0).ID) ∧
      ((demoEvent "a" 5 0).Timestamp = 0 →
        r.Timestamp = demoEnv.now (if (demoEvent "a" 5 0).ID = "" then 0 + 1 else 0)) ∧
      ((demoEvent "a" 5 0).Timestamp ≠ 0 → r.Timestamp = (demoEvent "a" 5 0).Timestamp) ∧
      ((demoEvent "a" 5 0).Type_ = "" → r.Type_ = "alert") ∧
      ((demoEvent "a" 5 0).Type_ ≠ "" → r.Type_ = (demoEvent "a" 5 0).Type_) ∧
      r.Source = (demoEvent "a" 5 0).Source ∧ r.JobID = (demoEvent "a" 5 0).JobID ∧
      r.Message = (demoEvent "a" 5 0).Message ∧
      r.Severity = (demoEvent "a" 5 0).Severity ∧ r.Metadata = (demoEvent "a" 5 0).Metadata ∧
      r.Processed = (demoEvent "a" 5 0).Processed ∧
      r.ProcessedAt = (demoEvent "a" 5 0).ProcessedAt :=
  ⟨fun _ => (by decide : "0123456789abcdef" ≠ ""), rfl,
    StoreEvent_defaulting demoEnv 1 0 (demoOpened 100) (demoEvent "a" 5 0) demoPath
      (demoStored 100) (fun _ => (by decide : "0123456789abcdef" ≠ "")) rfl⟩

/-- C10, as stated, fails: the active file of a freshly opened store holds 13 bytes, far
below `maxFileSize`, and `StoreEvent` of an entry whose `Metadata` holds a value that
`encoding/json` does not support returns the error of `json.MarshalIndent`; the same
call with an ordinary entry, on a device that has run full, returns the error of
`os.WriteFile`. -/
theorem StoreEvent_append_counterexample :
    Reachable (demoOpened 1000) ∧
    readFile (demoOpened 1000).disk (demoOpened 1000).currentFile = some ⟨13, some []⟩ ∧
    ((13 : Nat) : Int) ≤ (demoOpened 1000).maxFileSize ∧
    StoreEvent demoEnv 1 0 (demoOpened 1000) demoUnsupported = Outcome.fail (demoOpened 1000) ∧
    readFile demoActiveFull.disk demoActiveFull.currentFile =
      some ⟨218, some [demoEvent "a" 5 0]⟩ ∧
    ((218 : Nat) : Int) ≤ demoActiveFull.maxFileSize ∧
    ∃ s1, StoreEvent demoEnv 1 0 demoActiveFull (demoEvent "b" 6 1) = Outcome.fail s1 :=
  ⟨Reachable.opened demoEnv ⟨[], [], []⟩ "/data" 1000 (demoOpened 1000) rfl, rfl, by decide, rfl,
    rfl, by decide, _, rfl⟩

/-- C10 (amended). Append: when `currentMutex` is free, the active file is read and
parsed, it is not larger than `maxFileSize`, no entry of the new content holds a value
that `json.MarshalIndent` rejects, and the file can be opened for writing and the write
is not cut short, then `StoreEvent` succeeds, returns the path of the active file, leaves
the active file the same file, and the file's event list afterwards is the previous
list followed by the defaulted entry; no other node of the file system changes. -/
theorem StoreEvent_append (s : EventStorage) (env : Env) (fuel k : Nat) (e : EventEntry)
    (data : FileData) (old : List EventEntry)
    (hm : s.currentMutex = false)
    (hread : readFile s.disk s.currentFile = some data) (hparse : data.events = some old)
    (hsize : (data.size : Int) ≤ s.maxFileSize)
    (hmarshal : (old ++ [ensureFields env k e]).any unsupported = false)
    (hopen : s.currentFile ∉ s.disk.readOnly)
    (hwrite : mapGet s.disk.cutShort s.currentFile = none) :
    ∃ s1, StoreEvent env (fuel + 1) k s e = Outcome.ok s.currentFile s1 ∧
      s1.currentFile = s.currentFile ∧
      fileEvents s1.disk s.currentFile = some (old ++ [ensureFields env k e]) ∧
      ∀ q, q ≠ s.currentFile → mapGet s1.disk.nodes q = mapGet s.disk.nodes q := by
  obtain ⟨d, hd⟩ := writeFile_of_readable s.disk s.currentFile data
    ⟨env.marshalLen (old ++ [ensureFields env k e]), some (old ++ [ensureFields env k e])⟩
    hread hopen hwrite
  obtain ⟨idx1, hu, _, _⟩ := updateFileIndex_eq { s with disk := d } s.currentFile
    (ensureFields env k e)
  refine ⟨_, StoreEvent_ok_of env fuel k s e data old d hm hread hparse hsize hmarshal hd,
    ?_, ?_, ?_⟩
  · rw [hu]
  · rw [hu]
    exact fileEvents_writeFile_same _ _ _ _ hd
  · intro q hq
    rw [hu]
    exact mapGet_writeFile_other _ _ _ _ _ hd (Ne.symm hq)

/-- Witness of C10 (amended) -/
theorem StoreEvent_append_witness :
    (demoStored 1000).currentMutex = false ∧
    readFile (demoStored 1000).disk (demoStored 1000).currentFile =
      some ⟨218, some [demoEvent "a" 5 0]⟩ ∧
    ((218 : Nat) : Int) ≤ (demoStored 1000).maxFileSize ∧
    ([demoEvent "a" 5 0] ++ [ensureFields demoEnv 0 (demoEvent "b" 6 1)]).any unsupported =
      false ∧
    (demoStored 1000).currentFile ∉ (demoStored 1000).disk.readOnly ∧
    mapGet (demoStored 1000).disk.cutShort (demoStored 1000).currentFile = none ∧
    ∃ s1,
      StoreEvent demoEnv (0 + 1) 0 (demoStored 1000) (demoEvent "b" 6 1) =
        Outcome.ok (demoStored 1000).currentFile s1 ∧
      s1.currentFile = (demoStored 1000).currentFile ∧
      fileEvents s1.disk (demoStored 1000).currentFile =
        some ([demoEvent "a" 5 0] ++ [ensureFields demoEnv 0 (demoEvent "b" 6 1)]) ∧
      ∀ q, q ≠ (demoStored 1000).currentFile →
        mapGet s1.disk.nodes q = mapGet (demoStored 1000).disk.nodes q :=
  ⟨rfl, rfl, by decide, rfl, by decide, rfl,
    StoreEvent_append (demoStored 1000) demoEnv 0 0 (demoEvent "b" 6 1)
      ⟨218, some [demoEvent "a" 5 0]⟩ [demoEvent "a" 5 0] rfl rfl rfl (by decide) rfl
      (by decide) rfl⟩

/-! ## Rotation -/

/-- C5 (the code deviates). Rotation: in a reachable state whose active file has grown
beyond `maxFileSize`, `StoreEvent` does not complete: holding `currentMutex` it calls
`rotateIfNeeded`, which locks `currentMutex` again, so the call never returns and no
new file is written. -/
theorem StoreEvent_oversized_never_returns (s : EventStorage) (hr : Reachable s) (env : Env)
    (fuel k : Nat) (e : EventEntry) (data : FileData)
    (hread : readFile s.disk s.currentFile = some data)
    (hbig : (data.size : Int) > s.maxFileSize) :
    StoreEvent env (fuel + 1) k s e = Outcome.blocked := by
  obtain ⟨old, hold⟩ := hr.inv.currentReadable
  obtain ⟨data1, hrd, hev⟩ := fileEvents_eq_some _ _ _ hold
  rw [hread] at hrd
  cases hrd
  exact StoreEvent_blocked_of_oversized env fuel k s e data old hread hev hbig

/-- Witness of C5 -/
theorem StoreEvent_oversized_never_returns_witness :
    Reachable (demoStored 100) ∧
    readFile (demoStored 100).disk (demoStored 100).currentFile =
      some ⟨218, some [demoEvent "a" 5 0]⟩ ∧
    ((218 : Nat) : Int) > (demoStored 100).maxFileSize ∧
    StoreEvent demoEnv (0 + 1) 0 (demoStored 100) (demoEvent "b" 6 1) = Outcome.blocked :=
  ⟨Reachable.stored demoEnv 1 0 (demoOpened 100) (demoEvent "a" 5 0) demoPath (demoStored 100)
      (Reachable.opened demoEnv ⟨[], [], []⟩ "/data" 100 (demoOpened 100) rfl) rfl,
    rfl, by decide,
    StoreEvent_oversized_never_returns (demoStored 100)
      (Reachable.stored demoEnv 1 0 (demoOpened 100) (demoEvent "a" 5 0) demoPath
        (demoStored 100)
        (Reachable.opened demoEnv ⟨[], [], []⟩ "/data" 100 (demoOpened 100) rfl) rfl)
      demoEnv 0 0 (demoEvent "b" 6 1) ⟨218, some [demoEvent "a" 5 0]⟩ rfl (by decide)⟩

/-! ## A store opened on an empty directory -/

theorem stripPrefix?_append_self (l : List Char) (c : Char) :
    stripPrefix? (l ++ [c]) l = none := by
  induction l with
  | nil => rfl
  | cons a l ih => simp [stripPrefix?, ih]

theorem childName?_self (baseDir : String) : childName? baseDir baseDir = none := by
  unfold childName?
  have h : (baseDir ++ "/").data = baseDir.data ++ ['/'] := by
    rw [String.data_append]
  rw [h, stripPrefix?_append_self]

theorem mem_mkdirAll (d d1 : Disk) (p : String) (h : mkdirAll d p = some d1) :
    ∀ pn ∈ d1.nodes, pn ∈ d.nodes ∨ pn = (p, Node.dir) := by
  unfold mkdirAll at h
  split at h
  · cases h
    exact fun pn hpn => Or.inl hpn
  · cases h
  · split at h
    · cases h
    · cases h
      intro pn hpn
      rcases mem_mapSet _ _ _ _ hpn with h1 | h1
      · exact Or.inr h1
      · exact Or.inl h1

theorem readDir_empty (d : Disk) (baseDir : String) (files : List DirEntry)
    (h : readDir d baseDir = some files)
    (hempty : ∀ pn ∈ d.nodes, childName? baseDir pn.1 = none) : files = [] := by
  unfold readDir at h
  split at h
  · simp only [Option.some.injEq] at h
    rw [← h, List.eq_nil_iff_forall_not_mem]
    intro x hx
    rw [List.mem_filterMap] at hx
    obtain ⟨pn, hpn, hx1⟩ := hx
    rw [hempty pn hpn] at hx1
    cases hx1
  · cases h

/-- The successful run of `initializeStorage`. -/
theorem initializeStorage_ok_inv (env : Env) (k : Nat) (st s : EventStorage)
    (h : initializeStorage env k st = Outcome.ok () s) :
    ∃ files d1, readDir st.disk st.baseDir = some files ∧
      initFile st.disk s.currentFile = WriteResult.ok d1 ∧
      s = { indexDir files st with currentFile := s.currentFile, disk := d1 } := by
  unfold initializeStorage at h
  split at h
  · cases h
  · rename_i files hfiles
    obtain ⟨_, d1, hinit, hs⟩ := rotateIfNeeded_ok_inv env k _ s h
    rw [(indexDir_spec files st).2.1] at hinit
    exact ⟨files, d1, hfiles, hinit, hs⟩

/-- A store opened on a directory without entries has an empty index and an empty,
writable active file. -/
theorem NewEventStorage_emptyDir (env : Env) (d : Disk) (baseDir : String) (maxFileSize : Int)
    (s : EventStorage) (h : NewEventStorage env d baseDir maxFileSize = Outcome.ok () s)
    (hempty : ∀ pn ∈ d.nodes, childName? s.baseDir pn.1 = none) :
    s.fileIndexes = [] ∧ fileEvents s.disk s.currentFile = some [] ∧
    s.pendingUpdates.updates = [] ∧ s.currentFile ∉ s.disk.readOnly ∧
    s.currentMutex = false := by
  have hinv := NewEventStorage_inv _ _ _ _ _ h
  unfold NewEventStorage at h
  simp only at h
  split at h
  · cases h
  · rename_i d1 hd1
    obtain ⟨files, d2, hfiles, hinit, hs⟩ := initializeStorage_ok_inv _ _ _ _ h
    simp only at hfiles hinit
    obtain ⟨b1, b2, b3, b4, b5, b6⟩ := initFile_spec _ _ _ hinit
    have hbase : s.baseDir = (if baseDir = "" then getBaseDir env else baseDir) := by
      rw [hs]
      exact (indexDir_spec files _).1.1
    have hfe : files = [] := by
      apply readDir_empty _ _ _ hfiles
      intro pn hpn
      rcases mem_mkdirAll _ _ _ hd1 pn hpn with h1 | h1
      · rw [← hbase]
        exact hempty pn h1
      · rw [h1]
        exact childName?_self _
    subst hfe
    refine ⟨?_, ?_, hinv.noPending, ?_, hinv.mutexFree⟩
    · rw [hs]
      rfl
    · rw [hs]
      exact b4
    · rw [hs]
      show s.currentFile ∉ d2.readOnly
      rw [b3]
      exact b2

theorem sortSlice_singleton {α : Type} (less : α → α → Bool) (x : α) :
    sortSlice less [x] = [x] := rfl

theorem getCandidateFiles_single (s : EventStorage) (f : EventFilter) (p : String)
    (idx : FileIndex) (h : s.fileIndexes = [(p, idx)]) :
    (admits f idx → getCandidateFiles s f = [p]) ∧
    (¬ admits f idx → getCandidateFiles s f = []) := by
  have hm := mem_getCandidateFiles s f
  have hlen : (getCandidateFiles s f).length ≤ 1 := by
    unfold getCandidateFiles
    rw [h]
    exact List.length_filterMap_le _ _
  have hsub : ∀ x ∈ getCandidateFiles s f, x = p ∧ admits f idx := by
    intro x hx
    obtain ⟨idx1, h1, h2⟩ := (hm x).1 hx
    rw [h] at h1
    simp only [List.mem_singleton, Prod.mk.injEq] at h1
    rw [← h1.2]
    exact ⟨h1.1, h2⟩
  generalize getCandidateFiles s f = c at hm hlen hsub
  cases c with
  | nil =>
    refine ⟨?_, fun _ => rfl⟩
    intro ha
    have : p ∈ ([] : List String) := (hm p).2 ⟨idx, by rw [h]; exact List.mem_singleton_self _, ha⟩
    cases this
  | cons x c =>
    cases c with
    | nil =>
      obtain ⟨h1, h2⟩ := hsub x (List.mem_singleton_self _)
      exact ⟨fun _ => by rw [h1], fun hn => absurd h2 hn⟩
    | cons y c =>
      simp at hlen

/-! ## Round trip -/

theorem passing_singleton (d : Disk) (f : EventFilter) (p : String) (e : EventEntry)
    (h : fileEvents d p = some [e]) (hm : skips f e = false) : passing d f p = [e] := by
  simp [passing, h, hm]

/-- C2, as stated, fails: an entry with a negative severity, an entry with a negative
timestamp and an entry with a timestamp after `now` are each stored, and the query
`{StartTime: 0, EndTime: now}` issued right after returns nothing. -/
theorem round_trip_counterexample :
    NewEventStorage demoEnv ⟨[], [], []⟩ "/data" 1000 = Outcome.ok () (demoOpened 1000) ∧
    (∃ s1 s2,
      StoreEvent demoEnv 1 0 (demoOpened 1000) (demoEvent "a" 5 (-1)) =
        Outcome.ok demoPath s1 ∧
      LoadEvents demoEnv 0 s1 ⟨0, 2000, 0, "", "", "", false⟩ = Outcome.ok [] s2) ∧
    (∃ s1 s2,
      StoreEvent demoEnv 1 0 (demoOpened 1000) (demoEvent "a" (-5) 0) =
        Outcome.ok demoPath s1 ∧
      LoadEvents demoEnv 0 s1 ⟨0, 2000, 0, "", "", "", false⟩ = Outcome.ok [] s2) ∧
    ∃ s1 s2,
      StoreEvent demoEnv 1 0 (demoOpened 1000) (demoEvent "a" 5000 0) =
        Outcome.ok demoPath s1 ∧
      LoadEvents demoEnv 0 s1 ⟨0, 2000, 0, "", "", "", false⟩ = Outcome.ok [] s2 :=
  ⟨rfl, ⟨_, _, rfl, rfl⟩, ⟨_, _, rfl, rfl⟩, _, _, rfl, rfl⟩

/-- C2 (amended). Round-trip: when `StoreEvent(e)` succeeds for an entry of severity at
least 0 whose stored timestamp lies between 0 and `now` (a zero `now` being read by the
query as the current time), the query `LoadEvents({StartTime: 0, EndTime: now})` issued
right after returns a result that contains the stored entry, which equals `e` except
for the defaulted fields; if the store had just been opened on a directory without
entries, the result is exactly that one entry. -/
theorem round_trip (env : Env) (fuel k : Nat) (s : EventStorage) (e : EventEntry)
    (path : String) (s1 : EventStorage)
    (hstore : StoreEvent env fuel k s e = Outcome.ok path s1)
    (env2 : Env) (k2 : Nat) (now : Int) (hsev : 0 ≤ e.Severity)
    (hts : 0 ≤ (ensureFields env k e).Timestamp ∧
      (ensureFields env k e).Timestamp ≤ (if now = 0 then env2.now k2 else now)) :
    ∃ events s2 r,
      LoadEvents env2 k2 s1 ⟨0, now, 0, "", "", "", false⟩ = Outcome.ok events s2 ∧
      r ∈ events ∧ EqualExceptDefaulted e r ∧
      (∀ env0 d baseDir maxFileSize,
        NewEventStorage env0 d baseDir maxFileSize = Outcome.ok () s →
        (∀ pn ∈ d.nodes, childName? s.baseDir pn.1 = none) → events = [r]) := by
  obtain ⟨_, hp, data, old, d, hr, he, _, hw, hs1⟩ := StoreEvent_ok_inv _ _ _ _ _ _ _ hstore
  obtain ⟨idx1, hu, hc1, _⟩ := updateFileIndex_eq { s with disk := d } s.currentFile
    (ensureFields env k e)
  rw [hu] at hs1
  obtain ⟨a1, a2, a3, a4, a5, a6, b1, b2, b3, b4, b5, b6, b7⟩ := ensureFields_spec env k e
  have hfe : fileEvents s1.disk s.currentFile = some (old ++ [ensureFields env k e]) := by
    rw [hs1]
    exact fileEvents_writeFile_same _ _ _ _ hw
  have hidx : mapGet s1.fileIndexes s.currentFile = some idx1 := by
    rw [hs1]
    exact mapGet_mapSet_same _ _ _
  have hmatch : Matches ⟨0, if now = 0 then env2.now k2 else now, 0, "", "", "", false⟩
      (ensureFields env k e) := by
    refine ⟨hts, ?_, Or.inl rfl, Or.inl rfl, Or.inl rfl, Or.inl rfl⟩
    rw [b4]
    exact hsev
  have hskip := (skips_eq_false_iff _ _).2 hmatch
  have hadm : admits ⟨0, if now = 0 then env2.now k2 else now, 0, "", "", "", false⟩ idx1 :=
    admits_of_covers _ _ _ _ hc1 (List.mem_singleton_self _) hmatch
  have heff : effectiveFilter env2 k2 ⟨0, now, 0, "", "", "", false⟩ =
      ⟨0, if now = 0 then env2.now k2 else now, 0, "", "", "", false⟩ :=
    effectiveFilter_eq _ _ _
  refine ⟨_, _, ensureFields env k e, LoadEvents_eq env2 k2 s1 _, ?_,
    ⟨b1, b2, b3, b4, b5, b6, b7, a2, a4, a6⟩, ?_⟩
  · rw [heff, mem_sortSlice, List.mem_flatMap]
    refine ⟨s.currentFile, ?_, ?_⟩
    · rw [mem_getCandidateFiles]
      exact ⟨idx1, mem_of_mapGet _ _ _ hidx, hadm⟩
    · rw [mem_passing]
      exact ⟨_, hfe, List.mem_append_right _ (List.mem_singleton_self _), hskip⟩
  · intro env0 d0 baseDir maxFileSize hopen hempty
    obtain ⟨e1, e2, _, _, _⟩ := NewEventStorage_emptyDir _ _ _ _ _ hopen hempty
    have hold : old = [] := by
      have : fileEvents s.disk s.currentFile = some old := by simp [fileEvents, hr, he]
      rw [e2] at this
      cases this
      rfl
    subst hold
    have hix : s1.fileIndexes = [(s.currentFile, idx1)] := by
      rw [hs1]
      show mapSet s.fileIndexes s.currentFile idx1 = _
      rw [e1]
      rfl
    rw [heff, (getCandidateFiles_single s1 _ _ _ hix).1 hadm]
    simp only [List.flatMap_cons, List.flatMap_nil, List.append_nil]
    rw [passing_singleton _ _ _ _ hfe hskip]
    rfl

/-- Witness of C2 (amended) -/
theorem round_trip_witness :
    StoreEvent demoEnv 1 0 (demoOpened 1000) (demoEvent "a" 5 0) =
      Outcome.ok demoPath (demoStored 1000) ∧
    0 ≤ (demoEvent "a" 5 0).Severity ∧
    (0 ≤ (ensureFields demoEnv 0 (demoEvent "a" 5 0)).Timestamp ∧
      (ensureFields demoEnv 0 (demoEvent "a" 5 0)).Timestamp ≤
        (if (2000 : Int) = 0 then demoEnv.now 0 else 2000)) ∧
    ∃ events s2 r,
      LoadEvents demoEnv 0 (demoStored 1000) ⟨0, 2000, 0, "", "", "", false⟩ =
        Outcome.ok events s2 ∧
      r ∈ events ∧ EqualExceptDefaulted (demoEvent "a" 5 0) r ∧
      (∀ env0 d baseDir maxFileSize,
        NewEventStorage env0 d baseDir maxFileSize = Outcome.ok () (demoOpened 1000) →
        (∀ pn ∈ d.nodes, childName? (demoOpened 1000).baseDir pn.1 = none) → events = [r]) :=
  ⟨rfl, by decide, by decide,
    round_trip demoEnv 1 0 (demoOpened 1000) (demoEvent "a" 5 0) demoPath (demoStored 1000) rfl
      demoEnv 0 2000 (by decide) (by decide)⟩

/-! ## The keys of the index across `LoadEvents` -/

theorem indexFile_keys (s : EventStorage) (q : String)
    (hq : q ∈ s.fileIndexes.map Prod.fst) :
    (indexFile s q).2.fileIndexes.map Prod.fst = s.fileIndexes.map Prod.fst := by
  rw [indexFile_snd]
  split
  · show (mapSet s.fileIndexes q _).map Prod.fst = _
    rw [keys_mapSet, if_pos hq]
  · rfl

theorem applySingleFileUpdates_keys (env : Env) (s : EventStorage) (q : String)
    (ups : List (String × EventUpdate)) (hq : q ∈ s.fileIndexes.map Prod.fst) :
    (applySingleFileUpdates env s q ups).2.fileIndexes.map Prod.fst =
      s.fileIndexes.map Prod.fst := by
  rw [applySingleFileUpdates_snd]
  split
  · rfl
  · split
    · split
      · rfl
      · split
        · rfl
        · exact indexFile_keys _ q hq
    · rfl

theorem applyLoop_keys (env : Env) (L : List (String × List (String × EventUpdate)))
    (s : EventStorage) (h : ∀ x ∈ L, x.1 ∈ s.fileIndexes.map Prod.fst) :
    (applyLoop env L s).fileIndexes.map Prod.fst = s.fileIndexes.map Prod.fst := by
  induction L generalizing s with
  | nil => rfl
  | cons a rest ih =>
    obtain ⟨q, ups⟩ := a
    have hrest : ∀ x ∈ rest, x.1 ∈ s.fileIndexes.map Prod.fst :=
      fun x hx => h x (List.mem_cons_of_mem _ hx)
    by_cases hl : ups.length = 0
    · simp only [applyLoop, hl, if_true]
      exact ih s hrest
    · simp only [applyLoop, hl, if_false]
      have hk := applySingleFileUpdates_keys env s q ups (h (q, ups) (List.mem_cons_self _ _))
      rw [ih]
      · exact hk
      · intro x hx
        show x.1 ∈ (applySingleFileUpdates env s q ups).2.fileIndexes.map Prod.fst
        rw [hk]
        exact hrest x hx

theorem LoadEvents_keys (env : Env) (k : Nat) (s : EventStorage) (f0 : EventFilter)
    (hp : s.pendingUpdates.updates = []) (events : List EventEntry) (s1 : EventStorage)
    (h : LoadEvents env k s f0 = Outcome.ok events s1) :
    s1.fileIndexes.map Prod.fst = s.fileIndexes.map Prod.fst := by
  rw [LoadEvents_eq] at h
  simp only [Outcome.ok.injEq, ApplyPendingUpdates] at h
  rw [← h.2]
  generalize effectiveFilter env k f0 = f
  generalize (if f0.EndTime = 0 then k + 1 else k) = k1
  obtain ⟨c1, _, _, c4⟩ := loadCandidates_pending env f (getCandidateFiles s f) [] s k1
  have hfr := loadCandidates_frame env f (getCandidateFiles s f) [] s k1
  generalize (loadCandidates env f (getCandidateFiles s f) [] s k1).2.1 = sP at c1 c4 hfr ⊢
  have hwf : PendingWF sP.pendingUpdates := by
    apply c1
    refine ⟨by rw [hp]; exact List.nodup_nil, ?_⟩
    intro kv hkv
    rw [hp] at hkv
    cases hkv
  have hix : sP.fileIndexes = s.fileIndexes := by rw [hfr]
  rw [applyLoop_keys, hix]
  intro x hx
  rw [hix]
  obtain ⟨q, ups⟩ := x
  have hne := hwf.2 _ hx
  have hg : mapGet sP.pendingUpdates.updates q = some ups := mapGet_of_mem _ _ _ hwf.1 hx
  cases ups with
  | nil => exact absurd rfl hne
  | cons a ups =>
    obtain ⟨id, u⟩ := a
    have hu : mapGet (updatesFor sP.pendingUpdates q) id = some u := by
      simp [updatesFor, hg, mapGet]
    rcases c4 q id u hu with h1 | ⟨h1, _, _⟩
    · simp [updatesFor, hp, mapGet] at h1
    · obtain ⟨idx, hmem, _⟩ := (mem_getCandidateFiles s f q).1 h1
      exact List.mem_map.2 ⟨(q, idx), hmem, rfl⟩

theorem eq_single_of_keys {β : Type} (l : List (String × β)) (p : String) (x : β)
    (hk : l.map Prod.fst = [p]) (hg : mapGet l p = some x) : l = [(p, x)] := by
  cases l with
  | nil => cases hk
  | cons a l =>
    obtain ⟨a1, a2⟩ := a
    simp only [List.map_cons, List.cons.injEq, List.map_eq_nil_iff] at hk
    obtain ⟨h1, h2⟩ := hk
    subst h1 h2
    simp only [mapGet, if_true, Option.some.injEq] at hg
    rw [hg]

theorem markEvent_of_none (ups : List (String × EventUpdate)) (e : EventEntry)
    (h : mapGet ups e.ID = none) : markEvent ups e = e := by
  simp [markEvent, h]

theorem markEvent_of_some (ups : List (String × EventUpdate)) (e : EventEntry) (u : EventUpdate)
    (h : mapGet ups e.ID = some u) :
    markEvent ups e = { e with Processed := u.Processed, ProcessedAt := u.ProcessedAt } := by
  simp [markEvent, h]

/-! ## `LoadEvents` on a store with one indexed file holding one event -/

theorem LoadEvents_single_hit (env : Env) (k : Nat) (s : EventStorage) (f0 : EventFilter)
    (p : String) (idx : FileIndex) (ev : EventEntry)
    (hix : s.fileIndexes = [(p, idx)]) (hfe : fileEvents s.disk p = some [ev])
    (hpend : s.pendingUpdates.updates = []) (hw : p ∉ s.disk.readOnly)
    (hcut : mapGet s.disk.cutShort p = none) (hsup : unsupported ev = false)
    (hadm : admits (effectiveFilter env k f0) idx)
    (hm : Matches (effectiveFilter env k f0) ev) :
    ∃ s1 t, LoadEvents env k s f0 = Outcome.ok [ev] s1 ∧
      s1.fileIndexes =
        [(p, buildIndex p { ev with Processed := true, ProcessedAt := t }
          [{ ev with Processed := true, ProcessedAt := t }])] ∧
      fileEvents s1.disk p = some [{ ev with Processed := true, ProcessedAt := t }] ∧
      s1.pendingUpdates.updates = [] ∧ p ∉ s1.disk.readOnly ∧
      mapGet s1.disk.cutShort p = none := by
  have hsup1 : [ev].any unsupported = false := by simp [hsup]
  obtain ⟨s1, U, hl, a1, a2, a3, a4, _, _, _, _, a9⟩ := LoadEvents_spec env k s f0 hpend
  have hkeys := LoadEvents_keys env k s f0 hpend _ _ hl
  have hc := (getCandidateFiles_single s (effectiveFilter env k f0) p idx hix).1 hadm
  have hpass := passing_singleton _ _ _ _ hfe ((skips_eq_false_iff _ _).2 hm)
  rw [hc] at hl a4 a9
  simp only [List.flatMap_cons, List.flatMap_nil, List.append_nil, hpass,
    sortSlice_singleton] at hl
  obtain ⟨t, ht⟩ := a4 p (List.mem_singleton_self _) ev (by rw [hpass]; exact List.mem_singleton_self _)
  have hfe1 : fileEvents s1.disk p = some [{ ev with Processed := true, ProcessedAt := t }] := by
    rw [a3 p, flushed_of_writable _ _ _ _ hfe hsup1 hw hcut]
    simp only [List.map_cons, List.map_nil]
    rw [markEvent_of_some _ _ _ ht]
  obtain ⟨first, rest, h1, h2⟩ := a9 p (List.mem_singleton_self _) hw hcut
    (by
      intro events hev
      rw [hfe] at hev
      cases hev
      exact hsup1) ev
    (by rw [hpass]; exact List.mem_singleton_self _)
  rw [hfe1] at h1
  simp only [Option.some.injEq, List.cons.injEq] at h1
  obtain ⟨h3, h4⟩ := h1
  subst h3 h4
  refine ⟨s1, t, hl, ?_, hfe1, a2, ?_, ?_⟩
  · apply eq_single_of_keys _ _ _ _ h2
    rw [hkeys, hix]
    rfl
  · rw [a1.2.2.2.2.2.1]
    exact hw
  · rw [a1.2.2.2.2.2.2]
    exact hcut

theorem LoadEvents_single_miss (env : Env) (k : Nat) (s : EventStorage) (f0 : EventFilter)
    (p : String) (ev : EventEntry)
    (hix : s.fileIndexes = [(p, buildIndex p ev [ev])]) (hfe : fileEvents s.disk p = some [ev])
    (hpend : s.pendingUpdates.updates = []) (hw : p ∉ s.disk.readOnly)
    (hcut : mapGet s.disk.cutShort p = none)
    (hadm : ¬ admits (effectiveFilter env k f0) (buildIndex p ev [ev])) :
    ∃ s1, LoadEvents env k s f0 = Outcome.ok [] s1 ∧
      s1.fileIndexes = [(p, buildIndex p ev [ev])] ∧
      fileEvents s1.disk p = some [ev] ∧
      s1.pendingUpdates.updates = [] ∧ p ∉ s1.disk.readOnly ∧
      mapGet s1.disk.cutShort p = none := by
  obtain ⟨s1, U, hl, a1, a2, a3, _, a5, _, a7, _, _⟩ := LoadEvents_spec env k s f0 hpend
  have hkeys := LoadEvents_keys env k s f0 hpend _ _ hl
  have hc := (getCandidateFiles_single s (effectiveFilter env k f0) p _ hix).2 hadm
  rw [hc] at hl a5
  have hnone : mapGet (U p) ev.ID = none := by
    cases hg : mapGet (U p) ev.ID with
    | none => rfl
    | some u =>
      have := (a5 p ev.ID u hg).1
      cases this
  have hfe1 : fileEvents s1.disk p = some [ev] := by
    rw [a3 p]
    simp [flushed, hfe, applyUpdates, hnone]
  have hfresh : IndexFresh s p :=
    ⟨ev, [], hfe, by rw [hix]; simp [mapGet]⟩
  obtain ⟨first, rest, h1, h2⟩ := a7 p hfresh hcut
  rw [hfe1] at h1
  simp only [Option.some.injEq, List.cons.injEq] at h1
  obtain ⟨h3, h4⟩ := h1
  subst h3 h4
  refine ⟨s1, hl, ?_, hfe1, a2, ?_, ?_⟩
  · apply eq_single_of_keys _ _ _ _ h2
    rw [hkeys, hix]
    rfl
  · rw [a1.2.2.2.2.2.1]
    exact hw
  · rw [a1.2.2.2.2.2.2]
    exact hcut

/-! ## Deferred delivery -/

/-- C4, as stated, fails: a store holds one unprocessed event, of negative severity, or
of negative timestamp, or of a timestamp after the time of the call (the clock reads
1000), and the first `LoadEvents({Unprocessed: true})` returns nothing. -/
theorem deferred_delivery_counterexample :
    NewEventStorage demoEnv ⟨[], [], []⟩ "/data" 1000 = Outcome.ok () (demoOpened 1000) ∧
    (∃ s1 s2,
      StoreEvent demoEnv 1 0 (demoOpened 1000) (demoEvent "a" 5 (-1)) =
        Outcome.ok demoPath s1 ∧
      LoadEvents demoEnv 0 s1 ⟨0, 0, 0, "", "", "", true⟩ = Outcome.ok [] s2) ∧
    (∃ s1 s2,
      StoreEvent demoEnv 1 0 (demoOpened 1000) (demoEvent "a" (-5) 0) =
        Outcome.ok demoPath s1 ∧
      LoadEvents demoEnv 0 s1 ⟨0, 0, 0, "", "", "", true⟩ = Outcome.ok [] s2) ∧
    ∃ s1 s2,
      StoreEvent demoEnv 1 0 (demoOpened 1000) (demoEvent "a" 5000 0) =
        Outcome.ok demoPath s1 ∧
      LoadEvents demoEnv 0 s1 ⟨0, 0, 0, "", "", "", true⟩ = Outcome.ok [] s2 :=
  ⟨rfl, ⟨_, _, rfl, rfl⟩, ⟨_, _, rfl, rfl⟩, _, _, rfl, rfl⟩

/-- C4 (amended). Deferred delivery: a store opened on a directory without entries and
then holding one stored unprocessed event, of severity at least 0 and with a stored
timestamp between 0 and the time of the calls: a first `LoadEvents({Unprocessed: true})`
returns exactly that event; a second call with the same filter returns an empty result;
a third call without the `Unprocessed` filter returns the event, now marked processed. -/
theorem deferred_delivery (env0 : Env) (d : Disk) (baseDir : String) (maxFileSize : Int)
    (s0 : EventStorage)
    (hopen : NewEventStorage env0 d baseDir maxFileSize = Outcome.ok () s0)
    (hempty : ∀ pn ∈ d.nodes, childName? s0.baseDir pn.1 = none)
    (env1 : Env) (fuel k1 : Nat) (e : EventEntry) (path : String) (s1 : EventStorage)
    (hstore : StoreEvent env1 fuel k1 s0 e = Outcome.ok path s1)
    (hun : e.Processed = false) (hsev : 0 ≤ e.Severity)
    (envA : Env) (kA : Nat) (envB : Env) (kB : Nat) (envC : Env) (kC : Nat)
    (hts : 0 ≤ (ensureFields env1 k1 e).Timestamp)
    (htA : (ensureFields env1 k1 e).Timestamp ≤ envA.now kA)
    (htC : (ensureFields env1 k1 e).Timestamp ≤ envC.now kC) :
    ∃ sA sB sC t,
      LoadEvents envA kA s1 ⟨0, 0, 0, "", "", "", true⟩ =
        Outcome.ok [ensureFields env1 k1 e] sA ∧
      LoadEvents envB kB sA ⟨0, 0, 0, "", "", "", true⟩ = Outcome.ok [] sB ∧
      LoadEvents envC kC sB ⟨0, 0, 0, "", "", "", false⟩ =
        Outcome.ok [{ ensureFields env1 k1 e with Processed := true, ProcessedAt := t }] sC := by
  obtain ⟨e1, e2, e3, e4, _⟩ := NewEventStorage_emptyDir _ _ _ _ _ hopen hempty
  obtain ⟨_, hp, data, old, d1, hr, he, _, hw, hs1⟩ := StoreEvent_ok_inv _ _ _ _ _ _ _ hstore
  obtain ⟨idx1, hu, hc1, _⟩ := updateFileIndex_eq { s0 with disk := d1 } s0.currentFile
    (ensureFields env1 k1 e)
  rw [hu] at hs1
  obtain ⟨_, _, _, _, _, _, _, _, _, b4, _, b6, _⟩ := ensureFields_spec env1 k1 e
  have hsup : unsupported (ensureFields env1 k1 e) = false := by
    have := StoreEvent_ok_supported _ _ _ _ _ _ _ [] hstore e2
    simpa using this
  generalize ensureFields env1 k1 e = ev at *
  have hold : old = [] := by
    have : fileEvents s0.disk s0.currentFile = some old := by simp [fileEvents, hr, he]
    rw [e2] at this
    cases this
    rfl
  subst hold
  have hcut : mapGet s1.disk.cutShort s0.currentFile = none := by
    rw [hs1]
    show mapGet d1.cutShort s0.currentFile = none
    rw [cutShort_writeFile _ _ _ _ hw]
    exact (writeFile_ok_inv _ _ _ _ hw).2.1
  have hfe : fileEvents s1.disk s0.currentFile = some [ev] := by
    rw [hs1]
    exact fileEvents_writeFile_same _ _ _ _ hw
  have hix : s1.fileIndexes = [(s0.currentFile, idx1)] := by
    rw [hs1]
    show mapSet s0.fileIndexes s0.currentFile idx1 = _
    rw [e1]
    rfl
  have hpend : s1.pendingUpdates.updates = [] := by
    rw [hs1]
    exact e3
  have hwr : s0.currentFile ∉ s1.disk.readOnly := by
    rw [hs1]
    show s0.currentFile ∉ d1.readOnly
    rw [readOnly_writeFile _ _ _ _ hw]
    exact e4
  -- first call
  have hfA : effectiveFilter envA kA ⟨0, 0, 0, "", "", "", true⟩ =
      ⟨0, envA.now kA, 0, "", "", "", true⟩ := by
    simp [effectiveFilter]
  have hmA : Matches ⟨0, envA.now kA, 0, "", "", "", true⟩ ev := by
    refine ⟨⟨hts, htA⟩, ?_, Or.inl rfl, Or.inl rfl, Or.inl rfl, Or.inr ?_⟩
    · rw [b4]
      exact hsev
    · rw [b6]
      exact hun
  obtain ⟨sA, t, hA, hixA, hfeA, hpendA, hwrA, hcutA⟩ :=
    LoadEvents_single_hit envA kA s1 _ s0.currentFile idx1 ev hix hfe hpend hwr hcut hsup
      (by rw [hfA]; exact admits_of_covers _ _ _ _ hc1 (List.mem_singleton_self _) hmA)
      (by rw [hfA]; exact hmA)
  -- second call
  have hall : (buildIndex s0.currentFile { ev with Processed := true, ProcessedAt := t }
      [{ ev with Processed := true, ProcessedAt := t }]).AllProcessed = true := by
    apply buildIndex_allProcessed
    intro x hx
    simp only [List.mem_singleton] at hx
    rw [hx]
  obtain ⟨sB, hB, hixB, hfeB, hpendB, hwrB, hcutB⟩ :=
    LoadEvents_single_miss envB kB sA ⟨0, 0, 0, "", "", "", true⟩ s0.currentFile
      { ev with Processed := true, ProcessedAt := t } hixA hfeA hpendA hwrA hcutA
      (by
        intro hadm
        have h5 := hadm.2.2.2.2
        apply h5
        refine ⟨?_, hall⟩
        simp [effectiveFilter])
  -- third call
  have hfC : effectiveFilter envC kC ⟨0, 0, 0, "", "", "", false⟩ =
      ⟨0, envC.now kC, 0, "", "", "", false⟩ := by
    simp [effectiveFilter]
  have hmC : Matches ⟨0, envC.now kC, 0, "", "", "", false⟩
      { ev with Processed := true, ProcessedAt := t } := by
    refine ⟨⟨hts, htC⟩, ?_, Or.inl rfl, Or.inl rfl, Or.inl rfl, Or.inl rfl⟩
    show ev.Severity ≥ 0
    rw [b4]
    exact hsev
  obtain ⟨sC, t1, hC, _, _, _, _, _⟩ :=
    LoadEvents_single_hit envC kC sB _ s0.currentFile _
      { ev with Processed := true, ProcessedAt := t } hixB hfeB hpendB hwrB hcutB hsup
      (by
        rw [hfC]
        exact admits_of_covers _ _ _ _ (buildIndex_covers _ _ _) (List.mem_singleton_self _) hmC)
      (by rw [hfC]; exact hmC)
  exact ⟨sA, sB, sC, t, hA, hB, hC⟩

/-- Witness of C4 (amended) -/
theorem deferred_delivery_witness :
    NewEventStorage demoEnv ⟨[], [], []⟩ "/data" 1000 = Outcome.ok () (demoOpened 1000) ∧
    (∀ pn ∈ (⟨[], [], []⟩ : Disk).nodes, childName? (demoOpened 1000).baseDir pn.1 = none) ∧
    StoreEvent demoEnv 1 0 (demoOpened 1000) (demoEvent "a" 5 0) =
      Outcome.ok demoPath (demoStored 1000) ∧
    (demoEvent "a" 5 0).Processed = false ∧ 0 ≤ (demoEvent "a" 5 0).Severity ∧
    0 ≤ (ensureFields demoEnv 0 (demoEvent "a" 5 0)).Timestamp ∧
    (ensureFields demoEnv 0 (demoEvent "a" 5 0)).Timestamp ≤ demoEnv.now 0 ∧
    ∃ sA sB sC t,
      LoadEvents demoEnv 0 (demoStored 1000) ⟨0, 0, 0, "", "", "", true⟩ =
        Outcome.ok [ensureFields demoEnv 0 (demoEvent "a" 5 0)] sA ∧
      LoadEvents demoEnv 0 sA ⟨0, 0, 0, "", "", "", true⟩ = Outcome.ok [] sB ∧
      LoadEvents demoEnv 0 sB ⟨0, 0, 0, "", "", "", false⟩ =
        Outcome.ok [{ ensureFields demoEnv 0 (demoEvent "a" 5 0) with
          Processed := true, ProcessedAt := t }] sC :=
  ⟨rfl, (fun pn h => by cases h), rfl, rfl, by decide, by decide, by decide,
    deferred_delivery demoEnv ⟨[], [], []⟩ "/data" 1000 (demoOpened 1000) rfl
      (fun pn h => by cases h) demoEnv 1 0 (demoEvent "a" 5 0) demoPath (demoStored 1000) rfl
      rfl (by decide) demoEnv 0 demoEnv 0 demoEnv 0 (by decide) (by decide) (by decide)⟩

/-! ## Marking as delivered -/

/-- C8 (the code deviates). A store is opened on a directory that holds an event file,
with one unprocessed event, that cannot be opened for writing.  `LoadEvents` returns
the event with a nil error; after the call the event is stored on disk as it was, with
`Processed = false`, and no pending update is left for a later flush.  On a directory
whose device has run full the same call returns the event with a nil error and leaves
a file that no longer parses. -/
theorem LoadEvents_returned_entry_not_marked :
    Reachable demoReadOnly ∧
    (∃ s1,
      LoadEvents demoEnv 0 demoReadOnly ⟨0, 0, 0, "", "", "", false⟩ =
        Outcome.ok [demoEvent "a" 5 0] s1 ∧
      fileEvents s1.disk demoOldPath = some [demoEvent "a" 5 0] ∧
      (demoEvent "a" 5 0).Processed = false ∧
      fileEvents s1.disk demoPath = some [] ∧
      s1.pendingUpdates.updates = []) ∧
    Reachable demoFull ∧
    ∃ s1,
      LoadEvents demoEnv 0 demoFull ⟨0, 0, 0, "", "", "", false⟩ =
        Outcome.ok [demoEvent "a" 5 0] s1 ∧
      fileEvents s1.disk demoOldPath = none ∧
      fileEvents s1.disk demoPath = some [] ∧
      s1.pendingUpdates.updates = [] :=
  ⟨Reachable.opened demoEnv demoReadOnlyDisk "/data" 1000 demoReadOnly rfl,
    ⟨_, rfl, rfl, rfl, rfl, rfl⟩,
    Reachable.opened demoEnv demoFullDisk "/data" 1000 demoFull rfl,
    _, rfl, rfl, rfl, rfl⟩

theorem markEvent_fields (ups : List (String × EventUpdate)) (a : EventEntry) :
    (markEvent ups a).ID = a.ID ∧ (markEvent ups a).Source = a.Source ∧
    (markEvent ups a).Type_ = a.Type_ ∧ (markEvent ups a).JobID = a.JobID ∧
    (markEvent ups a).Message = a.Message ∧ (markEvent ups a).Timestamp = a.Timestamp ∧
    (markEvent ups a).Severity = a.Severity ∧ (markEvent ups a).Metadata = a.Metadata := by
  unfold markEvent
  cases mapGet ups a.ID <;> simp

/-- C9, as stated, fails: the file holds two events with the same id; the query returns
only the second, and the first, which is not in the result, is marked processed too. -/
theorem LoadEvents_frame_counterexample :
    Reachable demoTwo ∧
    fileEvents demoTwo.disk demoPath = some [demoEvent "a" 5 0, demoEvent "a" 6 5] ∧
    ∃ s1,
      LoadEvents demoEnv 0 demoTwo ⟨0, 0, 3, "", "", "", false⟩ =
        Outcome.ok [demoEvent "a" 6 5] s1 ∧
      demoEvent "a" 5 0 ∉ [demoEvent "a" 6 5] ∧
      fileEvents s1.disk demoPath =
        some [{ demoEvent "a" 5 0 with Processed := true, ProcessedAt := 1001 },
          { demoEvent "a" 6 5 with Processed := true, ProcessedAt := 1001 }] :=
  ⟨Reachable.stored demoEnv 1 0 (demoStored 1000) (demoEvent "a" 6 5) demoPath demoTwo
      (Reachable.stored demoEnv 1 0 (demoOpened 1000) (demoEvent "a" 5 0) demoPath
        (demoStored 1000)
        (Reachable.opened demoEnv ⟨[], [], []⟩ "/data" 1000 (demoOpened 1000) rfl) rfl) rfl,
    rfl, _, rfl, by decide, rfl⟩

/-- C9 (amended). Frame of `LoadEvents`: in every reachable state and for every filter,
each file keeps the number and order of its events and every field of every event other
than `Processed`/`ProcessedAt`, and in a file whose event ids are pairwise distinct an
event that is not in the result keeps its `Processed` and `ProcessedAt` values too;
unless the write that rewrites the file is cut short, which leaves a file that does not
parse. -/
theorem LoadEvents_frame (s : EventStorage) (hr : Reachable s) (env : Env) (k : Nat)
    (f : EventFilter) :
    ∃ events s1, LoadEvents env k s f = Outcome.ok events s1 ∧
      ∀ path stored, fileEvents s.disk path = some stored →
        (∃ after, fileEvents s1.disk path = some after ∧ after.length = stored.length ∧
          ∀ (i : Nat) (a b : EventEntry), stored[i]? = some a → after[i]? = some b →
            (b.ID = a.ID ∧ b.Source = a.Source ∧ b.Type_ = a.Type_ ∧ b.JobID = a.JobID ∧
              b.Message = a.Message ∧ b.Timestamp = a.Timestamp ∧ b.Severity = a.Severity ∧
              b.Metadata = a.Metadata) ∧
            ((stored.map fun x => x.ID).Nodup → a ∉ events → b = a)) ∨
        (mapGet s.disk.cutShort path ≠ none ∧ fileEvents s1.disk path = none) := by
  obtain ⟨s1, U, hl, _, _, a3, _, a5, _, _, _, _⟩ := LoadEvents_spec env k s f hr.inv.noPending
  refine ⟨_, s1, hl, ?_⟩
  intro p stored hst
  rcases flushed_cases s.disk p (U p) with h1 | h1 | h1
  · left
    refine ⟨stored, ?_, rfl, ?_⟩
    · rw [a3 p, h1, hst]
    · intro i a b ha hb
      rw [ha] at hb
      cases hb
      exact ⟨⟨rfl, rfl, rfl, rfl, rfl, rfl, rfl, rfl⟩, fun _ _ => rfl⟩
  · left
    refine ⟨stored.map (markEvent (U p)), ?_, List.length_map _ _, ?_⟩
    · rw [a3 p, h1, hst]
      rfl
    · intro i a b ha hb
      rw [List.getElem?_map, ha, Option.map_some', Option.some.injEq] at hb
      subst hb
      refine ⟨markEvent_fields _ _, ?_⟩
      intro hnd hnot
      apply markEvent_of_none
      cases hg : mapGet (U p) a.ID with
      | none => rfl
      | some u =>
        exfalso
        apply hnot
        obtain ⟨hc, _, e, hpass, hid⟩ := a5 p a.ID u hg
        obtain ⟨stored1, hst1, hmem, _⟩ := (mem_passing _ _ _ _).1 hpass
        rw [hst] at hst1
        cases hst1
        have hea : e = a :=
          List.inj_on_of_nodup_map hnd hmem (List.getElem?_mem ha) hid
        rw [mem_sortSlice, List.mem_flatMap]
        exact ⟨p, hc, hea ▸ hpass⟩
  · right
    exact ⟨h1.1, by rw [a3 p, h1.2]⟩

/-- Witness of C9 (amended) -/
theorem LoadEvents_frame_witness :
    Reachable (demoStored 1000) ∧
    ∃ events s1,
      LoadEvents demoEnv 0 (demoStored 1000) ⟨0, 0, 3, "", "", "", false⟩ =
        Outcome.ok events s1 ∧
      ∀ path stored, fileEvents (demoStored 1000).disk path = some stored →
        (∃ after, fileEvents s1.disk path = some after ∧ after.length = stored.length ∧
          ∀ (i : Nat) (a b : EventEntry), stored[i]? = some a → after[i]? = some b →
            (b.ID = a.ID ∧ b.Source = a.Source ∧ b.Type_ = a.Type_ ∧ b.JobID = a.JobID ∧
              b.Message = a.Message ∧ b.Timestamp = a.Timestamp ∧ b.Severity = a.Severity ∧
              b.Metadata = a.Metadata) ∧
            ((stored.map fun x => x.ID).Nodup → a ∉ events → b = a)) ∨
        (mapGet (demoStored 1000).disk.cutShort path ≠ none ∧ fileEvents s1.disk path = none) :=
  ⟨Reachable.stored demoEnv 1 0 (demoOpened 1000) (demoEvent "a" 5 0) demoPath (demoStored 1000)
      (Reachable.opened demoEnv ⟨[], [], []⟩ "/data" 1000 (demoOpened 1000) rfl) rfl,
    LoadEvents_frame (demoStored 1000)
      (Reachable.stored demoEnv 1 0 (demoOpened 1000) (demoEvent "a" 5 0) demoPath
        (demoStored 1000)
        (Reachable.opened demoEnv ⟨[], [], []⟩ "/data" 1000 (demoOpened 1000) rfl) rfl)
      demoEnv 0 ⟨0, 0, 3, "", "", "", false⟩⟩

/-! ## The lock manager and the pending-update manager -/

theorem length_mapSet_of_none {β : Type} (m : List (String × β)) (k : String) (v : β)
    (h : mapGet m k = none) : (mapSet m k v).length = m.length + 1 := by
  induction m with
  | nil => rfl
  | cons a m ih =>
    obtain ⟨a1, a2⟩ := a
    by_cases h1 : a1 = k
    · simp [mapGet, h1] at h
    · simp only [mapGet, h1, if_false] at h
      simp [mapSet, h1, ih h]

theorem GetLock_get (m : FileLockManager) (p : String) :
    mapGet (GetLock m p).2.locks p = some (GetLock m p).1 := by
  unfold GetLock
  cases h : mapGet m.locks p with
  | none => exact mapGet_mapSet_same _ _ _
  | some i => exact h

theorem GetLock_keeps (m : FileLockManager) (p q : String) (i : Nat)
    (h : mapGet m.locks q = some i) : mapGet (GetLock m p).2.locks q = some i := by
  unfold GetLock
  cases hp : mapGet m.locks p with
  | some j => exact h
  | none =>
    have hne : p ≠ q := by
      intro e
      rw [e, h] at hp
      cases hp
    show mapGet (mapSet m.locks p m.locks.length) q = some i
    rw [mapGet_mapSet_other _ _ _ _ hne]
    exact h

theorem GetLock_wf (m : FileLockManager) (p : String) (h : LockWF m) :
    LockWF (GetLock m p).2 := by
  unfold GetLock
  cases hp : mapGet m.locks p with
  | some j => exact h
  | none =>
    have hget : ∀ q, mapGet (mapSet m.locks p m.locks.length) q =
        if p = q then some m.locks.length else mapGet m.locks q := by
      intro q
      by_cases hq : p = q
      · rw [if_pos hq, ← hq]
        exact mapGet_mapSet_same _ _ _
      · rw [if_neg hq]
        exact mapGet_mapSet_other _ _ _ _ hq
    have hlen := length_mapSet_of_none m.locks p m.locks.length hp
    refine ⟨?_, ?_⟩
    · intro a b i ha hb
      simp only [hget] at ha hb
      by_cases h1 : p = a
      · by_cases h2 : p = b
        · rw [← h1, ← h2]
        · rw [if_pos h1] at ha
          rw [if_neg h2] at hb
          cases ha
          exact absurd (h.2 b _ hb) (lt_irrefl _)
      · by_cases h2 : p = b
        · rw [if_neg h1] at ha
          rw [if_pos h2] at hb
          cases hb
          exact absurd (h.2 a _ ha) (lt_irrefl _)
        · rw [if_neg h1] at ha
          rw [if_neg h2] at hb
          exact h.1 a b i ha hb
    · intro a i ha
      simp only [hget] at ha
      show i < (mapSet m.locks p m.locks.length).length
      rw [hlen]
      by_cases h1 : p = a
      · rw [if_pos h1] at ha
        cases ha
        exact Nat.lt_succ_self _
      · rw [if_neg h1] at ha
        exact Nat.lt_succ_of_lt (h.2 a i ha)

theorem lockSeq_wf (m : FileLockManager) (paths : List String) (h : LockWF m) :
    LockWF (lockSeq m paths) := by
  induction paths generalizing m with
  | nil => exact h
  | cons p rest ih => exact ih _ (GetLock_wf m p h)

theorem lockSeq_keeps (m : FileLockManager) (paths : List String) (q : String) (i : Nat)
    (h : mapGet m.locks q = some i) : mapGet (lockSeq m paths).locks q = some i := by
  induction paths generalizing m with
  | nil => exact h
  | cons p rest ih => exact ih _ (GetLock_keeps m p q i h)

theorem GetLock_of_get (m : FileLockManager) (p : String) (i : Nat)
    (h : mapGet m.locks p = some i) : (GetLock m p).1 = i := by
  simp [GetLock, h]

/-- C15. `GetLock` is stable and path-scoped: in a manager built from
`NewFileLockManager` by `GetLock` calls, once `GetLock(p)` has returned a mutex, every
later `GetLock(p)`, whatever `GetLock` calls for other paths come in between, returns
that same mutex, and `GetLock(q)` for a different path `q` returns a different one.  (A
returned mutex is a value of the model, never nil.) -/
theorem GetLock_stable_and_scoped (before between : List String) (p q : String) :
    (GetLock (lockSeq (GetLock (lockSeq NewFileLockManager before) p).2 between) p).1 =
      (GetLock (lockSeq NewFileLockManager before) p).1 ∧
    (p ≠ q →
      (GetLock (lockSeq (GetLock (lockSeq NewFileLockManager before) p).2 between) q).1 ≠
        (GetLock (lockSeq NewFileLockManager before) p).1) := by
  have hwf0 : LockWF NewFileLockManager :=
    ⟨fun p q i h => (by cases h), fun p i h => (by cases h)⟩
  have hwf1 := lockSeq_wf _ before hwf0
  generalize lockSeq NewFileLockManager before = m at hwf1
  have hfirst := GetLock_get m p
  have hwf2 := GetLock_wf m p hwf1
  generalize GetLock m p = first at hfirst hwf2
  have hlater := lockSeq_keeps first.2 between p first.1 hfirst
  have hwf3 := lockSeq_wf _ between hwf2
  generalize lockSeq first.2 between = m1 at hlater hwf3
  refine ⟨GetLock_of_get m1 p _ hlater, ?_⟩
  intro hne heq
  have h1 := GetLock_get m1 q
  have h2 := GetLock_keeps m1 q p _ hlater
  rw [heq] at h1
  exact hne ((GetLock_wf m1 q hwf3).1 p q _ h2 h1)

/-- Witness of C15 -/
theorem GetLock_stable_and_scoped_witness :
    (GetLock (lockSeq (GetLock (lockSeq NewFileLockManager []) "/test/file.txt").2
        ["/test/file2.txt"]) "/test/file.txt").1 =
      (GetLock (lockSeq NewFileLockManager []) "/test/file.txt").1 ∧
    "/test/file.txt" ≠ "/test/file2.txt" ∧
    (GetLock (lockSeq (GetLock (lockSeq NewFileLockManager []) "/test/file.txt").2
        ["/test/file2.txt"]) "/test/file2.txt").1 ≠
      (GetLock (lockSeq NewFileLockManager []) "/test/file.txt").1 :=
  ⟨(GetLock_stable_and_scoped [] ["/test/file2.txt"] "/test/file.txt" "/test/file2.txt").1,
    by decide,
    (GetLock_stable_and_scoped [] ["/test/file2.txt"] "/test/file.txt" "/test/file2.txt").2
      (by decide)⟩

/-- C16. `AddUpdate` is last-write-wins per (file, id) and touches nothing else: after
`AddUpdate(f, id, u)` the pending update of `(f, id)` is `u`, whatever it was before,
and the pending update of every other (file, id) pair is what it was before the call. -/
theorem AddUpdate_last_write_wins (m : PendingUpdateManager) (f id : String)
    (u : EventUpdate) :
    mapGet (updatesFor (AddUpdate m f id u) f) id = some u ∧
    ∀ g id1, (g ≠ f ∨ id1 ≠ id) →
      mapGet (updatesFor (AddUpdate m f id u) g) id1 = mapGet (updatesFor m g) id1 := by
  refine ⟨?_, ?_⟩
  · rw [AddUpdate_get, if_pos ⟨rfl, rfl⟩]
  · intro g id1 h
    rw [AddUpdate_get, if_neg]
    rintro ⟨h1, h2⟩
    rcases h with h | h
    · exact h h1
    · exact h h2

/-- Witness of C16 -/
theorem AddUpdate_last_write_wins_witness :
    mapGet (updatesFor (AddUpdate ⟨[("f", [("a", ⟨false, 1⟩)])]⟩ "f" "a" ⟨true, 2⟩) "f") "a" =
      some ⟨true, 2⟩ ∧
    ("f" ≠ "f" ∨ "b" ≠ "a") ∧
    mapGet (updatesFor (AddUpdate ⟨[("f", [("a", ⟨false, 1⟩)])]⟩ "f" "a" ⟨true, 2⟩) "f") "b" =
      mapGet (updatesFor ⟨[("f", [("a", ⟨false, 1⟩)])]⟩ "f") "b" :=
  ⟨(AddUpdate_last_write_wins ⟨[("f", [("a", ⟨false, 1⟩)])]⟩ "f" "a" ⟨true, 2⟩).1,
    Or.inr (by decide),
    (AddUpdate_last_write_wins ⟨[("f", [("a", ⟨false, 1⟩)])]⟩ "f" "a" ⟨true, 2⟩).2 "f" "b"
      (Or.inr (by decide))⟩

/-! ## Faults during a query -/

/-- C11 (the code deviates). A store is opened on a directory holding a read-only event
file with one event.  `LoadEvents` returns that event; the flush step
`applySingleFileUpdates` fails to overwrite the file and returns an error, yet
`LoadEvents` returns a nil error, and the file is as before. -/
theorem LoadEvents_write_error_not_propagated :
    NewEventStorage demoEnv demoReadOnlyDisk "/data" 1000 = Outcome.ok () demoReadOnly ∧
    (applySingleFileUpdates demoEnv demoReadOnly demoOldPath [("a", ⟨true, 1001⟩)]).1 = true ∧
    ∃ s1,
      LoadEvents demoEnv 0 demoReadOnly ⟨0, 0, 0, "", "", "", false⟩ =
        Outcome.ok [demoEvent "a" 5 0] s1 ∧
      fileEvents s1.disk demoOldPath = some [demoEvent "a" 5 0] :=
  ⟨rfl, rfl, _, rfl, rfl⟩

/-- C12 (the code deviates). A store holds a read-only event file and a writable active
file, one event each.  `LoadEvents` returns both events; the flush of the read-only
file fails, the other file is still flushed (its event is marked processed), and
afterwards no pending update is left: the updates of the failed file are deleted with
the others, so a later flush has nothing to apply. -/
theorem failed_flush_updates_dropped :
    NewEventStorage demoEnv demoReadOnlyDisk "/data" 1000 = Outcome.ok () demoReadOnly ∧
    StoreEvent demoEnv 1 0 demoReadOnly (demoEvent "b" 6 1) =
      Outcome.ok demoPath demoReadOnlyStored ∧
    (applySingleFileUpdates demoEnv demoReadOnlyStored demoOldPath
      [("a", ⟨true, 1001⟩)]).1 = true ∧
    ∃ s1,
      LoadEvents demoEnv 0 demoReadOnlyStored ⟨0, 0, 0, "", "", "", false⟩ =
        Outcome.ok [demoEvent "b" 6 1, demoEvent "a" 5 0] s1 ∧
      fileEvents s1.disk demoPath =
        some [{ demoEvent "b" 6 1 with Processed := true, ProcessedAt := 1002 }] ∧
      fileEvents s1.disk demoOldPath = some [demoEvent "a" 5 0] ∧
      s1.pendingUpdates.updates = [] ∧
      (ApplyPendingUpdates demoEnv s1).2 = s1 :=
  ⟨rfl, rfl, rfl, _, rfl, rfl, rfl, rfl, rfl⟩

/-- C14 (the code deviates). `StoreEvent` on a store whose active file is larger
than `maxFileSize`: holding `currentMutex` it calls `rotateIfNeeded`, which locks
`currentMutex` a second time and waits forever; the call never returns. -/
theorem StoreEvent_relocks_currentMutex (env : Env) (fuel k : Nat) (s : EventStorage)
    (e : EventEntry) (data : FileData) (events : List EventEntry)
    (hr : readFile s.disk s.currentFile = some data) (he : data.events = some events)
    (hs : (data.size : Int) > s.maxFileSize) :
    rotateIfNeeded env (k + ensureTicks e) { s with currentMutex := true } = Outcome.blocked ∧
    StoreEvent env (fuel + 1) k s e = Outcome.blocked :=
  ⟨rotateIfNeeded_blocked _ _ _ rfl, StoreEvent_blocked_of_oversized env fuel k s e data events hr he hs⟩

/-- Witness of C14 -/
theorem StoreEvent_relocks_currentMutex_witness :
    readFile (demoStored 100).disk (demoStored 100).currentFile =
      some ⟨218, some [demoEvent "a" 5 0]⟩ ∧
    ((218 : Nat) : Int) > (demoStored 100).maxFileSize ∧
    rotateIfNeeded demoEnv (0 + ensureTicks (demoEvent "b" 6 1))
      { demoStored 100 with currentMutex := true } = Outcome.blocked ∧
    StoreEvent demoEnv (0 + 1) 0 (demoStored 100) (demoEvent "b" 6 1) = Outcome.blocked :=
  ⟨rfl, by decide,
    StoreEvent_relocks_currentMutex demoEnv 0 0 (demoStored 100) (demoEvent "b" 6 1)
      ⟨218, some [demoEvent "a" 5 0]⟩ [demoEvent "a" 5 0] rfl rfl (by decide)⟩

/-! ## Unreadable candidate files -/

theorem loadLoop_updates_other (env : Env) (q p : String) (f : EventFilter) (hq : q ≠ p)
    (events : List EventEntry) (s : EventStorage) (k : Nat) :
    mapGet (loadLoop env q f events s k).2.1.pendingUpdates.updates p =
      mapGet s.pendingUpdates.updates p := by
  induction events generalizing s k with
  | nil => rfl
  | cons e rest ih =>
    unfold loadLoop
    by_cases hs : skips f e = true
    · rw [if_pos hs]
      exact ih s k
    · rw [if_neg hs]
      dsimp only
      rw [ih]
      unfold MarkPendingProcessed
      dsimp only
      rw [AddUpdate_eq]
      exact mapGet_mapSet_other _ _ _ _ hq

theorem loadCandidates_updates_unreadable (env : Env) (f : EventFilter) (p : String)
    (cands : List String) (all : List EventEntry) (s : EventStorage) (k : Nat)
    (hu : fileEvents s.disk p = none) :
    mapGet (loadCandidates env f cands all s k).2.1.pendingUpdates.updates p =
      mapGet s.pendingUpdates.updates p := by
  induction cands generalizing all s k with
  | nil => rfl
  | cons q rest ih =>
    unfold loadCandidates
    rw [loadFile_eq]
    cases hq : fileEvents s.disk q with
    | none => exact ih all s k hu
    | some events =>
      have hne : q ≠ p := by
        intro h
        rw [h, hu] at hq
        cases hq
      have hd : (loadLoop env q f events s k).2.1.disk = s.disk := by
        rw [loadLoop_frame]
      dsimp only [Option.map]
      rw [ih _ _ _ (by rw [hd]; exact hu)]
      exact loadLoop_updates_other env q p f hne events s k

theorem applySingleFileUpdates_node_unreadable (env : Env) (s : EventStorage) (q p : String)
    (ups : List (String × EventUpdate)) (hu : fileEvents s.disk p = none) :
    mapGet (applySingleFileUpdates env s q ups).2.disk.nodes p = mapGet s.disk.nodes p := by
  rw [applySingleFileUpdates_snd]
  cases hq : fileEvents s.disk q with
  | none => rfl
  | some events =>
    have hne : q ≠ p := by
      intro h
      rw [h, hu] at hq
      cases hq
    dsimp only
    by_cases hb : (applyUpdates ups events).2 = true
    · rw [if_pos hb]
      cases hmi : MarshalIndent env (applyUpdates ups events).1 with
      | none => rfl
      | some newData =>
        dsimp only
        cases hw : writeFile s.disk q newData with
        | err d =>
          dsimp only
          exact mapGet_writeFile_err_other _ _ _ _ _ hw hne
        | ok d =>
          dsimp only
          rw [(indexFile_frame _ q).2.1]
          exact mapGet_writeFile_other _ _ _ _ _ hw hne
    · rw [if_neg hb]

theorem applyLoop_node_unreadable (env : Env) (p : String)
    (L : List (String × List (String × EventUpdate))) (s : EventStorage)
    (hu : fileEvents s.disk p = none) :
    mapGet (applyLoop env L s).disk.nodes p = mapGet s.disk.nodes p := by
  induction L generalizing s with
  | nil => rfl
  | cons kv rest ih =>
    obtain ⟨q, ups⟩ := kv
    unfold applyLoop
    by_cases hl : ups.length = 0
    · rw [if_pos hl]
      exact ih s hu
    · rw [if_neg hl]
      dsimp only
      have h1 := applySingleFileUpdates_node_unreadable env s q p ups hu
      rw [ih _ (by rw [← hu]; exact fileEvents_congr _ _ _ h1)]
      exact h1

theorem flatMap_passing_unreadable (d : Disk) (f : EventFilter) (p : String)
    (hu : fileEvents d p = none) (cands : List String) :
    cands.flatMap (passing d f) =
      (cands.filter fun c => decide (c ≠ p)).flatMap (passing d f) := by
  induction cands with
  | nil => rfl
  | cons c rest ih =>
    by_cases hc : c = p
    · have h0 : passing d f c = [] := by
        unfold passing
        rw [hc, hu]
      rw [List.flatMap_cons, h0, List.nil_append, ih, List.filter_cons_of_neg (by simp [hc])]
    · rw [List.filter_cons_of_pos (by simp [hc]), List.flatMap_cons, List.flatMap_cons, ih]

/-- C13. Per-file corruption does not fail a query: when a candidate file `p` cannot be
read or parsed, `LoadEvents` returns without error the sorted entries that pass the
filter in the other candidate files; the read phase leaves the pending updates of `p`
as they were, and the call leaves the contents of `p` as they were. -/
theorem LoadEvents_skips_unreadable (env : Env) (k : Nat) (s : EventStorage) (f0 : EventFilter)
    (p : String) (_hc : p ∈ getCandidateFiles s (effectiveFilter env k f0))
    (hu : fileEvents s.disk p = none) :
    ∃ s1,
      LoadEvents env k s f0 =
        Outcome.ok
          (sortSlice (fun a b => decide (a.Timestamp > b.Timestamp))
            (((getCandidateFiles s (effectiveFilter env k f0)).filter
              fun c => decide (c ≠ p)).flatMap (passing s.disk (effectiveFilter env k f0))))
          s1 ∧
      updatesFor (loadCandidates env (effectiveFilter env k f0)
          (getCandidateFiles s (effectiveFilter env k f0)) [] s
          (if f0.EndTime = 0 then k + 1 else k)).2.1.pendingUpdates p =
        updatesFor s.pendingUpdates p ∧
      mapGet s1.disk.nodes p = mapGet s.disk.nodes p := by
  refine ⟨(ApplyPendingUpdates env (loadCandidates env (effectiveFilter env k f0)
    (getCandidateFiles s (effectiveFilter env k f0)) [] s
    (if f0.EndTime = 0 then k + 1 else k)).2.1).2, ?_, ?_, ?_⟩
  · rw [LoadEvents_eq, flatMap_passing_unreadable s.disk _ p hu]
  · unfold updatesFor
    rw [loadCandidates_updates_unreadable env _ p _ _ s _ hu]
  · unfold ApplyPendingUpdates
    dsimp only
    have hd : (loadCandidates env (effectiveFilter env k f0)
        (getCandidateFiles s (effectiveFilter env k f0)) [] s
        (if f0.EndTime = 0 then k + 1 else k)).2.1.disk = s.disk := by
      rw [loadCandidates_frame]
    rw [applyLoop_node_unreadable env p _ _ (by rw [hd]; exact hu), hd]

/-- Witness of C13 -/
theorem LoadEvents_skips_unreadable_witness :
    demoPath ∈ getCandidateFiles demoCorrupt
      (effectiveFilter demoEnv 0 ⟨0, 0, 0, "", "", "", false⟩) ∧
    fileEvents demoCorrupt.disk demoPath = none ∧
    ∃ s1,
      LoadEvents demoEnv 0 demoCorrupt ⟨0, 0, 0, "", "", "", false⟩ =
        Outcome.ok
          (sortSlice (fun a b => decide (a.Timestamp > b.Timestamp))
            (((getCandidateFiles demoCorrupt
                (effectiveFilter demoEnv 0 ⟨0, 0, 0, "", "", "", false⟩)).filter
              fun c => decide (c ≠ demoPath)).flatMap
              (passing demoCorrupt.disk
                (effectiveFilter demoEnv 0 ⟨0, 0, 0, "", "", "", false⟩))))
          s1 ∧
      updatesFor (loadCandidates demoEnv (effectiveFilter demoEnv 0 ⟨0, 0, 0, "", "", "", false⟩)
          (getCandidateFiles demoCorrupt
            (effectiveFilter demoEnv 0 ⟨0, 0, 0, "", "", "", false⟩)) [] demoCorrupt
          (if (0 : Int) = 0 then 0 + 1 else 0)).2.1.pendingUpdates demoPath =
        updatesFor demoCorrupt.pendingUpdates demoPath ∧
      mapGet s1.disk.nodes demoPath = mapGet demoCorrupt.disk.nodes demoPath :=
  ⟨by decide, rfl,
    LoadEvents_skips_unreadable demoEnv 0 demoCorrupt ⟨0, 0, 0, "", "", "", false⟩ demoPath
      (by decide) rfl⟩

/-! ## Identifiers -/

theorem StoreEvent_ok_file (env : Env) (fuel k : Nat) (s : EventStorage) (e0 : EventEntry)
    (path : String) (s1 : EventStorage) (events : List EventEntry)
    (h : StoreEvent env fuel k s e0 = Outcome.ok path s1)
    (hf : fileEvents s.disk s.currentFile = some events) :
    s1.currentFile = s.currentFile ∧
    fileEvents s1.disk s1.currentFile = some (events ++ [ensureFields env k e0]) := by
  obtain ⟨_, _, data, events1, d, hr, he, _, hw, hs1⟩ := StoreEvent_ok_inv env fuel k s e0 path s1 h
  obtain ⟨data2, hr2, he2⟩ := fileEvents_eq_some _ _ _ hf
  rw [hr] at hr2
  cases hr2
  rw [he] at he2
  cases he2
  obtain ⟨idx1, hu, _⟩ := updateFileIndex_eq { s with disk := d } s.currentFile (ensureFields env k e0)
  rw [hu] at hs1
  subst hs1
  exact ⟨rfl, fileEvents_writeFile_same _ _ _ _ hw⟩

/-- Once the active file does not parse, every `StoreEvent` fails and changes nothing. -/
theorem storeSeq_unparsable (env : Env) (fuel : Nat) (evs : List EventEntry) :
    ∀ (k : Nat) (s s1 : EventStorage), fileEvents s.disk s.currentFile = none →
      storeSeq env fuel k s evs = some s1 → s1 = s := by
  induction evs with
  | nil =>
    intro k s s1 _ hs
    unfold storeSeq at hs
    cases hs
    rfl
  | cons e rest ih =>
    intro k s s1 hf hs
    unfold storeSeq at hs
    obtain ⟨o, ho⟩ : ∃ o, StoreEvent env fuel k s e = o := ⟨_, rfl⟩
    rw [ho] at hs
    cases o with
    | ok path s2 =>
      obtain ⟨_, _, data, events, d, hr, he, _⟩ := StoreEvent_ok_inv env fuel k s e path s2 ho
      simp [fileEvents, hr, he] at hf
    | fail s2 =>
      dsimp only at hs
      rcases (StoreEvent_fail_inv env fuel k s e s2 ho).2 with h2 | ⟨data, events, d, hr, he, _⟩
      · subst h2
        exact ih _ _ _ hf hs
      · simp [fileEvents, hr, he] at hf
    | blocked => cases hs
    | fuel => cases hs

theorem storeSeq_ids (env : Env) (hinj : Function.Injective env.uuid) (fuel : Nat)
    (base : List EventEntry) (evs : List EventEntry) (hid : ∀ e ∈ evs, e.ID = "") :
    ∀ (k : Nat) (s s1 : EventStorage) (acc : List EventEntry),
      fileEvents s.disk s.currentFile = some (base ++ acc) →
      (acc.map fun e => e.ID).Nodup → (∀ e ∈ acc, ∃ j, j < k ∧ e.ID = env.uuid j) →
      storeSeq env fuel k s evs = some s1 →
      ∃ acc1,
        (fileEvents s1.disk s1.currentFile = some (base ++ acc1) ∨
          (mapGet s.disk.cutShort s.currentFile ≠ none ∧
            fileEvents s1.disk s1.currentFile = none)) ∧
        (acc1.map fun e => e.ID).Nodup ∧ (∀ e ∈ acc1, ∃ j, e.ID = env.uuid j) ∧
        acc1.length ≤ acc.length + evs.length := by
  induction evs with
  | nil =>
    intro k s s1 acc hf hn hj hs
    unfold storeSeq at hs
    cases hs
    exact ⟨acc, Or.inl hf, hn, fun e he => (hj e he).imp fun _ h => h.2, Nat.le_refl _⟩
  | cons e rest ih =>
    intro k s s1 acc hf hn hj hs
    have hrest : ∀ x ∈ rest, x.ID = "" := fun x hx => hid x (List.mem_cons_of_mem _ hx)
    have he : e.ID = "" := hid e (List.mem_cons_self _ _)
    have hk : k < k + ensureTicks e := by
      unfold ensureTicks
      rw [if_pos he]
      omega
    have hj1 : ∀ x ∈ acc, ∃ j, j < k + ensureTicks e ∧ x.ID = env.uuid j := fun x hx =>
      (hj x hx).imp fun _ h => ⟨Nat.lt_trans h.1 hk, h.2⟩
    unfold storeSeq at hs
    obtain ⟨o, ho⟩ : ∃ o, StoreEvent env fuel k s e = o := ⟨_, rfl⟩
    rw [ho] at hs
    cases o with
    | ok path s2 =>
      dsimp only at hs
      obtain ⟨hc, hf2⟩ := StoreEvent_ok_file env fuel k s e path s2 _ ho hf
      have hcs : s2.disk.cutShort = s.disk.cutShort := by
        obtain ⟨_, _, data, events, d, _, _, _, hw, hs2⟩ :=
          StoreEvent_ok_inv env fuel k s e path s2 ho
        obtain ⟨idx1, hu, _⟩ :=
          updateFileIndex_eq { s with disk := d } s.currentFile (ensureFields env k e)
        rw [hu] at hs2
        rw [hs2]
        exact cutShort_writeFile _ _ _ _ hw
      have hidk : (ensureFields env k e).ID = env.uuid k := (ensureFields_spec env k e).1 he
      rw [List.append_assoc] at hf2
      obtain ⟨acc1, h1, h2, h3, h4⟩ := ih hrest (k + ensureTicks e) s2 s1
        (acc ++ [ensureFields env k e]) hf2
        (by
          rw [List.map_append, List.nodup_append]
          refine ⟨hn, List.nodup_singleton _, ?_⟩
          intro a ha hb
          rw [List.map_cons, List.map_nil, List.mem_singleton] at hb
          obtain ⟨x, hx, hxa⟩ := List.mem_map.1 ha
          obtain ⟨j, hjk, hxj⟩ := hj x hx
          have : env.uuid j = env.uuid k := by rw [← hxj, hxa, hb, hidk]
          have := hinj this
          omega)
        (by
          intro x hx
          rcases List.mem_append.1 hx with hx | hx
          · exact hj1 x hx
          · rw [List.mem_singleton] at hx
            exact ⟨k, hk, by rw [hx, hidk]⟩)
        hs
      rw [hcs, hc] at h1
      refine ⟨acc1, h1, h2, h3, ?_⟩
      rw [List.length_append, List.length_singleton] at h4
      rw [List.length_cons]
      omega
    | fail s2 =>
      dsimp only at hs
      rcases (StoreEvent_fail_inv env fuel k s e s2 ho).2 with h2 | ⟨data, events, d, hr, _, hw, h2⟩
      · subst h2
        obtain ⟨acc1, h1, h2, h3, h4⟩ := ih hrest (k + ensureTicks e) s2 s1 acc hf hn hj1 hs
        refine ⟨acc1, h1, h2, h3, ?_⟩
        rw [List.length_cons]
        omega
      · rcases fileEvents_writeFile_err_same _ _ _ _ hw with h5 | ⟨h5, h6⟩
        · have hf2 : fileEvents s2.disk s2.currentFile = some (base ++ acc) := by
            rw [h2]
            exact h5.trans hf
          have hcs : s2.disk.cutShort = s.disk.cutShort := by
            rw [h2]
            exact cutShort_writeFile_err _ _ _ _ hw
          have hc : s2.currentFile = s.currentFile := by rw [h2]
          obtain ⟨acc1, h1, h3, h4, h7⟩ := ih hrest (k + ensureTicks e) s2 s1 acc hf2 hn hj1 hs
          rw [hcs, hc] at h1
          refine ⟨acc1, h1, h3, h4, ?_⟩
          rw [List.length_cons]
          omega
        · have hf2 : fileEvents s2.disk s2.currentFile = none := by
            rw [h2]
            exact h6
          have := storeSeq_unparsable env fuel rest _ s2 s1 hf2 hs
          subst this
          refine ⟨acc, Or.inr ⟨h5, hf2⟩, hn, fun x hx => (hj x hx).imp fun _ h => h.2, ?_⟩
          rw [List.length_cons]
          omega
    | blocked => cases hs
    | fuel => cases hs

/-- C18. Uniqueness of identifiers: when `uuid.New` never repeats a value, after any
sequence of returning `StoreEvent` calls whose entries carry no id, the active file holds
what it held before followed by the stored entries, and the ids of the stored entries are
pairwise distinct values of `uuid.New`.  (Where a write to the active file is cut short,
the file no longer parses and holds no entry.) -/
theorem stored_ids_distinct (env : Env) (hinj : Function.Injective env.uuid) (fuel k : Nat)
    (s s1 : EventStorage) (old evs : List EventEntry)
    (hold : fileEvents s.disk s.currentFile = some old)
    (hid : ∀ e ∈ evs, e.ID = "")
    (hs : storeSeq env fuel k s evs = some s1) :
    ∃ stored,
      (fileEvents s1.disk s1.currentFile = some (old ++ stored) ∨
        (mapGet s.disk.cutShort s.currentFile ≠ none ∧
          fileEvents s1.disk s1.currentFile = none)) ∧
      (stored.map fun e => e.ID).Nodup ∧ (∀ e ∈ stored, ∃ j, e.ID = env.uuid j) ∧
      stored.length ≤ evs.length := by
  obtain ⟨acc1, h1, h2, h3, h4⟩ := storeSeq_ids env hinj fuel old evs hid k s s1 []
    (by rw [List.append_nil]; exact hold) List.nodup_nil (fun e he => by cases he) hs
  exact ⟨acc1, h1, h2, h3, by simpa using h4⟩

/-- Witness of C18 -/
theorem stored_ids_distinct_witness :
    Function.Injective seqEnv.uuid ∧
    fileEvents (demoOpened 1000).disk (demoOpened 1000).currentFile = some [] ∧
    (∀ e ∈ [demoEvent "" 5 0, demoEvent "" 6 1], e.ID = "") ∧
    storeSeq seqEnv 1 2 (demoOpened 1000) [demoEvent "" 5 0, demoEvent "" 6 1] =
      some demoSeqStored ∧
    ∃ stored,
      (fileEvents demoSeqStored.disk demoSeqStored.currentFile = some ([] ++ stored) ∨
        (mapGet (demoOpened 1000).disk.cutShort (demoOpened 1000).currentFile ≠ none ∧
          fileEvents demoSeqStored.disk demoSeqStored.currentFile = none)) ∧
      (stored.map fun e => e.ID).Nodup ∧ (∀ e ∈ stored, ∃ j, e.ID = seqEnv.uuid j) ∧
      stored.length ≤ [demoEvent "" 5 0, demoEvent "" 6 1].length :=
  have hinj : Function.Injective seqEnv.uuid := fun a b h => by
    have h1 := congrArg (fun x => x.data.length) h
    simpa [seqEnv] using h1
  have hid : ∀ e ∈ [demoEvent "" 5 0, demoEvent "" 6 1], e.ID = "" := fun e he => by
    simp only [List.mem_cons, List.mem_singleton, List.not_mem_nil, or_false] at he
    rcases he with h | h <;> rw [h] <;> rfl
  ⟨hinj, rfl, hid, rfl,
    stored_ids_distinct seqEnv hinj 1 2 (demoOpened 1000) demoSeqStored []
      [demoEvent "" 5 0, demoEvent "" 6 1] rfl hid rfl⟩

/-! ## The scenario of three events -/

theorem StoreEvent_ok_single (env : Env) (fuel k : Nat) (s : EventStorage) (e0 : EventEntry)
    (path : String) (s1 : EventStorage) (events : List EventEntry)
    (h : StoreEvent env fuel k s e0 = Outcome.ok path s1)
    (hf : fileEvents s.disk s.currentFile = some events)
    (hix : s.fileIndexes = [] ∨ ∃ idx, s.fileIndexes = [(s.currentFile, idx)]) :
    s1.currentFile = s.currentFile ∧
    fileEvents s1.disk s1.currentFile = some (events ++ [ensureFields env k e0]) ∧
    ∃ idx1, s1.fileIndexes = [(s1.currentFile, idx1)] ∧ Covers idx1 [ensureFields env k e0] := by
  obtain ⟨_, _, data, events1, d, hr, he, _, hw, hs1⟩ := StoreEvent_ok_inv env fuel k s e0 path s1 h
  obtain ⟨data2, hr2, he2⟩ := fileEvents_eq_some _ _ _ hf
  rw [hr] at hr2
  cases hr2
  rw [he] at he2
  cases he2
  obtain ⟨idx1, hu, hc, _⟩ :=
    updateFileIndex_eq { s with disk := d } s.currentFile (ensureFields env k e0)
  rw [hu] at hs1
  subst hs1
  refine ⟨rfl, fileEvents_writeFile_same _ _ _ _ hw, idx1, ?_, hc⟩
  rcases hix with h0 | ⟨idx, h0⟩
  · dsimp only
    rw [h0]
    rfl
  · dsimp only
    rw [h0]
    simp [mapSet]

/-- C19 (as amended). End-to-end scenario: a store is opened on an empty directory and three
events with severities 0, 1, 2 and timestamps `t`, `t + 1`, `t + 2` are stored, where
`0 ≤ t` and `t + 2` is not after the time of the query; then `LoadEvents` with
`MinSeverity` 1 and no other restriction returns exactly the last two events as stored,
the one with timestamp `t + 2` first. -/
theorem scenario_three_events (env : Env) (d : Disk) (baseDir : String) (maxFileSize : Int)
    (s0 s1 s2 s3 : EventStorage) (p1 p2 p3 : String) (fuel k1 k2 k3 k : Nat)
    (e1 e2 e3 : EventEntry) (t : Int)
    (hopen : NewEventStorage env d baseDir maxFileSize = Outcome.ok () s0)
    (hempty : ∀ pn ∈ d.nodes, childName? s0.baseDir pn.1 = none)
    (h1 : StoreEvent env fuel k1 s0 e1 = Outcome.ok p1 s1)
    (h2 : StoreEvent env fuel k2 s1 e2 = Outcome.ok p2 s2)
    (h3 : StoreEvent env fuel k3 s2 e3 = Outcome.ok p3 s3)
    (hsev : e1.Severity = 0 ∧ e2.Severity = 1 ∧ e3.Severity = 2)
    (hts : e1.Timestamp = t ∧ e2.Timestamp = t + 1 ∧ e3.Timestamp = t + 2)
    (ht0 : 0 ≤ t) (htn : t + 2 ≤ env.now k) :
    ∃ s4, LoadEvents env k s3 ⟨0, 0, 1, "", "", "", false⟩ =
        Outcome.ok [ensureFields env k3 e3, ensureFields env k2 e2] s4 ∧
      (ensureFields env k3 e3).Timestamp = t + 2 ∧ (ensureFields env k2 e2).Timestamp = t + 1 := by
  obtain ⟨hix0, hf0, _, _, _⟩ := NewEventStorage_emptyDir env d baseDir maxFileSize s0 hopen hempty
  obtain ⟨hc1, hf1, idx1, hix1, _⟩ :=
    StoreEvent_ok_single env fuel k1 s0 e1 p1 s1 [] h1 hf0 (Or.inl hix0)
  obtain ⟨hc2, hf2, idx2, hix2, _⟩ :=
    StoreEvent_ok_single env fuel k2 s1 e2 p2 s2 _ h2 hf1 (Or.inr ⟨idx1, hix1⟩)
  obtain ⟨hc3, hf3, idx3, hix3, hcov⟩ :=
    StoreEvent_ok_single env fuel k3 s2 e3 p3 s3 _ h3 hf2 (Or.inr ⟨idx2, hix2⟩)
  have hsv1 : (ensureFields env k1 e1).Severity = 0 := by
    rw [(ensureFields_spec env k1 e1).2.2.2.2.2.2.2.2.2.1, hsev.1]
  have hsv2 : (ensureFields env k2 e2).Severity = 1 := by
    rw [(ensureFields_spec env k2 e2).2.2.2.2.2.2.2.2.2.1, hsev.2.1]
  have hsv3 : (ensureFields env k3 e3).Severity = 2 := by
    rw [(ensureFields_spec env k3 e3).2.2.2.2.2.2.2.2.2.1, hsev.2.2]
  have hts2 : (ensureFields env k2 e2).Timestamp = t + 1 := by
    rw [(ensureFields_spec env k2 e2).2.2.2.1 (by rw [hts.2.1]; omega), hts.2.1]
  have hts3 : (ensureFields env k3 e3).Timestamp = t + 2 := by
    rw [(ensureFields_spec env k3 e3).2.2.2.1 (by rw [hts.2.2]; omega), hts.2.2]
  have hf : effectiveFilter env k ⟨0, 0, 1, "", "", "", false⟩ =
      ⟨0, env.now k, 1, "", "", "", false⟩ := by
    rw [effectiveFilter_eq]
    rfl
  have hm2 : skips ⟨0, env.now k, 1, "", "", "", false⟩ (ensureFields env k2 e2) = false := by
    rw [skips_eq_false_iff]
    refine ⟨⟨?_, ?_⟩, ?_, Or.inl rfl, Or.inl rfl, Or.inl rfl, Or.inl rfl⟩
    · rw [hts2]
      show (0 : Int) ≤ t + 1
      omega
    · rw [hts2]
      show t + 1 ≤ env.now k
      omega
    · rw [hsv2]
  have hm3 : Matches ⟨0, env.now k, 1, "", "", "", false⟩ (ensureFields env k3 e3) := by
    refine ⟨⟨?_, ?_⟩, ?_, Or.inl rfl, Or.inl rfl, Or.inl rfl, Or.inl rfl⟩
    · rw [hts3]
      show (0 : Int) ≤ t + 2
      omega
    · rw [hts3]
      exact htn
    · rw [hsv3]
      show (2 : Int) ≥ 1
      omega
  have hs1 : skips ⟨0, env.now k, 1, "", "", "", false⟩ (ensureFields env k1 e1) = true := by
    unfold skips
    rw [hsv1]
    simp
  have hcand := (getCandidateFiles_single s3 ⟨0, env.now k, 1, "", "", "", false⟩ _ idx3 hix3).1
    (admits_of_covers _ idx3 _ _ hcov (List.mem_singleton_self _) hm3)
  have hlt : ¬ (ensureFields env k2 e2).Timestamp > (ensureFields env k3 e3).Timestamp := by
    rw [hts2, hts3]
    omega
  have hev : sortSlice (fun a b => decide (a.Timestamp > b.Timestamp))
      ((getCandidateFiles s3 (effectiveFilter env k ⟨0, 0, 1, "", "", "", false⟩)).flatMap
        (passing s3.disk (effectiveFilter env k ⟨0, 0, 1, "", "", "", false⟩))) =
      [ensureFields env k3 e3, ensureFields env k2 e2] := by
    rw [hf, hcand, List.flatMap_cons, List.flatMap_nil, List.append_nil]
    unfold passing
    rw [hf3]
    dsimp only
    have hm3s := (skips_eq_false_iff _ _).2 hm3
    simp [List.filter_cons, hs1, hm2, hm3s, sortSlice, insertBy, hlt]
  exact ⟨_, by rw [LoadEvents_eq, hev], hts3, hts2⟩

/-- Witness of C19 -/
theorem scenario_three_events_witness :
    ∃ s1 s2 s3,
      NewEventStorage demoEnv ⟨[], [], []⟩ "/data" 1000 = Outcome.ok () (demoOpened 1000) ∧
      (∀ pn ∈ (⟨[], [], []⟩ : Disk).nodes, childName? (demoOpened 1000).baseDir pn.1 = none) ∧
      StoreEvent demoEnv 1 1 (demoOpened 1000) (demoEvent "a" 5 0) = Outcome.ok demoPath s1 ∧
      StoreEvent demoEnv 1 1 s1 (demoEvent "b" 6 1) = Outcome.ok demoPath s2 ∧
      StoreEvent demoEnv 1 1 s2 (demoEvent "c" 7 2) = Outcome.ok demoPath s3 ∧
      (0 : Int) ≤ 5 ∧ (5 : Int) + 2 ≤ demoEnv.now 2 ∧
      ∃ s4, LoadEvents demoEnv 2 s3 ⟨0, 0, 1, "", "", "", false⟩ =
          Outcome.ok [ensureFields demoEnv 1 (demoEvent "c" 7 2),
            ensureFields demoEnv 1 (demoEvent "b" 6 1)] s4 ∧
        (ensureFields demoEnv 1 (demoEvent "c" 7 2)).Timestamp = 5 + 2 ∧
        (ensureFields demoEnv 1 (demoEvent "b" 6 1)).Timestamp = 5 + 1 :=
  ⟨_, _, _, rfl, (fun _ h => by cases h), rfl, rfl, rfl, by decide, by decide,
    scenario_three_events demoEnv ⟨[], [], []⟩ "/data" 1000 (demoOpened 1000) _ _ _
      demoPath demoPath demoPath 1 1 1 1 2 (demoEvent "a" 5 0) (demoEvent "b" 6 1)
      (demoEvent "c" 7 2) 5 rfl (fun _ h => by cases h) rfl rfl rfl ⟨rfl, rfl, rfl⟩
      ⟨rfl, rfl, rfl⟩ (by decide) (by decide)⟩

/-- Counterexample to C19 as stated: with `t = -5` the three events are stored, and
`LoadEvents` with `MinSeverity` 1 returns no event. -/
theorem scenario_three_events_counterexample :
    ∃ s1 s2 s3 s4,
      NewEventStorage demoEnv ⟨[], [], []⟩ "/data" 1000 = Outcome.ok () (demoOpened 1000) ∧
      StoreEvent demoEnv 1 1 (demoOpened 1000) (demoEvent "a" (-5) 0) = Outcome.ok demoPath s1 ∧
      StoreEvent demoEnv 1 1 s1 (demoEvent "b" (-5 + 1) 1) = Outcome.ok demoPath s2 ∧
      StoreEvent demoEnv 1 1 s2 (demoEvent "c" (-5 + 2) 2) = Outcome.ok demoPath s3 ∧
      LoadEvents demoEnv 2 s3 ⟨0, 0, 1, "", "", "", false⟩ = Outcome.ok [] s4 ∧
      fileEvents s3.disk demoPath =
        some [demoEvent "a" (-5) 0, demoEvent "b" (-5 + 1) 1, demoEvent "c" (-5 + 2) 2] :=
  ⟨_, _, _, _, rfl, rfl, rfl, rfl, rfl, rfl⟩

/-! ## The start-up scan -/

theorem indexFile_isSome (s : EventStorage) (q p : String) :
    (mapGet (indexFile s q).2.fileIndexes p).isSome = true ↔
      (mapGet s.fileIndexes p).isSome = true ∨
        (p = q ∧ ∃ first rest, fileEvents s.disk q = some (first :: rest)) := by
  rw [indexFile_snd]
  obtain ⟨o, ho⟩ : ∃ o, fileEvents s.disk q = o := ⟨_, rfl⟩
  rw [ho]
  cases o with
  | none => simp
  | some events =>
    cases events with
    | nil => simp
    | cons first rest =>
      dsimp only
      by_cases hp : p = q
      · rw [hp, mapGet_mapSet_same]
        simp
      · rw [mapGet_mapSet_other _ _ _ _ (fun h => hp h.symm)]
        simp [hp]

theorem indexDir_isSome (files : List DirEntry) (s : EventStorage) (p : String) :
    (mapGet (indexDir files s).fileIndexes p).isSome = true ↔
      (mapGet s.fileIndexes p).isSome = true ∨
        ∃ file ∈ files, file.isDir = false ∧ Ext file.name = ".json" ∧
          Contains file.name s.filePrefix = true ∧ joinPath s.baseDir file.name = p ∧
          ∃ first rest, fileEvents s.disk p = some (first :: rest) := by
  induction files generalizing s with
  | nil => simp [indexDir]
  | cons file rest ih =>
    unfold indexDir
    by_cases hsel : (file.isDir || decide (Ext file.name ≠ ".json") ||
        !Contains file.name s.filePrefix) = true
    · rw [if_pos hsel, ih]
      refine or_congr_right ⟨?_, ?_⟩
      · rintro ⟨f, hf, h⟩
        exact ⟨f, List.mem_cons_of_mem _ hf, h⟩
      · rintro ⟨f, hf, h1, h2, h3, h⟩
        rcases List.mem_cons.1 hf with hf | hf
        · subst hf
          simp [h1, h2, h3] at hsel
        · exact ⟨f, hf, h1, h2, h3, h⟩
    · rw [if_neg hsel, ih, indexFile_isSome]
      obtain ⟨hc, hd, _⟩ := indexFile_frame s (joinPath s.baseDir file.name)
      rw [hc.1, hc.2.1, hd]
      simp only [Bool.or_eq_true, decide_eq_true_eq, Bool.not_eq_true', not_or, Bool.not_eq_true,
        ne_eq, not_not, Bool.not_eq_false] at hsel
      constructor
      · rintro ((h | ⟨hp, first, rest1, hfe⟩) | ⟨f, hf, h⟩)
        · exact Or.inl h
        · exact Or.inr ⟨file, List.mem_cons_self _ _, hsel.1.1, hsel.1.2, hsel.2, hp.symm,
            first, rest1, by rw [hp]; exact hfe⟩
        · exact Or.inr ⟨f, List.mem_cons_of_mem _ hf, h⟩
      · rintro (h | ⟨f, hf, h1, h2, h3, h4, h5⟩)
        · exact Or.inl (Or.inl h)
        · rcases List.mem_cons.1 hf with hf | hf
          · subst hf
            obtain ⟨first, rest1, hfe⟩ := h5
            exact Or.inl (Or.inr ⟨h4.symm, first, rest1, by rw [h4]; exact hfe⟩)
          · exact Or.inr ⟨f, hf, h1, h2, h3, h4, h5⟩

theorem joinPath_injective (baseDir n1 n2 : String) (h : joinPath baseDir n1 = joinPath baseDir n2) :
    n1 = n2 := by
  unfold joinPath at h
  have h1 := congrArg String.data h
  rw [String.data_append, String.data_append] at h1
  exact String.ext (List.append_cancel_left h1)

theorem rotateIfNeeded_congr (env : Env) (k : Nat) (s s1 : EventStorage) (hc : SameConfig s s1)
    (hd : s1.disk = s.disk) :
    (∃ r, rotateIfNeeded env k s1 = Outcome.ok () r) ↔
      ∃ r, rotateIfNeeded env k s = Outcome.ok () r := by
  unfold rotateIfNeeded
  rw [hc.1, hc.2.1, hc.2.2.2.2.1, hd]
  by_cases hm : s.currentMutex = true
  · rw [if_pos hm, if_pos hm]
  · rw [if_neg hm, if_neg hm]
    dsimp only
    cases initFile s.disk (joinPath s.baseDir (s.filePrefix ++ env.date k ++ "_" ++
      String.mk ((env.uuid (k + 1)).data.take 8) ++ ".json")) with
    | err d => simp
    | ok d => simp

/-- C17 (as amended). Start-up indexing: after `initializeStorage` on a store without
index entries, a directory entry of `baseDir` whose name begins with the node's prefix
has a `FileIndex` if and only if it is a regular file with the extension `.json` that
parses as an event file and holds at least one event; every `FileIndex` belongs to a
regular file that parses and holds at least one event; and initialization succeeds
exactly when the directory can be listed and the new active file created, so a file
that fails to parse is skipped without failing it. -/
theorem initializeStorage_selects (env : Env) (k : Nat) (st s : EventStorage)
    (h0 : st.fileIndexes = [])
    (h : initializeStorage env k st = Outcome.ok () s) :
    (∀ p name, childName? st.baseDir p = some name → st.filePrefix.data <+: name.data →
      ((mapGet s.fileIndexes p).isSome = true ↔
        Ext name = ".json" ∧ ∃ first rest, fileEvents st.disk p = some (first :: rest))) ∧
    (∀ p, (mapGet s.fileIndexes p).isSome = true →
      ∃ first rest, fileEvents st.disk p = some (first :: rest)) ∧
    ∀ st1 : EventStorage,
      ((∃ r, initializeStorage env k st1 = Outcome.ok () r) ↔
        (readDir st1.disk st1.baseDir).isSome = true ∧
          ∃ r, rotateIfNeeded env k st1 = Outcome.ok () r) := by
  obtain ⟨files, d1, hrd, _, hs⟩ := initializeStorage_ok_inv env k st s h
  have hix : s.fileIndexes = (indexDir files st).fileIndexes := by
    rw [hs]
  have hst : ∀ p, ¬ (mapGet st.fileIndexes p).isSome = true := by
    intro p
    rw [h0]
    simp [mapGet]
  refine ⟨?_, ?_, ?_⟩
  · intro p name hc hpre
    rw [hix, indexDir_isSome]
    constructor
    · rintro (h1 | ⟨f, _, _, h2, _, h4, h5⟩)
      · exact absurd h1 (hst p)
      · have hj := childName?_join _ _ _ hc
        have : f.name = name := joinPath_injective st.baseDir _ _ (h4.trans hj.symm)
        rw [← this]
        exact ⟨h2, h5⟩
    · rintro ⟨hext, first, rest, hfe⟩
      obtain ⟨data, hr, _⟩ := fileEvents_eq_some _ _ _ hfe
      have hg : mapGet st.disk.nodes p = some (Node.file data) := by
        unfold readFile at hr
        split at hr
        · rename_i data1 hg
          cases hr
          exact hg
        · cases hr
      refine Or.inr ⟨⟨name, false⟩, mem_readDir _ _ _ _ _ data hrd hg hc, rfl, hext, ?_,
        childName?_join _ _ _ hc, first, rest, hfe⟩
      unfold Contains
      exact decide_eq_true hpre.isInfix
  · intro p hp
    rw [hix, indexDir_isSome] at hp
    rcases hp with h1 | ⟨f, _, _, _, _, _, h5⟩
    · exact absurd h1 (hst p)
    · exact h5
  · intro st1
    unfold initializeStorage
    cases hr1 : readDir st1.disk st1.baseDir with
    | none => simp
    | some files1 =>
      obtain ⟨hc, hd, _⟩ := indexDir_spec files1 st1
      dsimp only
      rw [rotateIfNeeded_congr env k st1 _ hc hd]
      simp

/-- Witness of C17 -/
theorem initializeStorage_selects_witness :
    ∃ s, demoScanStart.fileIndexes = [] ∧
      initializeStorage demoEnv 0 demoScanStart = Outcome.ok () s ∧
      (∀ p name, childName? demoScanStart.baseDir p = some name →
        demoScanStart.filePrefix.data <+: name.data →
        ((mapGet s.fileIndexes p).isSome = true ↔
          Ext name = ".json" ∧
            ∃ first rest, fileEvents demoScanStart.disk p = some (first :: rest))) ∧
      (∀ p, (mapGet s.fileIndexes p).isSome = true →
        ∃ first rest, fileEvents demoScanStart.disk p = some (first :: rest)) ∧
      ∀ st1 : EventStorage,
        ((∃ r, initializeStorage demoEnv 0 st1 = Outcome.ok () r) ↔
          (readDir st1.disk st1.baseDir).isSome = true ∧
            ∃ r, rotateIfNeeded demoEnv 0 st1 = Outcome.ok () r) :=
  ⟨_, rfl, rfl, initializeStorage_selects demoEnv 0 demoScanStart _ rfl rfl⟩

/-- Counterexample to C17 as stated: `NewEventStorage` on a directory that holds the
regular file `rank0_events_empty.json`, which begins with the prefix and parses (to no
events), and the file `xrank0_events_old.json`, which does not begin with the prefix:
the first gets no `FileIndex`, the second gets one, and the file that does not parse
gets none. -/
theorem initializeStorage_selects_counterexample :
    ∃ s, NewEventStorage demoEnv demoScanDisk "/data" 1000 = Outcome.ok () s ∧
      s.filePrefix = "rank0_events_" ∧
      childName? s.baseDir "/data/rank0_events_empty.json" = some "rank0_events_empty.json" ∧
      s.filePrefix.data <+: "rank0_events_empty.json".data ∧
      Ext "rank0_events_empty.json" = ".json" ∧
      fileEvents demoScanDisk "/data/rank0_events_empty.json" = some [] ∧
      mapGet s.fileIndexes "/data/rank0_events_empty.json" = none ∧
      childName? s.baseDir "/data/xrank0_events_old.json" = some "xrank0_events_old.json" ∧
      ¬ s.filePrefix.data <+: "xrank0_events_old.json".data ∧
      mapGet s.fileIndexes "/data/xrank0_events_old.json" =
        some ⟨"/data/xrank0_events_old.json", 6, 6, 1, ["alert"], false⟩ ∧
      mapGet s.fileIndexes "/data/rank0_events_bad.json" = none :=
  ⟨_, rfl, rfl, rfl, by decide, rfl, rfl, rfl, rfl, by decide, rfl, rfl⟩

/-! ## Candidate selection -/

theorem filterMap_sublist_keys {β : Type} (g : String × β → Option String)
    (hg : ∀ x, g x = none ∨ g x = some x.1) (l : List (String × β)) :
    (l.filterMap g).Sublist (l.map Prod.fst) := by
  induction l with
  | nil => exact List.Sublist.slnil
  | cons a l ih =>
    rcases hg a with h | h
    · rw [List.filterMap_cons_none h, List.map_cons]
      exact List.Sublist.cons _ ih
    · rw [List.filterMap_cons_some h, List.map_cons]
      exact List.Sublist.cons₂ _ ih

theorem getCandidateFiles_sublist (s : EventStorage) (f : EventFilter) :
    (getCandidateFiles s f).Sublist (s.fileIndexes.map Prod.fst) := by
  unfold getCandidateFiles
  apply filterMap_sublist_keys
  intro x
  dsimp only
  repeat' split
  all_goals first | exact Or.inl rfl | exact Or.inr rfl

/-- C23. Candidate selection is exactly the four-part index test: for an index map (a Go
map: each path is a key once) and a filter `f`, `getCandidateFiles` returns a path if
and only if it is indexed and its summary satisfies `MaxTime ≥ f.StartTime`,
`MinTime ≤ f.EndTime`, `MaxSeverity ≥ f.MinSeverity`, (`f.Type = ""` or `f.Type` is in
`EventTypes`) and not (`f.Unprocessed` and `AllProcessed`); no path is returned twice. -/
theorem getCandidateFiles_exact (s : EventStorage) (f : EventFilter)
    (hn : (s.fileIndexes.map Prod.fst).Nodup) :
    (∀ p, p ∈ getCandidateFiles s f ↔
      ∃ idx, mapGet s.fileIndexes p = some idx ∧
        idx.MaxTime ≥ f.StartTime ∧ idx.MinTime ≤ f.EndTime ∧
        idx.MaxSeverity ≥ f.MinSeverity ∧ (f.Type_ = "" ∨ f.Type_ ∈ idx.EventTypes) ∧
        ¬ (f.Unprocessed = true ∧ idx.AllProcessed = true)) ∧
    (getCandidateFiles s f).Nodup := by
  refine ⟨fun p => ?_, (getCandidateFiles_sublist s f).nodup hn⟩
  rw [mem_getCandidateFiles]
  constructor
  · rintro ⟨idx, hmem, ha⟩
    exact ⟨idx, mapGet_of_mem _ _ _ hn hmem, ha⟩
  · rintro ⟨idx, hg, ha⟩
    exact ⟨idx, mem_of_mapGet _ _ _ hg, ha⟩

/-- Witness of C23 -/
theorem getCandidateFiles_exact_witness :
    ((demoStored 1000).fileIndexes.map Prod.fst).Nodup ∧
    getCandidateFiles (demoStored 1000) ⟨0, 10, 0, "", "", "", false⟩ = [demoPath] ∧
    (∀ p, p ∈ getCandidateFiles (demoStored 1000) ⟨0, 10, 0, "", "", "", false⟩ ↔
      ∃ idx, mapGet (demoStored 1000).fileIndexes p = some idx ∧
        idx.MaxTime ≥ (⟨0, 10, 0, "", "", "", false⟩ : EventFilter).StartTime ∧
        idx.MinTime ≤ (⟨0, 10, 0, "", "", "", false⟩ : EventFilter).EndTime ∧
        idx.MaxSeverity ≥ (⟨0, 10, 0, "", "", "", false⟩ : EventFilter).MinSeverity ∧
        ((⟨0, 10, 0, "", "", "", false⟩ : EventFilter).Type_ = "" ∨
          (⟨0, 10, 0, "", "", "", false⟩ : EventFilter).Type_ ∈ idx.EventTypes) ∧
        ¬ ((⟨0, 10, 0, "", "", "", false⟩ : EventFilter).Unprocessed = true ∧
          idx.AllProcessed = true)) ∧
    (getCandidateFiles (demoStored 1000) ⟨0, 10, 0, "", "", "", false⟩).Nodup :=
  ⟨by decide, rfl,
    getCandidateFiles_exact (demoStored 1000) ⟨0, 10, 0, "", "", "", false⟩ (by decide)⟩

/-! ## The index after an append -/

theorem updateFileIndex_get (s : EventStorage) (p : String) (ev : EventEntry) :
    (∀ old, mapGet s.fileIndexes p = some old →
      ∃ idx, mapGet (updateFileIndex s p ev).fileIndexes p = some idx ∧
        idx.Path = old.Path ∧ idx.MinTime = min old.MinTime ev.Timestamp ∧
        idx.MaxTime = max old.MaxTime ev.Timestamp ∧
        idx.MaxSeverity = max old.MaxSeverity ev.Severity ∧
        (∀ t, t ∈ idx.EventTypes ↔ t ∈ old.EventTypes ∨ t = ev.Type_) ∧
        idx.AllProcessed = false) ∧
    (mapGet s.fileIndexes p = none →
      mapGet (updateFileIndex s p ev).fileIndexes p =
        some ⟨p, ev.Timestamp, ev.Timestamp, ev.Severity, [ev.Type_], false⟩) ∧
    (∀ q, q ≠ p → mapGet (updateFileIndex s p ev).fileIndexes q = mapGet s.fileIndexes q) := by
  refine ⟨?_, ?_, ?_⟩
  · intro old hold
    unfold updateFileIndex
    rw [hold]
    dsimp only
    rw [mapGet_mapSet_same]
    generalize hi1 : (if ev.Timestamp < old.MinTime then { old with MinTime := ev.Timestamp }
      else old) = idx1
    generalize hi2 : (if ev.Timestamp > idx1.MaxTime then { idx1 with MaxTime := ev.Timestamp }
      else idx1) = idx2
    generalize hi3 : (if ev.Severity > idx2.MaxSeverity then
      { idx2 with MaxSeverity := ev.Severity } else idx2) = idx3
    have a1 : idx1.Path = old.Path ∧ idx1.MinTime = min old.MinTime ev.Timestamp ∧
        idx1.MaxTime = old.MaxTime ∧ idx1.MaxSeverity = old.MaxSeverity ∧
        idx1.EventTypes = old.EventTypes := by
      rw [← hi1]
      split <;> refine ⟨rfl, ?_, rfl, rfl, rfl⟩ <;> try dsimp only
      all_goals omega
    have a2 : idx2.Path = idx1.Path ∧ idx2.MinTime = idx1.MinTime ∧
        idx2.MaxTime = max idx1.MaxTime ev.Timestamp ∧ idx2.MaxSeverity = idx1.MaxSeverity ∧
        idx2.EventTypes = idx1.EventTypes := by
      rw [← hi2]
      split <;> refine ⟨rfl, rfl, ?_, rfl, rfl⟩ <;> try dsimp only
      all_goals omega
    have a3 : idx3.Path = idx2.Path ∧ idx3.MinTime = idx2.MinTime ∧
        idx3.MaxTime = idx2.MaxTime ∧ idx3.MaxSeverity = max idx2.MaxSeverity ev.Severity ∧
        idx3.EventTypes = idx2.EventTypes := by
      rw [← hi3]
      split <;> refine ⟨rfl, rfl, rfl, ?_, rfl⟩ <;> try dsimp only
      all_goals omega
    obtain ⟨b1, b2, b3, b4, b5⟩ := a1
    obtain ⟨c1, c2, c3, c4, c5⟩ := a2
    obtain ⟨d1, d2, d3, d4, d5⟩ := a3
    refine ⟨_, rfl, ?_, ?_, ?_, ?_, ?_, rfl⟩
    · exact d1.trans (c1.trans b1)
    · exact d2.trans (c2.trans b2)
    · show idx3.MaxTime = _
      rw [d3, c3, b3]
    · show idx3.MaxSeverity = _
      rw [d4, c4, b4]
    · intro t
      show t ∈ setType idx3.EventTypes ev.Type_ ↔ _
      rw [mem_setType, d5, c5, b5]
      exact Or.comm
  · intro hnone
    unfold updateFileIndex
    rw [hnone]
    dsimp only
    rw [mapGet_mapSet_same]
  · intro q hq
    unfold updateFileIndex
    split <;> exact mapGet_mapSet_other _ _ _ _ (fun h => hq h.symm)

/-- C24. Index update on append: after a successful `StoreEvent` that stored the entry
`e` (the caller's entry with its unset fields filled in) into file `p`, the `FileIndex`
of `p` has `MinTime = min(old MinTime, e.Timestamp)`, `MaxTime = max(old MaxTime,
e.Timestamp)`, `MaxSeverity = max(old MaxSeverity, e.Severity)`, `EventTypes` = the old
ones plus `e.Type`, and `AllProcessed = false`; when `p` had no index entry, the entry is
made from `e` alone; the `FileIndex` of every other file is unchanged. -/
theorem StoreEvent_index_update (env : Env) (fuel k : Nat) (s : EventStorage) (e0 : EventEntry)
    (p : String) (s1 : EventStorage) (h : StoreEvent env fuel k s e0 = Outcome.ok p s1) :
    (∀ old, mapGet s.fileIndexes p = some old →
      ∃ idx, mapGet s1.fileIndexes p = some idx ∧
        idx.Path = old.Path ∧
        idx.MinTime = min old.MinTime (ensureFields env k e0).Timestamp ∧
        idx.MaxTime = max old.MaxTime (ensureFields env k e0).Timestamp ∧
        idx.MaxSeverity = max old.MaxSeverity (ensureFields env k e0).Severity ∧
        (∀ t, t ∈ idx.EventTypes ↔ t ∈ old.EventTypes ∨ t = (ensureFields env k e0).Type_) ∧
        idx.AllProcessed = false) ∧
    (mapGet s.fileIndexes p = none →
      mapGet s1.fileIndexes p =
        some ⟨p, (ensureFields env k e0).Timestamp, (ensureFields env k e0).Timestamp,
          (ensureFields env k e0).Severity, [(ensureFields env k e0).Type_], false⟩) ∧
    (∀ q, q ≠ p → mapGet s1.fileIndexes q = mapGet s.fileIndexes q) := by
  obtain ⟨_, hp, data, events, d, _, _, _, _, hs1⟩ := StoreEvent_ok_inv env fuel k s e0 p s1 h
  rw [hs1, hp]
  exact updateFileIndex_get { s with disk := d } s.currentFile (ensureFields env k e0)

/-- Witness of C24 -/
theorem StoreEvent_index_update_witness :
    ∃ s1, StoreEvent demoEnv 1 0 (demoStored 1000) (demoEvent "b" 9 3) = Outcome.ok demoPath s1 ∧
      mapGet (demoStored 1000).fileIndexes demoPath = some ⟨demoPath, 5, 5, 0, ["alert"], false⟩ ∧
      mapGet s1.fileIndexes demoPath = some ⟨demoPath, 5, 9, 3, ["alert"], false⟩ ∧
      (∀ old, mapGet (demoStored 1000).fileIndexes demoPath = some old →
        ∃ idx, mapGet s1.fileIndexes demoPath = some idx ∧
          idx.Path = old.Path ∧
          idx.MinTime = min old.MinTime (ensureFields demoEnv 0 (demoEvent "b" 9 3)).Timestamp ∧
          idx.MaxTime = max old.MaxTime (ensureFields demoEnv 0 (demoEvent "b" 9 3)).Timestamp ∧
          idx.MaxSeverity =
            max old.MaxSeverity (ensureFields demoEnv 0 (demoEvent "b" 9 3)).Severity ∧
          (∀ t, t ∈ idx.EventTypes ↔
            t ∈ old.EventTypes ∨ t = (ensureFields demoEnv 0 (demoEvent "b" 9 3)).Type_) ∧
          idx.AllProcessed = false) :=
  ⟨_, rfl, rfl, rfl,
    (StoreEvent_index_update demoEnv 1 0 (demoStored 1000) (demoEvent "b" 9 3) demoPath _ rfl).1⟩

/-! ## Failed appends -/

/-- C27, as stated, fails: on a device that has run full the write of `StoreEvent` is cut
short after `os.WriteFile` has truncated the active file.  `StoreEvent` returns the
error, and the active file, which held one event, is left with 100 bytes that do not
parse.  The failed append has changed what is observed: a query that returned the
stored event before the call returns nothing after it. -/
theorem StoreEvent_failure_frame_counterexample :
    fileEvents demoActiveFull.disk demoPath = some [demoEvent "a" 5 0] ∧
    (∃ s2, LoadEvents demoEnv 0 demoActiveFull ⟨0, 0, 0, "", "", "", false⟩ =
      Outcome.ok [demoEvent "a" 5 0] s2) ∧
    ∃ s1, StoreEvent demoEnv 1 0 demoActiveFull (demoEvent "b" 6 1) = Outcome.fail s1 ∧
      readFile s1.disk demoPath = some ⟨100, none⟩ ∧
      fileEvents s1.disk demoPath = none ∧
      s1.disk ≠ demoActiveFull.disk ∧
      ∃ s2, LoadEvents demoEnv 0 s1 ⟨0, 0, 0, "", "", "", false⟩ = Outcome.ok [] s2 :=
  ⟨rfl, ⟨_, rfl⟩, _, rfl, rfl, rfl, by decide, _, rfl⟩

/-- C27 (amended). A failed append: whenever `StoreEvent` returns an error, the index map
and everything else the store keeps in memory are exactly as before the call, every
node of the file system other than the active file is as before, and no file's event
list has gained the entry: a file that parses after the call held the same events
before it.  The active file itself is as before, unless the write to it was cut short,
in which case it no longer parses. -/
theorem StoreEvent_failure_frame (env : Env) (fuel k : Nat) (s : EventStorage) (e : EventEntry)
    (s1 : EventStorage) (h : StoreEvent env fuel k s e = Outcome.fail s1) :
    s1.fileIndexes = s.fileIndexes ∧ s1 = { s with disk := s1.disk } ∧
    (∀ p, p ≠ s.currentFile → mapGet s1.disk.nodes p = mapGet s.disk.nodes p) ∧
    (∀ p events, fileEvents s1.disk p = some events → fileEvents s.disk p = some events) ∧
    (s1.disk = s.disk ∨
      (mapGet s.disk.cutShort s.currentFile ≠ none ∧
        fileEvents s1.disk s.currentFile = none)) := by
  rcases (StoreEvent_fail_inv env fuel k s e s1 h).2 with h1 | ⟨data, events, d, _, _, hw, h1⟩
  · subst h1
    exact ⟨rfl, rfl, fun _ _ => rfl, fun _ _ hp => hp, Or.inl rfl⟩
  · subst h1
    refine ⟨rfl, rfl, ?_, ?_, ?_⟩
    · intro p hp
      exact mapGet_writeFile_err_other _ _ _ _ _ hw (Ne.symm hp)
    · intro p evs hp
      by_cases hpc : p = s.currentFile
      · subst hpc
        rcases fileEvents_writeFile_err_same _ _ _ _ hw with h2 | ⟨_, h2⟩
        · exact h2 ▸ hp
        · rw [show fileEvents d s.currentFile = none from h2] at hp
          cases hp
      · rw [← fileEvents_writeFile_err_other _ _ _ _ _ hw (Ne.symm hpc)]
        exact hp
    · rcases writeFile_err_inv _ _ _ _ hw with h2 | ⟨n, hn, h2⟩
      · exact Or.inl h2
      · right
        refine ⟨by rw [hn]; exact Option.some_ne_none n, ?_⟩
        show fileEvents d s.currentFile = none
        rw [h2]
        simp [fileEvents, readFile, mapGet_mapSet_same]

/-- Witness of C27 (amended): a write that is refused at the open leaves the whole store
as it was; a write that is cut short leaves the active file unparsable. -/
theorem StoreEvent_failure_frame_witness :
    StoreEvent demoEnv 1 0 demoActiveReadOnly (demoEvent "b" 6 1) =
      Outcome.fail demoActiveReadOnly ∧
    ∃ s1, StoreEvent demoEnv 1 0 demoActiveFull (demoEvent "b" 6 1) = Outcome.fail s1 ∧
      s1.fileIndexes = demoActiveFull.fileIndexes ∧
      s1 = { demoActiveFull with disk := s1.disk } ∧
      (∀ p, p ≠ demoActiveFull.currentFile →
        mapGet s1.disk.nodes p = mapGet demoActiveFull.disk.nodes p) ∧
      (∀ p events, fileEvents s1.disk p = some events →
        fileEvents demoActiveFull.disk p = some events) ∧
      (s1.disk = demoActiveFull.disk ∨
        (mapGet demoActiveFull.disk.cutShort demoActiveFull.currentFile ≠ none ∧
          fileEvents s1.disk demoActiveFull.currentFile = none)) :=
  ⟨rfl, _, rfl, StoreEvent_failure_frame demoEnv 1 0 demoActiveFull (demoEvent "b" 6 1) _ rfl⟩

/-! ## Rotation and the active file -/

/-- A store opened with `maxFileSize = 5`: its fresh active file holds 13 bytes, more
than `maxFileSize`, so the first `StoreEvent` takes the rotation branch and, holding
`currentMutex`, never returns; the file a rotation from outside `StoreEvent` creates
holds 13 bytes again. -/
theorem fresh_file_small_maxFileSize :
    ∃ s, NewEventStorage seqEnv ⟨[], [], []⟩ "/data" 5 = Outcome.ok () s ∧
      s.maxFileSize = 5 ∧ (0 : Int) < s.maxFileSize ∧
      readFile s.disk s.currentFile = some ⟨13, some []⟩ ∧
      ((13 : Nat) : Int) > s.maxFileSize ∧
      StoreEvent seqEnv 3 2 s (demoEvent "a" 5 0) = Outcome.blocked ∧
      rotations seqEnv 3 2 s (demoEvent "a" 5 0) = 1 ∧
      ∃ s2, rotateIfNeeded seqEnv 2 s = Outcome.ok () s2 ∧
        s2.currentFile ≠ s.currentFile ∧
        readFile s2.disk s2.currentFile = some ⟨13, some []⟩ ∧
        ((13 : Nat) : Int) > s2.maxFileSize :=
  ⟨_, rfl, rfl, by decide, rfl, by decide, rfl, rfl, _, rfl, by decide, rfl, by decide⟩

end Storage

namespace Rules

open Storage

/-! ## threadstack.go -/

theorem toInt32_of_lt (n : Int) (h0 : 0 ≤ n) (h : n < 2147483648) : toInt32 n = n := by
  unfold toInt32
  omega

theorem frameLoop_eq_none (equalFold : String → String → Bool) (bound : Int)
    (hb : bound < 2147483648) (fa : List String) :
    ∀ (fb : List String) (flevel : Int), fa.length = fb.length → 0 ≤ flevel →
      flevel + fa.length = bound →
      (frameLoop equalFold bound flevel fa fb = none ↔
        List.Forall₂ (fun x y => equalFold x y = true) fa fb) := by
  induction fa with
  | nil =>
    intro fb flevel hl _ _
    cases fb with
    | nil => simp [frameLoop]
    | cons b rb => cases hl
  | cons a ra ih =>
    intro fb flevel hl h0 hbd
    cases fb with
    | nil => cases hl
    | cons b rb =>
      rw [List.length_cons, Nat.cast_succ] at hbd
      have hlt : flevel < bound := by omega
      unfold frameLoop
      rw [if_pos hlt, List.forall₂_cons]
      cases he : equalFold a b with
      | false => simp
      | true =>
        have hs : toInt32 (flevel + 1) = flevel + 1 := toInt32_of_lt _ (by omega) (by omega)
        simp only [Bool.not_true, Bool.false_eq_true, if_false, true_and]
        rw [hs]
        exact ih rb (flevel + 1) (by simpa using hl) (by omega) (by omega)

theorem threadLoop_eq_true (equalFold : String → String → Bool) (time1 time2 : String)
    (pa : ProcessInfo) (la : List ThreadStack) :
    ∀ lb : List ThreadStack, la.length = lb.length →
      (∀ t ∈ la, t.StackFrames.length < 2147483648) →
      (threadLoop equalFold time1 time2 pa la lb = (true, "", none) ↔
        List.Forall₂ (fun ta tb => ta.ThreadId = tb.ThreadId ∧
          List.Forall₂ (fun x y => equalFold x y = true) ta.StackFrames tb.StackFrames) la lb) := by
  induction la with
  | nil =>
    intro lb hl _
    cases lb with
    | nil => simp [threadLoop]
    | cons b rb => cases hl
  | cons ta ra ih =>
    intro lb hl hlen
    cases lb with
    | nil => cases hl
    | cons tb rb =>
      have hta : ta.StackFrames.length < 2147483648 := hlen ta (List.mem_cons_self _ _)
      have hrec := ih rb (by simpa using hl) fun t ht => hlen t (List.mem_cons_of_mem _ ht)
      unfold threadLoop
      rw [List.forall₂_cons]
      by_cases hid : ta.ThreadId = tb.ThreadId
      · rw [if_neg (not_not.2 hid)]
        by_cases hfl : ta.StackFrames.length = tb.StackFrames.length
        · rw [if_neg (not_not.2 hfl)]
          have hfr := frameLoop_eq_none equalFold (toInt32 ta.StackFrames.length)
            (by rw [toInt32_of_lt _ (by omega) (by omega)]; omega) ta.StackFrames
            tb.StackFrames 0 hfl (Int.le_refl 0)
            (by rw [toInt32_of_lt _ (by omega) (by omega)]; omega)
          obtain ⟨o, ho⟩ : ∃ o, frameLoop equalFold (toInt32 ta.StackFrames.length) 0
            ta.StackFrames tb.StackFrames = o := ⟨_, rfl⟩
          rw [ho] at hfr ⊢
          cases o with
          | none =>
            dsimp only
            rw [hrec]
            exact ⟨fun h => ⟨⟨hid, hfr.1 rfl⟩, h⟩, fun h => h.2⟩
          | some r =>
            dsimp only
            constructor
            · intro h
              cases congrArg Prod.fst h
            · intro h
              cases hfr.2 h.1.2
        · rw [if_pos hfl]
          constructor
          · intro h
            cases congrArg Prod.fst h
          · intro h
            exact absurd h.1.2.length_eq hfl
      · rw [if_pos hid]
        constructor
        · intro h
          cases congrArg Prod.fst h
        · intro h
          exact absurd h.1.1 hid

theorem insertBy_key_sorted {α : Type} (key : α → Int) (x : α) (l : List α)
    (h : l.Pairwise fun a b => key a ≤ key b) :
    (insertBy (fun a b => decide (key a < key b)) x l).Pairwise fun a b => key a ≤ key b := by
  induction l with
  | nil => simp [insertBy]
  | cons y ys ih =>
    obtain ⟨hy, hys⟩ := List.pairwise_cons.1 h
    unfold insertBy
    by_cases hxy : key x < key y
    · rw [if_pos (by simpa using hxy)]
      refine List.pairwise_cons.2 ⟨?_, h⟩
      intro z hz
      rcases List.mem_cons.1 hz with hz | hz
      · rw [hz]
        omega
      · have := hy z hz
        omega
    · rw [if_neg (by simpa using hxy)]
      refine List.pairwise_cons.2 ⟨?_, ih hys⟩
      intro z hz
      rcases List.mem_cons.1 ((insertBy_perm _ x ys).subset hz) with hz | hz
      · rw [hz]
        omega
      · exact hy z hz

theorem sortSlice_key_sorted {α : Type} (key : α → Int) (l : List α) :
    (sortSlice (fun a b => decide (key a < key b)) l).Pairwise fun a b => key a ≤ key b := by
  induction l with
  | nil => exact List.Pairwise.nil
  | cons x xs ih => exact insertBy_key_sorted key x _ ih

theorem map_eq_of_forall₂ (R : ThreadStack → ThreadStack → Prop) (la : List ThreadStack) :
    ∀ lb : List ThreadStack,
      List.Forall₂ (fun ta tb => ta.ThreadId = tb.ThreadId ∧ R ta tb) la lb →
      la.map (fun t => t.ThreadId) = lb.map (fun t => t.ThreadId) ∧
      ∀ ta ∈ la, ∃ tb ∈ lb, ta.ThreadId = tb.ThreadId ∧ R ta tb := by
  induction la with
  | nil =>
    intro lb h
    cases h
    exact ⟨rfl, fun _ h => by cases h⟩
  | cons a ra ih =>
    intro lb h
    cases h with
    | cons hab hrest =>
      obtain ⟨h1, h2⟩ := ih _ hrest
      refine ⟨by rw [List.map_cons, List.map_cons, h1, hab.1], ?_⟩
      intro ta hta
      rcases List.mem_cons.1 hta with hta | hta
      · rw [hta]
        exact ⟨_, List.mem_cons_self _ _, hab⟩
      · obtain ⟨tb, htb, hr⟩ := h2 ta hta
        exact ⟨tb, List.mem_cons_of_mem _ htb, hr⟩

theorem forall₂_of_map_eq (R : ThreadStack → ThreadStack → Prop) (la : List ThreadStack) :
    ∀ lb : List ThreadStack,
      la.map (fun t => t.ThreadId) = lb.map (fun t => t.ThreadId) →
      (∀ ta ∈ la, ∀ tb ∈ lb, ta.ThreadId = tb.ThreadId → R ta tb) →
      List.Forall₂ (fun ta tb => ta.ThreadId = tb.ThreadId ∧ R ta tb) la lb := by
  induction la with
  | nil =>
    intro lb h _
    cases lb with
    | nil => exact List.Forall₂.nil
    | cons b rb => cases h
  | cons a ra ih =>
    intro lb h hr
    cases lb with
    | nil => cases h
    | cons b rb =>
      rw [List.map_cons, List.map_cons, List.cons.injEq] at h
      exact List.Forall₂.cons
        ⟨h.1, hr a (List.mem_cons_self _ _) b (List.mem_cons_self _ _) h.1⟩
        (ih rb h.2 fun ta hta tb htb =>
          hr ta (List.mem_cons_of_mem _ hta) tb (List.mem_cons_of_mem _ htb))

theorem threadLoop_err (equalFold : String → String → Bool) (time1 time2 : String)
    (pa : ProcessInfo) (la : List ThreadStack) :
    ∀ lb : List ThreadStack, (threadLoop equalFold time1 time2 pa la lb).2.2 = none := by
  induction la with
  | nil =>
    intro lb
    unfold threadLoop
    rfl
  | cons ta ra ih =>
    intro lb
    cases lb with
    | nil =>
      unfold threadLoop
      rfl
    | cons tb rb =>
      unfold threadLoop
      by_cases hid : ta.ThreadId = tb.ThreadId
      · rw [if_neg (not_not.2 hid)]
        by_cases hfl : ta.StackFrames.length = tb.StackFrames.length
        · rw [if_neg (not_not.2 hfl)]
          obtain ⟨o, ho⟩ : ∃ o, frameLoop equalFold (toInt32 ta.StackFrames.length) 0
            ta.StackFrames tb.StackFrames = o := ⟨_, rfl⟩
          rw [ho]
          cases o with
          | none => exact ih rb
          | some r => rfl
        · rw [if_pos hfl]
      · rw [if_pos hid]

theorem sorted_ids_eq (la lb : List ThreadStack)
    (hna : (la.map fun t => t.ThreadId).Nodup) (hnb : (lb.map fun t => t.ThreadId).Nodup)
    (hmem : ∀ id, id ∈ la.map (fun t => t.ThreadId) ↔ id ∈ lb.map (fun t => t.ThreadId)) :
    (sortSlice (fun x y => decide (x.ThreadId < y.ThreadId)) la).map (fun t => t.ThreadId) =
      (sortSlice (fun x y => decide (x.ThreadId < y.ThreadId)) lb).map (fun t => t.ThreadId) := by
  have pa := (sortSlice_perm (fun x y : ThreadStack => decide (x.ThreadId < y.ThreadId)) la).map
    fun t => t.ThreadId
  have pb := (sortSlice_perm (fun x y : ThreadStack => decide (x.ThreadId < y.ThreadId)) lb).map
    fun t => t.ThreadId
  have hp : (la.map fun t => t.ThreadId).Perm (lb.map fun t => t.ThreadId) :=
    (List.perm_ext_iff_of_nodup hna hnb).2 hmem
  have sa : List.Sorted (fun x y : Int => x ≤ y)
      ((sortSlice (fun x y => decide (x.ThreadId < y.ThreadId)) la).map fun t => t.ThreadId) :=
    List.pairwise_map.2 (sortSlice_key_sorted (fun t : ThreadStack => t.ThreadId) la)
  have sb : List.Sorted (fun x y : Int => x ≤ y)
      ((sortSlice (fun x y => decide (x.ThreadId < y.ThreadId)) lb).map fun t => t.ThreadId) :=
    List.pairwise_map.2 (sortSlice_key_sorted (fun t : ThreadStack => t.ThreadId) lb)
  exact List.eq_of_perm_of_sorted (pa.trans (hp.trans pb.symm)) sa sb

/-- C20. `ThreadsStacksEqual` does not depend on the order in which threads are listed:
for two non-nil processes with the same rank (ignoring case) and the same pid, whose
threads have pairwise distinct thread ids (and fewer than 2^31 stack frames each, the
range of the `int32` frame counter), it returns `(true, "", nil)` if and only if both
have the same set of thread ids and, for every thread id, stack-frame lists of equal
length whose corresponding frames are equal ignoring case; and for any two processes
it returns an error exactly when one is nil, the ranks differ or the pids differ. -/
theorem ThreadsStacksEqual_order_independent (equalFold : String → String → Bool)
    (time1 time2 : String) (a b : ProcessInfo)
    (hna : (a.Threads.map fun t => t.ThreadId).Nodup)
    (hnb : (b.Threads.map fun t => t.ThreadId).Nodup)
    (hlen : ∀ t ∈ a.Threads, t.StackFrames.length < 2147483648) :
    (equalFold a.Rank b.Rank = true → a.Pid = b.Pid →
      (ThreadsStacksEqual equalFold time1 time2 (some a) (some b) = (true, "", none) ↔
        (∀ id, id ∈ a.Threads.map (fun t => t.ThreadId) ↔
          id ∈ b.Threads.map (fun t => t.ThreadId)) ∧
        ∀ ta ∈ a.Threads, ∀ tb ∈ b.Threads, ta.ThreadId = tb.ThreadId →
          List.Forall₂ (fun x y => equalFold x y = true) ta.StackFrames tb.StackFrames)) ∧
    ∀ pa pb : Option ProcessInfo,
      ((ThreadsStacksEqual equalFold time1 time2 pa pb).2.2 ≠ none ↔
        pa = none ∨ pb = none ∨
          ∃ x y, pa = some x ∧ pb = some y ∧
            (equalFold x.Rank y.Rank = false ∨ x.Pid ≠ y.Pid)) := by
  constructor
  · intro hrank hpid
    have hA := sortSlice_perm (fun x y : ThreadStack => decide (x.ThreadId < y.ThreadId)) a.Threads
    have hB := sortSlice_perm (fun x y : ThreadStack => decide (x.ThreadId < y.ThreadId)) b.Threads
    unfold ThreadsStacksEqual
    dsimp only
    rw [hrank, if_neg (by simp), if_neg (not_not.2 hpid)]
    by_cases hl : a.Threads.length = b.Threads.length
    · rw [if_neg (not_not.2 hl)]
      rw [threadLoop_eq_true equalFold time1 time2 a _ _
        (by rw [hA.length_eq, hB.length_eq, hl])
        (fun t ht => hlen t (hA.subset ht))]
      constructor
      · intro h
        obtain ⟨hmap, hex⟩ := map_eq_of_forall₂ _ _ _ h
        constructor
        · intro id
          rw [← (hA.map fun t => t.ThreadId).mem_iff, ← (hB.map fun t => t.ThreadId).mem_iff,
            hmap]
        · intro ta hta tb htb hid
          obtain ⟨tb1, htb1, hid1, hfr⟩ := hex ta (hA.symm.subset hta)
          have : tb = tb1 :=
            List.inj_on_of_nodup_map hnb htb (hB.subset htb1) (hid.symm.trans hid1)
          rw [this]
          exact hfr
      · intro h
        exact forall₂_of_map_eq _ _ _ (sorted_ids_eq _ _ hna hnb h.1)
          fun ta hta tb htb => h.2 ta (hA.subset hta) tb (hB.subset htb)
    · rw [if_pos hl]
      constructor
      · intro h
        cases congrArg Prod.fst h
      · intro h
        have hp : (a.Threads.map fun t => t.ThreadId).Perm (b.Threads.map fun t => t.ThreadId) :=
          (List.perm_ext_iff_of_nodup hna hnb).2 h.1
        have := hp.length_eq
        rw [List.length_map, List.length_map] at this
        exact absurd this hl
  · intro pa pb
    cases pa with
    | none => simp [ThreadsStacksEqual]
    | some x =>
      cases pb with
      | none => simp [ThreadsStacksEqual]
      | some y =>
        unfold ThreadsStacksEqual
        dsimp only
        cases hr : equalFold x.Rank y.Rank with
        | false => simp [hr]
        | true =>
          rw [if_neg (by simp)]
          by_cases hp : x.Pid = y.Pid
          · rw [if_neg (not_not.2 hp)]
            by_cases hl : x.Threads.length = y.Threads.length
            · rw [if_neg (not_not.2 hl), threadLoop_err]
              simp [hr, hp]
            · rw [if_pos hl]
              simp [hr, hp]
          · rw [if_pos hp]
            simp [hr, hp]

/-- Witness of C20 -/
theorem ThreadsStacksEqual_order_independent_witness :
    (demoProcessA.Threads.map fun t => t.ThreadId).Nodup ∧
    (demoProcessB.Threads.map fun t => t.ThreadId).Nodup ∧
    (∀ t ∈ demoProcessA.Threads, t.StackFrames.length < 2147483648) ∧
    demoEqualFold demoProcessA.Rank demoProcessB.Rank = true ∧
    demoProcessA.Pid = demoProcessB.Pid ∧
    ThreadsStacksEqual demoEqualFold "time1" "time2" (some demoProcessA) (some demoProcessB) =
      (true, "", none) ∧
    ((ThreadsStacksEqual demoEqualFold "time1" "time2" (some demoProcessA)
        (some demoProcessB) = (true, "", none) ↔
      (∀ id, id ∈ demoProcessA.Threads.map (fun t => t.ThreadId) ↔
        id ∈ demoProcessB.Threads.map (fun t => t.ThreadId)) ∧
      ∀ ta ∈ demoProcessA.Threads, ∀ tb ∈ demoProcessB.Threads, ta.ThreadId = tb.ThreadId →
        List.Forall₂ (fun x y => demoEqualFold x y = true) ta.StackFrames tb.StackFrames)) :=
  ⟨by decide, by decide, by decide, rfl, rfl, rfl,
    (ThreadsStacksEqual_order_independent demoEqualFold "time1" "time2" demoProcessA
      demoProcessB (by decide) (by decide) (by decide)).1 rfl rfl⟩

end Rules

namespace Go

/-! ## Library functions -/

theorem takeWhile_run (p : Char → Bool) (ds post : List Char) (hds : ∀ c ∈ ds, p c = true)
    (hpost : ∀ c, post.head? = some c → p c = false) : (ds ++ post).takeWhile p = ds := by
  rw [List.takeWhile_append_of_pos hds]
  cases post with
  | nil => simp
  | cons c rest =>
    rw [List.takeWhile_cons_of_neg (by rw [hpost c rfl]; decide), List.append_nil]

theorem dropWhile_run (p : Char → Bool) (ds post : List Char) (hne : ds ≠ [])
    (hds : ∀ c ∈ ds, p c = false) : (ds ++ post).dropWhile p = ds ++ post := by
  cases ds with
  | nil => exact absurd rfl hne
  | cons c rest =>
    rw [List.cons_append, List.dropWhile_cons_of_neg]
    rw [hds c (List.mem_cons_self _ _)]
    decide

theorem Atoi_digits (ds : List Char) (hne : ds ≠ []) (hds : ∀ c ∈ ds, isDigit c = true) :
    Atoi (String.mk ds) =
      if (decimal ds : Int) ≤ maxInt then ((decimal ds : Int), false) else (maxInt, true) := by
  cases ds with
  | nil => exact absurd rfl hne
  | cons c rest =>
    have hc := hds c (List.mem_cons_self _ _)
    have h1 : c ≠ '-' := by
      intro h
      rw [h] at hc
      revert hc
      decide
    have h2 : c ≠ '+' := by
      intro h
      rw [h] at hc
      revert hc
      decide
    have hall : (c :: rest).all isDigit = true := List.all_eq_true.2 hds
    unfold Atoi
    simp only [List.head?_cons, Option.some.injEq, h1, h2, or_self, if_false, decide_False,
      hall, not_true_eq_false, Bool.false_eq_true, reduceCtorEq]

end Go

namespace Utils

open Go

/-! ## utils.go -/

theorem findDigits_of_firstRun (s : String) (ds : List Char) (h : IsFirstRun s.data ds) :
    findDigits s = String.mk ds := by
  obtain ⟨pre, post, hs, hpre, hne, hds, hpost⟩ := h
  unfold findDigits
  rw [hs, List.append_assoc,
    List.dropWhile_append_of_pos (fun c hc => by rw [hpre c hc]; rfl),
    dropWhile_run _ ds post hne (fun c hc => by rw [hds c hc]; rfl),
    takeWhile_run isDigit ds post hds hpost]

theorem findDigits_of_no_digit (s : String) (h : ∀ c ∈ s.data, isDigit c = false) :
    findDigits s = "" := by
  unfold findDigits
  rw [(List.dropWhile_eq_nil_iff).2 (fun c hc => by rw [h c hc]; rfl)]
  rfl

theorem ExtractNumber_of_firstRun (s : String) (ds : List Char) (h : IsFirstRun s.data ds) :
    ExtractNumber s =
      if (decimal ds : Int) ≤ maxInt then ((decimal ds : Int), false) else (maxInt, true) := by
  have hne : ds ≠ [] := h.choose_spec.choose_spec.2.2.1
  have hds : ∀ c ∈ ds, isDigit c = true := h.choose_spec.choose_spec.2.2.2.1
  unfold ExtractNumber
  rw [findDigits_of_firstRun s ds h]
  have : String.mk ds ≠ "" := by
    intro hc
    exact hne (congrArg String.data hc)
  simp only [this, if_false]
  exact Atoi_digits ds hne hds

theorem ExtractNumber_of_no_digit (s : String) (h : ∀ c ∈ s.data, isDigit c = false) :
    ExtractNumber s = (0, true) := by
  unfold ExtractNumber
  rw [findDigits_of_no_digit s h]
  rfl

/-- C21 (as amended). `CompareRank` orders rank strings by their numeric part: when the
first maximal runs of digits of `a` and `b` write numbers that fit the type `int`, the
result is -1, 0 or 1 according as the number of `a` is less than, equal to or greater
than the number of `b`, and `CompareRank a b = -CompareRank b a`; when `a` or `b`
contains no digit, or the number of `a` or of `b` does not fit `int`, the result is 0. -/
theorem CompareRank_numeric (a b : String) :
    (∀ da db, IsFirstRun a.data da → IsFirstRun b.data db →
      (decimal da : Int) ≤ maxInt → (decimal db : Int) ≤ maxInt →
      CompareRank a b =
        (if decimal da < decimal db then -1 else if decimal da > decimal db then 1 else 0) ∧
      CompareRank a b = -CompareRank b a) ∧
    (((∀ c ∈ a.data, isDigit c = false) ∨ (∀ c ∈ b.data, isDigit c = false)) →
      CompareRank a b = 0) ∧
    (∀ da, (IsFirstRun a.data da ∨ IsFirstRun b.data da) → ¬ (decimal da : Int) ≤ maxInt →
      CompareRank a b = 0) := by
  refine ⟨?_, ?_, ?_⟩
  · intro da db ha hb hra hrb
    have ea := ExtractNumber_of_firstRun a da ha
    have eb := ExtractNumber_of_firstRun b db hb
    rw [if_pos hra] at ea
    rw [if_pos hrb] at eb
    have key : ∀ (x y : String) (dx dy : List Char),
        ExtractNumber x = ((decimal dx : Int), false) →
        ExtractNumber y = ((decimal dy : Int), false) →
        CompareRank x y =
          if decimal dx < decimal dy then -1 else if decimal dx > decimal dy then 1 else 0 := by
      intro x y dx dy ex ey
      unfold CompareRank
      rw [ex, ey]
      simp only [Bool.false_eq_true, or_self, if_false, Nat.cast_lt, gt_iff_lt]
    refine ⟨key a b da db ea eb, ?_⟩
    rw [key a b da db ea eb, key b a db da eb ea]
    split_ifs <;> first | rfl | omega
  · rintro (h | h)
    · unfold CompareRank
      rw [ExtractNumber_of_no_digit a h]
      simp
    · unfold CompareRank
      rw [ExtractNumber_of_no_digit b h]
      simp
  · rintro da (h | h) hr
    · unfold CompareRank
      rw [ExtractNumber_of_firstRun a da h, if_neg hr]
      simp
    · unfold CompareRank
      rw [ExtractNumber_of_firstRun b da h, if_neg hr]
      simp

/-- Witness of C21 -/
theorem CompareRank_numeric_witness :
    IsFirstRun "rank10".data "10".data ∧ IsFirstRun "rank2b".data "2".data ∧
    (decimal "10".data : Int) ≤ maxInt ∧ (decimal "2".data : Int) ≤ maxInt ∧
    CompareRank "rank10" "rank2b" = 1 ∧
    (CompareRank "rank10" "rank2b" =
        (if decimal "10".data < decimal "2".data then -1
          else if decimal "10".data > decimal "2".data then 1 else 0) ∧
      CompareRank "rank10" "rank2b" = -CompareRank "rank2b" "rank10") :=
  have h1 : IsFirstRun "rank10".data "10".data :=
    ⟨"rank".data, [], rfl, by decide, by decide, by decide, fun _ h => by cases h⟩
  have h2 : IsFirstRun "rank2b".data "2".data :=
    ⟨"rank".data, "b".data, rfl, by decide, by decide, by decide, by decide⟩
  ⟨h1, h2, by decide, by decide, rfl,
    (CompareRank_numeric "rank10" "rank2b").1 "10".data "2".data h1 h2 (by decide) (by decide)⟩

/-- Counterexample to C21 as stated: the digits of `99999999999999999999` write a number
greater than the one of `1`, and `CompareRank` returns 0, because `strconv.Atoi` reports
a range error. -/
theorem CompareRank_numeric_counterexample :
    IsFirstRun "rank99999999999999999999".data "99999999999999999999".data ∧
    IsFirstRun "rank1".data "1".data ∧
    decimal "99999999999999999999".data > decimal "1".data ∧
    ExtractNumber "rank99999999999999999999" = (9223372036854775807, true) ∧
    CompareRank "rank99999999999999999999" "rank1" = 0 :=
  ⟨⟨"rank".data, [], rfl, by decide, by decide, by decide, fun _ h => by cases h⟩,
    ⟨"rank".data, [], rfl, by decide, by decide, by decide, fun _ h => by cases h⟩,
    by decide, rfl, rfl⟩

end Utils

namespace Go

theorem Split1_ne_nil (sep : Char) (l : List Char) : Split1 sep l ≠ [] := by
  cases l with
  | nil => simp [Split1]
  | cons c cs =>
    unfold Split1
    split
    · simp
    · split <;> simp

theorem Split1_no_sep (sep : Char) (l : List Char) (h : sep ∉ l) : Split1 sep l = [l] := by
  induction l with
  | nil => rfl
  | cons c cs ih =>
    have hc : c ≠ sep := fun e => h (by rw [e]; exact List.mem_cons_self _ _)
    unfold Split1
    rw [if_neg hc, ih (fun hm => h (List.mem_cons_of_mem _ hm))]

theorem Split1_append (sep : Char) (l1 l2 : List Char) (h : sep ∉ l1) :
    Split1 sep (l1 ++ sep :: l2) = l1 :: Split1 sep l2 := by
  induction l1 with
  | nil =>
    rw [List.nil_append, Split1, if_pos rfl]
  | cons c cs ih =>
    have hc : c ≠ sep := fun e => h (by rw [e]; exact List.mem_cons_self _ _)
    rw [List.cons_append, Split1, if_neg hc, ih (fun hm => h (List.mem_cons_of_mem _ hm))]

theorem Split1_single (sep : Char) (l f : List Char) (h : Split1 sep l = [f]) :
    l = f ∧ sep ∉ f := by
  induction l generalizing f with
  | nil =>
    cases h
    exact ⟨rfl, List.not_mem_nil _⟩
  | cons c cs ih =>
    unfold Split1 at h
    by_cases hc : c = sep
    · rw [if_pos hc] at h
      simp only [List.cons.injEq] at h
      exact absurd h.2 (Split1_ne_nil sep cs)
    · rw [if_neg hc] at h
      obtain ⟨o, ho⟩ : ∃ o, Split1 sep cs = o := ⟨_, rfl⟩
      rw [ho] at h
      cases o with
      | nil => exact absurd ho (Split1_ne_nil sep cs)
      | cons l1 ls =>
        simp only [List.cons.injEq] at h
        obtain ⟨h1, h2⟩ := h
        rw [h2] at ho
        obtain ⟨e1, e2⟩ := ih l1 ho
        rw [← h1, e1]
        refine ⟨rfl, ?_⟩
        intro hm
        rcases List.mem_cons.1 hm with hm | hm
        · exact hc hm.symm
        · exact e2 hm

theorem Split1_pair (sep : Char) (l f1 f2 : List Char) (h : Split1 sep l = [f1, f2]) :
    l = f1 ++ sep :: f2 ∧ sep ∉ f1 ∧ sep ∉ f2 := by
  induction l generalizing f1 with
  | nil => cases h
  | cons c cs ih =>
    unfold Split1 at h
    by_cases hc : c = sep
    · rw [if_pos hc] at h
      simp only [List.cons.injEq] at h
      obtain ⟨h1, h2⟩ := h
      obtain ⟨e1, e2⟩ := Split1_single sep cs f2 h2
      rw [← h1, hc, e1]
      exact ⟨rfl, List.not_mem_nil _, e2⟩
    · rw [if_neg hc] at h
      obtain ⟨o, ho⟩ : ∃ o, Split1 sep cs = o := ⟨_, rfl⟩
      rw [ho] at h
      cases o with
      | nil => exact absurd ho (Split1_ne_nil sep cs)
      | cons l1 ls =>
        simp only [List.cons.injEq] at h
        obtain ⟨h1, h2⟩ := h
        rw [h2] at ho
        obtain ⟨e1, e2, e3⟩ := ih l1 ho
        rw [← h1, e1]
        refine ⟨rfl, ?_, e3⟩
        intro hm
        rcases List.mem_cons.1 hm with hm | hm
        · exact hc hm.symm
        · exact e2 hm

theorem dropWhile_append_keep (q : Char → Bool) (x y : List Char) (hy : y ≠ [])
    (hq : ∀ c, y.head? = some c → q c = false) :
    (x ++ y).dropWhile q = x.dropWhile q ++ y := by
  induction x with
  | nil =>
    cases y with
    | nil => exact absurd rfl hy
    | cons c rest =>
      rw [List.nil_append, List.dropWhile_cons_of_neg (by rw [hq c rfl]; decide)]
      rfl
  | cons a x ih =>
    by_cases ha : q a = true
    · rw [List.cons_append, List.dropWhile_cons_of_pos ha, List.dropWhile_cons_of_pos ha, ih]
    · rw [List.cons_append, List.dropWhile_cons_of_neg ha, List.dropWhile_cons_of_neg ha]
      rfl

theorem TrimSpace_keeps (s : String) (p rest : List Char) (hs : s.data = p ++ rest)
    (hp : p ≠ []) (hfirst : ∀ c, p.head? = some c → isSpace c = false)
    (hlast : ∀ c, p.reverse.head? = some c → isSpace c = false) :
    ∃ rest1, (TrimSpace s).data = p ++ rest1 ∧
      rest1 = (rest.reverse.dropWhile isSpace).reverse := by
  refine ⟨_, ?_, rfl⟩
  unfold TrimSpace
  have h1 : (p ++ rest).dropWhile isSpace = p ++ rest := by
    cases p with
    | nil => exact absurd rfl hp
    | cons c cs =>
      rw [List.cons_append, List.dropWhile_cons_of_neg (by rw [hfirst c rfl]; decide)]
  rw [hs, h1, List.reverse_append,
    dropWhile_append_keep isSpace rest.reverse p.reverse (by simpa using hp) hlast,
    List.reverse_append, List.reverse_reverse]

theorem TrimSpace_surrounded (ws1 core ws2 : List Char) (h1 : ∀ c ∈ ws1, isSpace c = true)
    (h2 : ∀ c ∈ ws2, isSpace c = true) (hc : core ≠ [])
    (hfirst : ∀ c, core.head? = some c → isSpace c = false)
    (hlast : ∀ c, core.reverse.head? = some c → isSpace c = false) :
    TrimSpace (String.mk (ws1 ++ core ++ ws2)) = String.mk core := by
  unfold TrimSpace
  have e1 : (ws1 ++ core ++ ws2).dropWhile isSpace = core ++ ws2 := by
    rw [List.append_assoc, List.dropWhile_append_of_pos h1]
    cases core with
    | nil => exact absurd rfl hc
    | cons c cs =>
      rw [List.cons_append, List.dropWhile_cons_of_neg (by rw [hfirst c rfl]; decide)]
  have e2 : (ws2.reverse ++ core.reverse).dropWhile isSpace = core.reverse := by
    rw [List.dropWhile_append_of_pos (fun c hc => h2 c (List.mem_reverse.1 hc))]
    cases hr : core.reverse with
    | nil => rfl
    | cons c cs =>
      rw [List.dropWhile_cons_of_neg (by rw [hlast c (by rw [hr]; rfl)]; decide)]
  show String.mk _ = _
  rw [e1, List.reverse_append, e2, List.reverse_reverse]

theorem isSpace_of_isDigit (c : Char) (h : isDigit c = true) : isSpace c = false := by
  unfold isDigit at h
  unfold isSpace
  simp only [decide_eq_true_eq] at h
  simp only [decide_eq_false_iff_not]
  omega

theorem Atoi_ok_field (f : List Char) (h : (Atoi (String.mk f)).2 = false) :
    ∃ ds, ds ≠ [] ∧ (∀ c ∈ ds, isDigit c = true) ∧
      (((f = ds ∨ f = '+' :: ds) ∧ (Atoi (String.mk f)).1 = decimal ds ∧
          (Atoi (String.mk f)).1 ≤ maxInt) ∨
        (f = '-' :: ds ∧ (Atoi (String.mk f)).1 = -(decimal ds : Int) ∧
          minInt ≤ (Atoi (String.mk f)).1)) := by
  unfold Atoi at h ⊢
  dsimp only at h ⊢
  generalize hds : (if f.head? = some '-' ∨ f.head? = some '+' then f.tail else f) = ds at h ⊢
  by_cases hbad : ds = [] ∨ ¬ ds.all isDigit = true
  · rw [if_pos hbad] at h
    cases h
  · rw [if_neg hbad] at h ⊢
    have hne : ds ≠ [] := fun e => hbad (Or.inl e)
    have hall : ∀ c ∈ ds, isDigit c = true := by
      have : ds.all isDigit = true := by
        by_contra hc
        exact hbad (Or.inr hc)
      exact List.all_eq_true.1 this
    refine ⟨ds, hne, hall, ?_⟩
    by_cases hneg : f.head? = some '-'
    · have hf : f = '-' :: ds := by
        cases f with
        | nil => cases hneg
        | cons c cs =>
          simp only [List.head?_cons, Option.some.injEq] at hneg
          rw [if_pos (Or.inl (by rw [List.head?_cons, hneg]))] at hds
          rw [hneg, ← hds]
          rfl
      simp only [hneg, decide_True, if_true] at h ⊢
      by_cases hr : (decimal ds : Int) ≤ 9223372036854775808
      · rw [if_pos hr]
        refine Or.inr ⟨hf, rfl, ?_⟩
        show minInt ≤ -(decimal ds : Int)
        unfold minInt
        omega
      · rw [if_neg hr] at h
        cases h
    · simp only [hneg, decide_False, Bool.false_eq_true, if_false] at h ⊢
      by_cases hr : (decimal ds : Int) ≤ maxInt
      · rw [if_pos hr]
        refine Or.inl ⟨?_, rfl, hr⟩
        by_cases hplus : f.head? = some '+'
        · right
          cases f with
          | nil => cases hplus
          | cons c cs =>
            simp only [List.head?_cons, Option.some.injEq] at hplus
            rw [if_pos (Or.inr (by rw [List.head?_cons, hplus]))] at hds
            rw [hplus, ← hds]
            rfl
        · left
          rw [if_neg (by simp [hneg, hplus])] at hds
          exact hds
      · rw [if_neg hr] at h
        cases h

end Go

namespace Scripts

open Go

/-! ## get_rank_range.go -/

theorem parse_error_values (output : String) (h : (parseRankRangeOutput output).2.2 ≠ none) :
    (parseRankRangeOutput output).1 = 0 ∧ (parseRankRangeOutput output).2.1 = 0 := by
  unfold parseRankRangeOutput at h ⊢
  dsimp only at h ⊢
  by_cases hp : HasPrefix (TrimSpace output) "error:" = true
  · rw [if_pos hp]
    exact ⟨rfl, rfl⟩
  · rw [if_neg hp] at h ⊢
    split
    · rename_i p0 p1 hsp
      rw [hsp] at h
      dsimp only at h
      by_cases h0 : (Atoi (String.mk p0)).2 = true
      · rw [if_pos h0]
        exact ⟨rfl, rfl⟩
      · rw [if_neg h0] at h
        by_cases h1 : (Atoi (String.mk p1)).2 = true
        · rw [if_neg h0, if_pos h1]
          exact ⟨rfl, rfl⟩
        · rw [if_neg h1] at h
          exact absurd rfl h
    · exact ⟨rfl, rfl⟩

theorem parse_ok_inv (output : String) (h : (parseRankRangeOutput output).2.2 = none) :
    ∃ p0 p1, Split1 ':' (TrimSpace output).data = [p0, p1] ∧
      (Atoi (String.mk p0)).2 = false ∧ (Atoi (String.mk p1)).2 = false ∧
      parseRankRangeOutput output = ((Atoi (String.mk p0)).1, (Atoi (String.mk p1)).1, none) := by
  unfold parseRankRangeOutput at h ⊢
  dsimp only at h ⊢
  by_cases hp : HasPrefix (TrimSpace output) "error:" = true
  · rw [if_pos hp] at h
    cases h
  · rw [if_neg hp] at h ⊢
    split at h
    · rename_i p0 p1 hsp
      by_cases h0 : (Atoi (String.mk p0)).2 = true
      · rw [if_pos h0] at h
        cases h
      · rw [if_neg h0] at h
        by_cases h1 : (Atoi (String.mk p1)).2 = true
        · rw [if_pos h1] at h
          cases h
        · refine ⟨p0, p1, hsp, by simpa using h0, by simpa using h1, ?_⟩
          rw [if_neg h0, if_neg h1]
    · cases h

/-- C30 (as amended). `parseRankRangeOutput` inverts the "min:max" output of the script:
applied to two decimal numerals that fit the type `int`, joined by a colon and surrounded
by optional whitespace, it returns the two numbers and a nil error; for an output that
starts with "error:", and for an output that after trimming does not consist of exactly
two colon-separated integer fields, it returns `(0, 0, err)` with `err` non-nil. -/
theorem parseRankRangeOutput_inverts (output : String) :
    (∀ ws1 ws2 da db : List Char,
      (∀ c ∈ ws1, isSpace c = true) → (∀ c ∈ ws2, isSpace c = true) →
      da ≠ [] → db ≠ [] → (∀ c ∈ da, isDigit c = true) → (∀ c ∈ db, isDigit c = true) →
      (decimal da : Int) ≤ maxInt → (decimal db : Int) ≤ maxInt →
      parseRankRangeOutput (String.mk (ws1 ++ (da ++ ':' :: db) ++ ws2)) =
        ((decimal da : Int), (decimal db : Int), none)) ∧
    (HasPrefix output "error:" = true →
      (parseRankRangeOutput output).1 = 0 ∧ (parseRankRangeOutput output).2.1 = 0 ∧
      (parseRankRangeOutput output).2.2 ≠ none) ∧
    ((¬ ∃ f1 f2 n1 n2, (TrimSpace output).data = f1 ++ ':' :: f2 ∧ ':' ∉ f1 ∧ ':' ∉ f2 ∧
        IntField f1 n1 ∧ IntField f2 n2) →
      (parseRankRangeOutput output).1 = 0 ∧ (parseRankRangeOutput output).2.1 = 0 ∧
      (parseRankRangeOutput output).2.2 ≠ none) := by
  refine ⟨?_, ?_, ?_⟩
  · intro ws1 ws2 da db h1 h2 hda hdb ha hb hra hrb
    have hcolon : ∀ ds : List Char, (∀ c ∈ ds, isDigit c = true) → ':' ∉ ds := by
      intro ds hds hm
      have := hds _ hm
      revert this
      decide
    have hcore : da ++ ':' :: db ≠ [] := by
      cases da with
      | nil => exact absurd rfl hda
      | cons c cs => exact List.cons_ne_nil _ _
    have hfirst : ∀ c, (da ++ ':' :: db).head? = some c → isDigit c = true := by
      intro c hc
      cases da with
      | nil => exact absurd rfl hda
      | cons a as =>
        simp only [List.cons_append, List.head?_cons, Option.some.injEq] at hc
        rw [← hc]
        exact ha a (List.mem_cons_self _ _)
    have hlast : ∀ c, (da ++ ':' :: db).reverse.head? = some c → isSpace c = false := by
      intro c hc
      rw [List.reverse_append, List.reverse_cons] at hc
      cases hr : db.reverse with
      | nil => exact absurd (List.reverse_eq_nil_iff.1 hr) hdb
      | cons a as =>
        rw [hr] at hc
        simp only [List.cons_append, List.append_assoc, List.head?_cons,
          Option.some.injEq] at hc
        rw [← hc]
        exact isSpace_of_isDigit a (hb a (List.mem_reverse.1 (by rw [hr]; exact List.mem_cons_self _ _)))
    have htrim := TrimSpace_surrounded ws1 (da ++ ':' :: db) ws2 h1 h2 hcore
      (fun c hc => isSpace_of_isDigit c (hfirst c hc)) hlast
    have hpre : HasPrefix (String.mk (da ++ ':' :: db)) "error:" = false := by
      unfold HasPrefix
      rw [decide_eq_false_iff_not]
      rintro ⟨t, ht⟩
      have := hfirst 'e' (by
        show (da ++ ':' :: db).head? = some 'e'
        have ht1 : da ++ ':' :: db = 'e' :: ("rror:".data ++ t) := ht.symm
        rw [ht1]
        rfl)
      revert this
      decide
    unfold parseRankRangeOutput
    dsimp only
    rw [htrim, hpre]
    simp only [Bool.false_eq_true, if_false]
    rw [Split1_append ':' da db (hcolon da ha), Split1_no_sep ':' db (hcolon db hb)]
    dsimp only
    rw [Atoi_digits da hda ha, Atoi_digits db hdb hb, if_pos hra, if_pos hrb]
    simp only [Bool.false_eq_true, if_false]
  · intro hp
    have hdata : output.data = "error:".data ++ output.data.drop 6 := by
      unfold HasPrefix at hp
      obtain ⟨t, ht⟩ := of_decide_eq_true hp
      rw [← ht]
      rfl
    obtain ⟨rest1, hr, _⟩ := TrimSpace_keeps output "error:".data _ hdata (by decide)
      (by decide) (by decide)
    have hp1 : HasPrefix (TrimSpace output) "error:" = true := by
      unfold HasPrefix
      rw [hr]
      exact decide_eq_true ⟨rest1, rfl⟩
    unfold parseRankRangeOutput
    dsimp only
    rw [if_pos hp1]
    exact ⟨rfl, rfl, by simp⟩
  · intro hno
    have herr : (parseRankRangeOutput output).2.2 ≠ none := by
      intro hnone
      obtain ⟨p0, p1, hsp, h0, h1, _⟩ := parse_ok_inv output hnone
      obtain ⟨e1, e2, e3⟩ := Split1_pair ':' _ p0 p1 hsp
      obtain ⟨d0, a1, a2, a3⟩ := Atoi_ok_field p0 h0
      obtain ⟨d1, b1, b2, b3⟩ := Atoi_ok_field p1 h1
      exact hno ⟨p0, p1, _, _, e1, e2, e3, ⟨d0, a1, a2, a3⟩, ⟨d1, b1, b2, b3⟩⟩
    obtain ⟨v1, v2⟩ := parse_error_values output herr
    exact ⟨v1, v2, herr⟩

/-- Witness of C30 -/
theorem parseRankRangeOutput_inverts_witness :
    parseRankRangeOutput (String.mk (" ".data ++ ("0".data ++ ':' :: "7".data) ++ "\n".data)) =
      ((decimal "0".data : Int), (decimal "7".data : Int), none) ∧
    parseRankRangeOutput " 0:7\n" = (0, 7, none) ∧
    HasPrefix "error: No launcher process found" "error:" = true ∧
    ((parseRankRangeOutput "error: No launcher process found").1 = 0 ∧
      (parseRankRangeOutput "error: No launcher process found").2.1 = 0 ∧
      (parseRankRangeOutput "error: No launcher process found").2.2 ≠ none) ∧
    (¬ ∃ f1 f2 n1 n2, (TrimSpace "invalid").data = f1 ++ ':' :: f2 ∧ ':' ∉ f1 ∧ ':' ∉ f2 ∧
        IntField f1 n1 ∧ IntField f2 n2) ∧
    ((parseRankRangeOutput "invalid").1 = 0 ∧ (parseRankRangeOutput "invalid").2.1 = 0 ∧
      (parseRankRangeOutput "invalid").2.2 ≠ none) :=
  have hinv : ¬ ∃ f1 f2 n1 n2, (TrimSpace "invalid").data = f1 ++ ':' :: f2 ∧ ':' ∉ f1 ∧
      ':' ∉ f2 ∧ IntField f1 n1 ∧ IntField f2 n2 := by
    rintro ⟨f1, f2, _, _, h, _⟩
    have hm : ':' ∈ (TrimSpace "invalid").data := by
      rw [h]
      exact List.mem_append_right _ (List.mem_cons_self _ _)
    revert hm
    decide
  ⟨(parseRankRangeOutput_inverts "").1 " ".data "\n".data "0".data "7".data (by decide)
      (by decide) (by decide) (by decide) (by decide) (by decide) (by decide) (by decide),
    rfl, rfl,
    (parseRankRangeOutput_inverts "error: No launcher process found").2.1 rfl,
    hinv, (parseRankRangeOutput_inverts "invalid").2.2 hinv⟩

/-- Counterexample to C30 as stated: 99999999999999999999 and 5 are non-negative integers,
and applied to `99999999999999999999:5` the function returns `(0, 0, err)`: the first
field does not fit the type `int`. -/
theorem parseRankRangeOutput_inverts_counterexample :
    (∀ c ∈ "99999999999999999999".data, isDigit c = true) ∧
    decimal "99999999999999999999".data = 99999999999999999999 ∧
    decimal "5".data = 5 ∧
    parseRankRangeOutput "99999999999999999999:5" = (0, 0, some RangeError.minRank) :=
  ⟨by decide, by decide, by decide, rfl⟩

end Scripts

namespace Go

theorem scanLines_short (maxTokenSize : Nat) (raws : List (List Char))
    (h : ∀ raw ∈ raws, byteLen raw < maxTokenSize) :
    scanLines maxTokenSize raws = (raws.map fun raw => String.mk (dropCR raw), false) := by
  induction raws with
  | nil => rfl
  | cons raw rest ih =>
    unfold scanLines
    rw [if_neg (Nat.not_le.2 (h raw (List.mem_cons_self _ _)))]
    dsimp only
    rw [ih fun r hr => h r (List.mem_cons_of_mem _ hr)]
    rfl

theorem byteLen_replicate (n : Nat) : byteLen (List.replicate n 'a') = n := by
  induction n with
  | zero => rfl
  | succ n ih =>
    unfold byteLen at ih ⊢
    rw [List.replicate_succ, List.map_cons, List.sum_cons, ih]
    have : Char.utf8Size 'a' = 1 := by decide
    rw [this]
    omega

theorem rawLines_replicate (n : Nat) :
    rawLines (List.replicate (n + 1) 'a') = [List.replicate (n + 1) 'a'] := by
  induction n with
  | zero => rfl
  | succ n ih =>
    rw [List.replicate_succ, rawLines, if_neg (by decide), ih]

end Go

namespace Logtail

open Go

/-! ## file_reader.go -/

theorem mod_ne_of_near (N i L : Nat) (h1 : i < L) (h2 : L + 1 ≤ i + N) : i % N ≠ L % N := by
  intro h
  have hL : L = i + (L - i) := by omega
  have hm : Nat.ModEq N (i + (L - i)) (i + 0) := by
    unfold Nat.ModEq
    rw [← hL, Nat.add_zero]
    exact h.symm
  have hd := Nat.ModEq.add_left_cancel' i hm
  unfold Nat.ModEq at hd
  rw [Nat.zero_mod, Nat.mod_eq_of_lt (by omega)] at hd
  omega

theorem ringLoop_spec (N : Nat) (hN : 0 < N) (toks : List String) :
    ∀ (P ringBuffer : List String), ringBuffer.length = N →
      (∀ i, i < P.length → P.length ≤ i + N → ringBuffer[i % N]? = P[i]?) →
      ∃ rb, ringLoop N toks ringBuffer (P.length % N) P.length =
          some (rb, (P ++ toks).length % N, (P ++ toks).length) ∧
        rb.length = N ∧
        ∀ i, i < (P ++ toks).length → (P ++ toks).length ≤ i + N →
          rb[i % N]? = (P ++ toks)[i]? := by
  induction toks with
  | nil =>
    intro P rb hlen hinv
    refine ⟨rb, ?_, hlen, ?_⟩
    · rw [List.append_nil]
      rfl
    · rw [List.append_nil]
      exact hinv
  | cons t rest ih =>
    intro P rb hlen hinv
    have hidx : P.length % N < rb.length := by
      rw [hlen]
      exact Nat.mod_lt _ hN
    have hstep := ih (P ++ [t]) (rb.set (P.length % N) t) (by rw [List.length_set]; exact hlen)
      (by
        intro i hi hwin
        rw [List.length_append, List.length_singleton] at hi hwin
        by_cases he : i = P.length
        · rw [he, List.getElem?_set_self hidx, List.getElem?_concat_length]
        · have hlt : i < P.length := by omega
          rw [List.getElem?_set_ne (fun h => mod_ne_of_near N i P.length hlt hwin h.symm),
            List.getElem?_append_left hlt]
          exact hinv i hlt (by omega))
    rw [List.append_assoc, List.singleton_append, List.length_append,
      List.length_singleton] at hstep
    unfold ringLoop
    rw [if_pos hidx, if_neg (Nat.pos_iff_ne_zero.1 hN), Nat.mod_add_mod]
    exact hstep

theorem collect_spec (ringBuffer : List String) (N start : Nat) (hN : 0 < N)
    (P : List String) (base : Nat) :
    ∀ m i, (∀ t, t < m → ringBuffer[(start + (i + t)) % N]? = P[base + (i + t)]?) →
      base + i + m ≤ P.length →
      collect ringBuffer N start m i = some ((P.drop (base + i)).take m) := by
  intro m
  induction m with
  | zero =>
    intro i _ _
    rw [List.take_zero]
    rfl
  | succ m ih =>
    intro i h hlen
    have hlt : base + i < P.length := by omega
    have h0 := h 0 (Nat.succ_pos _)
    rw [Nat.add_zero, List.getElem?_eq_getElem hlt] at h0
    unfold collect
    rw [if_neg (Nat.pos_iff_ne_zero.1 hN), h0]
    dsimp only
    rw [ih (i + 1) (fun t ht => by
        have := h (t + 1) (by omega)
        rw [show i + (t + 1) = i + 1 + t by omega] at this
        exact this) (by omega),
      List.drop_eq_getElem_cons hlt, List.take_succ_cons]
    rfl

/-- C28 (as amended). `readRankLogTail` returns the tail of the log: for a rank log file
whose lines are each shorter than 1 MiB and a requested line count `N ≥ 1`, it returns
without error or panic exactly the last `min(N, n)` of the `n` lines of the file, in
their original order. -/
theorem readRankLogTail_tail (content : String) (N : Int) (hN : 1 ≤ N)
    (hshort : ∀ raw ∈ rawLines content.data, byteLen raw < 1024 * 1024) :
    readRankLogTail (some content) N =
      Res.ok ((textLines content).drop
        ((textLines content).length - min N.toNat (textLines content).length)) := by
  have hpos : 0 < N.toNat := by omega
  have hnn : ¬ N < 0 := by omega
  obtain ⟨rb, hloop, hlen, hinv⟩ := ringLoop_spec N.toNat hpos (textLines content) []
    (List.replicate N.toNat "") (List.length_replicate _ _)
    (fun i hi _ => absurd hi (Nat.not_lt_zero _))
  rw [List.nil_append, List.length_nil, Nat.zero_mod] at hloop
  rw [List.nil_append] at hinv
  unfold readRankLogTail
  dsimp only
  rw [scanLines_short _ _ hshort, if_neg hnn]
  dsimp only
  have htl : (List.map (fun raw => String.mk (dropCR raw)) (rawLines content.data)) =
      textLines content := rfl
  rw [htl, hloop]
  dsimp only
  rw [if_neg (by decide)]
  generalize textLines content = L at hinv ⊢
  by_cases hc : L.length > N.toNat
  · rw [if_pos hc, Nat.min_eq_right (Nat.le_of_lt hc), Nat.min_eq_left (Nat.le_of_lt hc)]
    have := collect_spec rb N.toNat (L.length % N.toNat) hpos L (L.length - N.toNat) N.toNat 0
      (by
        intro t ht
        rw [Nat.zero_add, Nat.mod_add_mod]
        have e : (L.length + t) % N.toNat = (L.length - N.toNat + t) % N.toNat := by
          rw [show L.length + t = L.length - N.toNat + t + N.toNat by omega, Nat.add_mod_right]
        rw [e]
        exact hinv _ (by omega) (by omega))
      (by omega)
    rw [Nat.add_zero] at this
    rw [this, List.take_of_length_le (by rw [List.length_drop]; omega)]
  · rw [if_neg hc, Nat.min_eq_left (Nat.le_of_not_lt hc),
      Nat.min_eq_right (Nat.le_of_not_lt hc)]
    have := collect_spec rb N.toNat 0 hpos L 0 L.length 0
      (by
        intro t ht
        simp only [Nat.zero_add]
        exact hinv t ht (by omega))
      (by omega)
    rw [Nat.add_zero] at this
    rw [this, Nat.sub_self, List.drop_zero, List.take_of_length_le (Nat.le_refl _)]

/-- Witness of C28 -/
theorem readRankLogTail_tail_witness :
    (1 : Int) ≤ 2 ∧ (∀ raw ∈ rawLines demoLog.data, byteLen raw < 1024 * 1024) ∧
    readRankLogTail (some demoLog) 2 = Res.ok ["Line 3", "Line 4"] ∧
    readRankLogTail (some demoLog) 2 =
      Res.ok ((textLines demoLog).drop
        ((textLines demoLog).length - min (2 : Int).toNat (textLines demoLog).length)) :=
  ⟨by decide, by decide, rfl, readRankLogTail_tail demoLog 2 (by decide) (by decide)⟩

theorem long_line_err (n : Nat) (h : 1024 * 1024 ≤ n + 1) (N : Int) (hN : 0 ≤ N) :
    textLines (String.mk (List.replicate (n + 1) 'a')) =
      [String.mk (List.replicate (n + 1) 'a')] ∧
    readRankLogTail (some (String.mk (List.replicate (n + 1) 'a'))) N = Res.err := by
  constructor
  · unfold textLines
    rw [rawLines_replicate]
    have hl : (List.replicate (n + 1) 'a').getLast? = some 'a' := by
      rw [List.replicate_succ', List.getLast?_append]
      rfl
    unfold dropCR
    rw [List.map_cons, List.map_nil, hl, if_neg (by decide)]
  · have hscan : scanLines (1024 * 1024) [List.replicate (n + 1) 'a'] = ([], true) := by
      unfold scanLines
      rw [if_pos (by rw [byteLen_replicate]; exact h)]
    have hnn : ¬ N < 0 := by omega
    unfold readRankLogTail
    dsimp only
    rw [rawLines_replicate, hscan, if_neg hnn]
    rfl

/-- Counterexample to C28 as stated: a log file that holds one line of 1 MiB; asked for
its last 10 lines, `readRankLogTail` returns an error (the line does not fit the buffer
of the scanner). -/
theorem readRankLogTail_tail_counterexample :
    textLines (String.mk (List.replicate 1048576 'a')) =
      [String.mk (List.replicate 1048576 'a')] ∧
    readRankLogTail (some (String.mk (List.replicate 1048576 'a'))) 10 = Res.err :=
  long_line_err 1048575 (by decide) 10 (by decide)

theorem readRankLogTail_zero_panics :
    readRankLogTail (some demoLog) 0 = Res.panic := rfl

theorem rankRound_rank {E : Type} (env : LogEnv E) (maxLines rank : Int) (ranklog : RankLog E)
    (h : rankRound env maxLines rank = some ranklog) :
    ranklog.Rank = "RANK" ++ toString rank := by
  unfold rankRound at h
  split at h
  · cases h
  · dsimp only at h
    split at h
    · cases h
      rfl
    · cases h
      rfl

theorem rankLoop_ranks {E : Type} (env : LogEnv E) (maxLines rankMax : Int) :
    ∀ (n : Nat) (rank : Int) (logs : List (RankLog E)),
      rankLoop env maxLines rankMax n rank = some logs →
      logs.map (fun r => r.Rank) =
        (List.range (min n (rankMax - rank).toNat)).map
          fun (i : Nat) => "RANK" ++ toString (rank + (i : Int)) := by
  intro n
  induction n with
  | zero =>
    intro rank logs h
    cases h
    rw [Nat.zero_min]
    rfl
  | succ n ih =>
    intro rank logs h
    unfold rankLoop at h
    by_cases hlt : rank < rankMax
    · rw [if_pos hlt] at h
      obtain ⟨o, ho⟩ : ∃ o, rankRound env maxLines rank = o := ⟨_, rfl⟩
      rw [ho] at h
      cases o with
      | none => cases h
      | some ranklog =>
        dsimp only at h
        obtain ⟨o1, ho1⟩ : ∃ o1, rankLoop env maxLines rankMax n (rank + 1) = o1 := ⟨_, rfl⟩
        rw [ho1] at h
        cases o1 with
        | none => cases h
        | some rest =>
          cases h
          have hm : min (n + 1) (rankMax - rank).toNat =
              min n (rankMax - (rank + 1)).toNat + 1 := by omega
          rw [List.map_cons, ih (rank + 1) rest ho1, rankRound_rank env maxLines rank ranklog ho,
            hm, List.range_succ_eq_map, List.map_cons, List.map_map]
          congr 1
          · rw [Nat.cast_zero, Int.add_zero]
          · apply List.map_congr_left
            intro i _
            show "RANK" ++ toString (rank + 1 + (i : Int)) =
              "RANK" ++ toString (rank + ((i + 1 : Nat) : Int))
            rw [Nat.cast_succ, Int.add_assoc, Int.add_comm 1]
    · rw [if_neg hlt] at h
      cases h
      have : (rankMax - rank).toNat = 0 := by omega
      rw [this, Nat.min_zero]
      rfl

/-- C29 (the code deviates). `GetRecentLogs` on a node whose rank range is
`[rankMin, rankMax]`: the loop runs `for rank := rankMin; rank < rankMax; rank++`, so a
call that returns yields `rankMax - rankMin` records, labelled `RANK<r>` for
`rankMin ≤ r < rankMax` in increasing order; the record of rank `rankMax` is missing. -/
theorem GetRecentLogs_misses_last_rank {E : Type} (env : LogEnv E) (maxLines rankMin rankMax : Int)
    (logs : List (RankLog E)) (hr : env.rankRange = some (rankMin, rankMax))
    (hle : rankMin ≤ rankMax) (h : GetRecentLogs env maxLines = Res.ok logs) :
    logs.map (fun r => r.Rank) =
      (List.range (rankMax - rankMin).toNat).map
        (fun (i : Nat) => "RANK" ++ toString (rankMin + (i : Int))) ∧
    (logs.length : Int) = rankMax - rankMin ∧
    (logs.length : Int) ≠ rankMax - rankMin + 1 := by
  have hranks : logs.map (fun r => r.Rank) =
      (List.range (rankMax - rankMin).toNat).map
        (fun (i : Nat) => "RANK" ++ toString (rankMin + (i : Int))) := by
    unfold GetRecentLogs at h
    cases hd : env.logDir with
    | none =>
      rw [hd] at h
      cases h
    | some dir =>
      rw [hd, hr] at h
      dsimp only at h
      split at h
      · cases h
      · obtain ⟨o, ho⟩ : ∃ o, rankLoop env maxLines rankMax (rankMax - rankMin).toNat rankMin = o :=
          ⟨_, rfl⟩
        rw [ho] at h
        cases o with
        | none => cases h
        | some rankLogs =>
          cases h
          have := rankLoop_ranks env maxLines rankMax _ rankMin logs ho
          rw [Nat.min_self] at this
          exact this
  have hlen : logs.length = (rankMax - rankMin).toNat := by
    have := congrArg List.length hranks
    rw [List.length_map, List.length_map, List.length_range] at this
    exact this
  refine ⟨hranks, ?_, ?_⟩
  · rw [hlen]
    omega
  · rw [hlen]
    omega

/-- Witness of C29 -/
theorem GetRecentLogs_misses_last_rank_witness :
    demoLogEnv.rankRange = some (0, 1) ∧ (0 : Int) ≤ 1 ∧
    GetRecentLogs demoLogEnv 2 = Res.ok [⟨"RANK0", 100, 3, ["Line 3", "Line 4"]⟩] ∧
    "RANK1" ∉ ([⟨"RANK0", 100, 3, ["Line 3", "Line 4"]⟩] : List (RankLog String)).map
      (fun r => r.Rank) ∧
    (([⟨"RANK0", 100, 3, ["Line 3", "Line 4"]⟩] : List (RankLog String)).map (fun r => r.Rank) =
      (List.range ((1 : Int) - 0).toNat).map (fun (i : Nat) => "RANK" ++ toString ((0 : Int) + (i : Int))) ∧
    ((([⟨"RANK0", 100, 3, ["Line 3", "Line 4"]⟩] : List (RankLog String)).length : Nat) : Int) =
      1 - 0 ∧
    ((([⟨"RANK0", 100, 3, ["Line 3", "Line 4"]⟩] : List (RankLog String)).length : Nat) : Int) ≠
      1 - 0 + 1) :=
  ⟨rfl, by decide, rfl, by decide,
    GetRecentLogs_misses_last_rank demoLogEnv 2 0 1 _ rfl (by decide) rfl⟩

end Logtail

namespace Textparser

open Go Storage

/-! ## stack_parser.go -/

theorem appendLast_snoc (F : List String) (f s : String) :
    appendLast (F ++ [f]) s = F ++ [f ++ s] := by
  induction F with
  | nil => rfl
  | cons a F ih =>
    cases F with
    | nil => rfl
    | cons b F =>
      rw [List.cons_append, List.cons_append, appendLast, ← List.cons_append, ih]
      rfl

theorem parseThreadHeader_frames (line : String) : (parseThreadHeader line).StackFrames = [] := by
  unfold parseThreadHeader
  split <;> rfl

theorem frameStep_frame (F : List String) (l : String) (hf : isPythonFrame l = true) :
    frameStep F l = F ++ [cleanFrame l] := by
  unfold frameStep
  rw [if_pos hf]

theorem frameStep_code (F : List String) (l : String) (hf : ¬ isPythonFrame l = true)
    (hc : isCodeLine l = true) :
    frameStep F l = if F.length > 0 then appendLast F ("\n" ++ TrimSpace l) else F := by
  unfold frameStep
  rw [if_neg hf, if_pos hc]

theorem frameStep_other (F : List String) (l : String) (hf : ¬ isPythonFrame l = true)
    (hc : ¬ isCodeLine l = true) : frameStep F l = F := by
  unfold frameStep
  rw [if_neg hf, if_neg hc]

theorem grow_snoc (body : List String) :
    ∀ (F : List String) (f : String),
      body.foldl frameStep (F ++ [f]) =
        F ++ (f ++ codeText (body.takeWhile fun x => !isPythonFrame x)) :: specFrames body := by
  induction body with
  | nil =>
    intro F f
    show F ++ [f] = F ++ [f ++ ""]
    rw [String.append_empty]
  | cons l rest ih =>
    intro F f
    rw [List.foldl_cons]
    by_cases hf : isPythonFrame l = true
    · rw [frameStep_frame _ l hf, ih (F ++ [f]) (cleanFrame l),
        List.takeWhile_cons_of_neg (by simp [hf]), specFrames, if_pos hf, List.append_assoc]
      show F ++ _ = F ++ (f ++ "") :: _
      rw [String.append_empty]
      rfl
    · rw [List.takeWhile_cons_of_pos (by simp [hf]), specFrames, if_neg hf, codeText]
      by_cases hc : isCodeLine l = true
      · rw [frameStep_code _ l hf hc, if_pos hc, if_pos (by simp), appendLast_snoc, ih,
          String.append_assoc]
      · rw [frameStep_other _ l hf hc, if_neg hc, ih]

theorem grow_nil (body : List String) : body.foldl frameStep [] = specFrames body := by
  induction body with
  | nil => rfl
  | cons l rest ih =>
    rw [List.foldl_cons]
    by_cases hf : isPythonFrame l = true
    · rw [frameStep_frame _ l hf, specFrames, if_pos hf]
      exact grow_snoc rest [] (cleanFrame l)
    · rw [specFrames, if_neg hf]
      by_cases hc : isCodeLine l = true
      · rw [frameStep_code _ l hf hc, if_neg (by simp)]
        exact ih
      · rw [frameStep_other _ l hf hc]
        exact ih

theorem parseLine_body (T : List ThreadStack) (c : ThreadStack) (l : String)
    (h : isThreadStart l = false) :
    parseLine (T, some c) l = (T, some { c with StackFrames := frameStep c.StackFrames l }) := by
  unfold parseLine frameStep
  rw [h]
  simp only [Bool.false_eq_true, if_false]
  by_cases hf : isPythonFrame l = true
  · rw [if_pos hf, if_pos hf]
  · rw [if_neg hf, if_neg hf]
    by_cases hc : isCodeLine l = true
    · rw [if_pos hc, if_pos hc]
      by_cases hl : c.StackFrames.length > 0
      · rw [if_pos hl, if_pos hl]
      · rw [if_neg hl, if_neg hl]
    · rw [if_neg hc, if_neg hc]

theorem parseLine_none (T : List ThreadStack) (l : String) (h : isThreadStart l = false) :
    parseLine (T, none) l = (T, none) := by
  unfold parseLine
  rw [h]
  simp only [Bool.false_eq_true, if_false]
  split
  · rfl
  · split <;> rfl

theorem specThreads_dropWhile (L : List String) :
    specThreads (L.dropWhile fun x => !isThreadStart x) = specThreads L := by
  induction L with
  | nil => rfl
  | cons l rest ih =>
    by_cases h : isThreadStart l = true
    · rw [List.dropWhile_cons_of_neg (by simp [h])]
    · rw [List.dropWhile_cons_of_pos (by simp [h]), ih, specThreads, if_neg h]

/-- The threads `Parse` hands over after one input: the `append` after the scanning
loop. -/
theorem finish_eq (st : List ThreadStack × Option ThreadStack) :
    (match st.2 with
      | some current => st.1 ++ [current]
      | none => st.1) = st.1 ++ st.2.toList := by
  obtain ⟨T, cur⟩ := st
  cases cur <;> simp

theorem loop_spec (L : List String) :
    ∀ (T : List ThreadStack),
      ((L.foldl parseLine (T, none)).1 ++ (L.foldl parseLine (T, none)).2.toList =
        T ++ specThreads L) ∧
      ∀ c : ThreadStack,
        (L.foldl parseLine (T, some c)).1 ++ (L.foldl parseLine (T, some c)).2.toList =
          T ++ { c with StackFrames :=
              (L.takeWhile fun x => !isThreadStart x).foldl frameStep c.StackFrames } ::
            specThreads L := by
  induction L with
  | nil =>
    intro T
    refine ⟨?_, fun c => ?_⟩
    · show T ++ [] = T ++ []
      rfl
    · rfl
  | cons l rest ih =>
    intro T
    by_cases h : isThreadStart l = true
    · have hdr : ∀ st : List ThreadStack × Option ThreadStack,
          parseLine st l = (st.1 ++ st.2.toList, some (parseThreadHeader l)) := by
        intro st
        unfold parseLine
        rw [if_pos h]
        obtain ⟨T1, cur⟩ := st
        cases cur <;> simp
      have hs : specThreads (l :: rest) =
          { parseThreadHeader l with
            StackFrames := specFrames (rest.takeWhile fun x => !isThreadStart x) } ::
            specThreads rest := by
        rw [specThreads, if_pos h]
      refine ⟨?_, fun c => ?_⟩
      · rw [List.foldl_cons, hdr, (ih _).2, hs, parseThreadHeader_frames, grow_nil]
        simp
      · rw [List.foldl_cons, hdr, (ih _).2, hs, parseThreadHeader_frames, grow_nil,
          List.takeWhile_cons_of_neg (by simp [h])]
        simp
    · have h0 : isThreadStart l = false := by simpa using h
      have hs : specThreads (l :: rest) = specThreads rest := by
        rw [specThreads, if_neg h]
      refine ⟨?_, fun c => ?_⟩
      · rw [List.foldl_cons, parseLine_none T l h0, (ih T).1, hs]
      · rw [List.foldl_cons, parseLine_body T c l h0, (ih T).2, hs,
          List.takeWhile_cons_of_pos (by simp [h0]), List.foldl_cons]

theorem parseInput_spec (T : List ThreadStack) (input : String)
    (hshort : ∀ raw ∈ rawLines input.data, byteLen raw < 64 * 1024) :
    parseInput T input = T ++ specThreads (textLines input) := by
  unfold parseInput
  dsimp only
  rw [finish_eq, scanLines_short _ _ hshort]
  exact (loop_spec (textLines input) T).1

theorem foldl_parseInput (inputs : List String) :
    ∀ T : List ThreadStack,
      (∀ input ∈ inputs, ∀ raw ∈ rawLines input.data, byteLen raw < 64 * 1024) →
      inputs.foldl parseInput T = T ++ inputs.flatMap fun input => specThreads (textLines input) := by
  induction inputs with
  | nil =>
    intro T _
    simp
  | cons input rest ih =>
    intro T h
    rw [List.foldl_cons, parseInput_spec T input (h input (List.mem_cons_self _ _)),
      ih _ (fun i hi => h i (List.mem_cons_of_mem _ hi)), List.flatMap_cons, List.append_assoc]

/-- C22 (as amended). `Parse` groups frames under thread headers: for input texts whose
lines are shorter than 64 KiB it returns, without error, one `ThreadStack` per line that
begins with "Traceback for thread", in order of appearance; its `StackFrames` are the
lines containing "(Python) File" between its header and the next, in order, each with
the first "(Python) " removed and trimmed, and with every following code line (a line
that begins with four spaces, does not contain "File" and is not blank) appended after a
newline in trimmed form; lines before the first header are discarded. -/
theorem Parse_groups (inputs : List String)
    (hshort : ∀ input ∈ inputs, ∀ raw ∈ rawLines input.data, byteLen raw < 64 * 1024) :
    Parse inputs = (inputs.flatMap fun input => specThreads (textLines input), false) := by
  unfold Parse
  rw [foldl_parseInput inputs [] hshort, List.nil_append]

/-- Witness of C22 -/
theorem Parse_groups_witness :
    (∀ input ∈ [demoDump], ∀ raw ∈ rawLines input.data, byteLen raw < 64 * 1024) ∧
    Parse [demoDump] =
      ([⟨2843, "pt_autograd_0",
          ["File /torch/autograd/function.py, line 307, in apply\nreturn user_fn(self, *args)",
            "File /tmp/yy.py, line 101, in call\nbuf0.copy_(primals_2, False)"]⟩,
        ⟨1654, "python",
          ["File /usr/lib/python3.12/threading.py, line 355, in wait\nwaiter.acquire()"]⟩],
        false) ∧
    Parse [demoDump] = ([demoDump].flatMap fun input => specThreads (textLines input), false) :=
  ⟨by decide, rfl, Parse_groups [demoDump] (by decide)⟩

/-- Counterexample to C22 as stated: the indented code line `raise FileNotFoundError(p)`
follows a frame line and is not appended to the frame, because it contains `File`. -/
theorem Parse_groups_counterexample :
    textLines demoFileDump =
      ["Traceback for thread 7 (main) [] (most recent call last):",
        "    (Python) File /app/a.py, line 1, in f",
        "        raise FileNotFoundError(p)"] ∧
    isThreadStart "        raise FileNotFoundError(p)" = false ∧
    isPythonFrame "        raise FileNotFoundError(p)" = false ∧
    HasPrefix "        raise FileNotFoundError(p)" "    " = true ∧
    TrimSpace "        raise FileNotFoundError(p)" = "raise FileNotFoundError(p)" ∧
    Parse [demoFileDump] = ([⟨7, "main", ["File /app/a.py, line 1, in f"]⟩], false) :=
  ⟨rfl, rfl, rfl, rfl, rfl, rfl⟩

end Textparser
